import Mathlib

/-!
Verification of the generic type-erased search/sort toolkit of algorithms.c
(linear_search, binary_search, predicate_search, swap, quicksort,
selection_sort, insertion_sort).

Shallow embedding conventions:
  * An array view (base, count, stride) is modelled at element level as a
    Lean list of elements together with the separate size_t parameters
    size and type_size that the C functions receive.  Nullable pointer
    arguments are modelled as Option; a NULL found_size out-pointer is
    the Boolean fsnull.
  * size_t arithmetic: all index arithmetic in the C code stays within
    bounds (no wrap-around occurs on any reachable path), so indices are
    Nat; the one pointer that may move below the array base (right in
    quicksort) is an Int.  SIZE_MAX is 2 ^ 64 - 1.
  * The comparator is a total function into Int; TotalCmp states the
    consistency assumptions (a total preorder presented by a three-way
    comparator).  Fallible comparators that signal through errno are
    modelled separately as functions into Except Nat Int, the error
    carrying the errno value the callback set.
  * Allocation: the pure models let every allocation succeed (the growth
    of the match buffer by capacity doubling is then unobservable and is
    not represented).  The fallible models consult an allocation oracle
    alloc : Nat -> Bool together with a running allocation counter.
-/

/-- SIZE_MAX of the 64-bit platform the code targets. -/
def SIZE_MAX : Nat := 2 ^ 64 - 1

/-- errno value EINVAL (invalid argument). -/
def EINVAL : Nat := 22

/-- errno value ENOMEM (allocation failure). -/
def ENOMEM : Nat := 12

/-- errno value EOVERFLOW (value too large). -/
def EOVERFLOW : Nat := 75

/-- The undefined sentinel (size_t)-1 stored into found_size on errors. -/
def SENTINEL : Nat := SIZE_MAX

/-- Element read arr[i]; out-of-range reads return the default element
(they do not occur on the paths the theorems talk about). -/
def gi {α : Type u} [Inhabited α] (l : List α) (i : Nat) : α :=
  l.getD i default

/-- The effect on the element list of a successful call of swap from
algorithms.c on the elements at positions i and j (the three memmove
through the temporary buffer). -/
def swapL {α : Type u} [Inhabited α] (l : List α) (i j : Nat) : List α :=
  (l.set i (gi l j)).set j (gi l i)

/-- TotalCmp cmp: the comparator is pure and presents a total preorder:
its strict sign is antisymmetric, the induced less-or-equal relation is
transitive and total. -/
def TotalCmp {α : Type u} (cmp : α → α → Int) : Prop :=
  (∀ a b, cmp a b < 0 ↔ cmp b a > 0) ∧
  (∀ a b c, cmp a b ≤ 0 → cmp b c ≤ 0 → cmp a c ≤ 0) ∧
  (∀ a b, cmp a b ≤ 0 ∨ cmp b a ≤ 0)

section CmpFacts

variable {α : Type u} {cmp : α → α → Int}

theorem TotalCmp.self (h : TotalCmp cmp) (a : α) : cmp a a = 0 := by
  rcases h with ⟨hs, -, -⟩
  have := hs a a
  omega

theorem TotalCmp.zero_symm (h : TotalCmp cmp) {a b : α}
    (hab : cmp a b = 0) : cmp b a = 0 := by
  rcases h with ⟨hs, -, -⟩
  have h1 := hs a b
  have h2 := hs b a
  omega

theorem TotalCmp.le_of_not_lt (h : TotalCmp cmp) {a b : α}
    (hab : ¬ cmp a b < 0) : cmp b a ≤ 0 := by
  rcases h with ⟨hs, -, -⟩
  have h2 : ¬ cmp b a > 0 := fun hgt => hab ((hs a b).mpr hgt)
  omega

theorem TotalCmp.le_of_le_of_lt (h : TotalCmp cmp) {a b c : α}
    (hab : cmp a b ≤ 0) (hbc : cmp b c < 0) : cmp a c < 0 := by
  by_contra hac
  have h1 : cmp c a ≤ 0 := h.le_of_not_lt hac
  have h2 : cmp c b ≤ 0 := h.2.1 _ _ _ h1 hab
  have := h.1 b c
  omega

theorem TotalCmp.lt_of_lt_of_le (h : TotalCmp cmp) {a b c : α}
    (hab : cmp a b < 0) (hbc : cmp b c ≤ 0) : cmp a c < 0 := by
  by_contra hac
  have h1 : cmp c a ≤ 0 := h.le_of_not_lt hac
  have h2 : cmp b a ≤ 0 := h.2.1 _ _ _ hbc h1
  have := h.1 a b
  omega

theorem TotalCmp.ge_symm (h : TotalCmp cmp) {a b : α}
    (hab : 0 ≤ cmp a b) : cmp b a ≤ 0 := by
  rcases h with ⟨hs, -, -⟩
  by_cases hgt : cmp b a > 0
  · have := (hs a b).mpr hgt
    omega
  · omega

end CmpFacts

section ListFacts

variable {α : Type u} [Inhabited α]

theorem gi_eq_getElem {l : List α} {i : Nat} (h : i < l.length) :
    gi l i = l[i] := by
  simp [gi, List.getD_eq_getElem?_getD, List.getElem?_eq_getElem h]

theorem gi_set {l : List α} {i k : Nat} {x : α} :
    gi (l.set i x) k = if i = k ∧ i < l.length then x else gi l k := by
  simp only [gi, List.getD_eq_getElem?_getD, List.getElem?_set]
  by_cases h1 : i = k
  · subst h1
    by_cases h2 : i < l.length
    · simp [h2]
    · rw [List.getElem?_eq_none (by omega)]
      simp [h2]
  · simp [h1]

theorem length_swapL (l : List α) (i j : Nat) :
    (swapL l i j).length = l.length := by
  simp [swapL]

theorem swapL_self (l : List α) (i : Nat) : swapL l i i = l := by
  unfold swapL
  by_cases h : i < l.length
  · apply List.ext_getElem
    · simp
    · intro k hk1 hk2
      by_cases hik : i = k
      · subst hik
        simp [List.getElem_set, gi_eq_getElem h]
      · simp [List.getElem_set, hik]
  · rw [List.set_eq_of_length_le (by simp only [List.length_set]; omega),
      List.set_eq_of_length_le (by omega)]

theorem gi_swapL_left {l : List α} {i j : Nat} (hi : i < l.length)
    (hj : j < l.length) : gi (swapL l i j) j = gi l i := by
  unfold swapL
  rw [gi_set]
  simp [hj]

theorem gi_swapL_right {l : List α} {i j : Nat} (hi : i < l.length)
    (hj : j < l.length) (hne : j ≠ i) : gi (swapL l i j) i = gi l j := by
  unfold swapL
  rw [gi_set, if_neg (by simp [hne]), gi_set]
  simp [hi]

theorem gi_swapL_other {l : List α} {i j k : Nat} (hki : k ≠ i) (hkj : k ≠ j) :
    gi (swapL l i j) k = gi l k := by
  unfold swapL
  rw [gi_set, if_neg (by simp; intro h; omega), gi_set,
    if_neg (by simp; intro h; omega)]

/-- Putting the old head somewhere into the tail keeps the multiset. -/
theorem perm_cons_set {x : α} : ∀ (xs : List α) (k : Nat), k < xs.length →
    (gi xs k :: xs.set k x).Perm (x :: xs) := by
  intro xs
  induction xs with
  | nil => intro k hk; simp at hk
  | cons a t ih =>
    intro k hk
    match k with
    | 0 =>
      simp only [gi, List.getD_eq_getElem?_getD, List.getElem?_cons_zero,
        Option.getD_some, List.set_cons_zero]
      exact List.Perm.swap x a t
    | k + 1 =>
      have hk' : k < t.length := by simpa using hk
      have step : gi (a :: t) (k + 1) = gi t k := by
        simp [gi]
      rw [step, List.set_cons_succ]
      exact (List.Perm.swap a (gi t k) _).trans
        ((List.Perm.cons a (ih k hk')).trans (List.Perm.swap x a t))

theorem swapL_perm : ∀ (l : List α) (i j : Nat), i < l.length →
    j < l.length → (swapL l i j).Perm l := by
  intro l
  induction l with
  | nil => intro i j hi; simp at hi
  | cons a t ih =>
    intro i j hi hj
    match i, j with
    | 0, 0 => rw [swapL_self]
    | 0, m + 1 =>
      have hm : m < t.length := by simpa using hj
      have : swapL (a :: t) 0 (m + 1) = gi t m :: t.set m a := by
        simp only [swapL, gi, List.getD_eq_getElem?_getD]
        simp
      rw [this]
      exact perm_cons_set t m hm
    | m + 1, 0 =>
      have hm : m < t.length := by simpa using hi
      have : swapL (a :: t) (m + 1) 0 = gi t m :: t.set m a := by
        simp only [swapL, gi, List.getD_eq_getElem?_getD]
        simp
      rw [this]
      exact perm_cons_set t m hm
    | m + 1, k + 1 =>
      have hm : m < t.length := by simpa using hi
      have hk : k < t.length := by simpa using hj
      have : swapL (a :: t) (m + 1) (k + 1) = a :: swapL t m k := by
        simp only [swapL, gi, List.getD_eq_getElem?_getD]
        simp
      rw [this]
      exact List.Perm.cons a (ih m k hm hk)

end ListFacts

/-! ## The three search entry points

Each search is modelled by its loop (state-threaded: the loop passes the
borrowed array and, for linear and predicate search, the growing match
buffer along) plus an entry wrapper doing the argument validation and the
overflow guard of the C function.  The output record collects the returned
buffer pointer, the value stored through found_size (none when the
out-pointer is NULL) and the errno value the call set (none: untouched). -/

/-- Result of one search call: final state of the borrowed array view and
target, returned buffer, stored match count, errno set by the call. -/
structure SOut (α : Type u) where
  arr : Option (List α)
  tgt : Option α
  buf : Option (List α)
  cnt : Option Nat
  err : Option Nat
  deriving DecidableEq

/-- The scan loop of linear_search: for i from 0 to size-1 compare the
i-th element with the target and append it to the match buffer on a zero
comparison result.  The borrowed array is threaded through unchanged
alongside the buffer (the loop only reads it). -/
def linLoop {α : Type u} [Inhabited α] (cmp : α → α → Int) (size : Nat) (t : α)
    (arr : List α) (i : Nat) (found : List α) : List α × List α :=
  if _h : i < size then
    let c := gi arr i
    if cmp c t = 0 then linLoop cmp size t arr (i + 1) (found ++ [c])
    else linLoop cmp size t arr (i + 1) found
  else (arr, found)
termination_by size - i

/-- linear_search from algorithms.c, pure-comparator model with all
allocations succeeding (so the capacity-doubling growth of the match
buffer and the final shrink-to-fit are unobservable). -/
def linear_search {α : Type u} [Inhabited α] (arr? : Option (List α)) (size : Nat)
    (tgt? : Option α) (ts : Nat) (cmp? : Option (α → α → Int)) (fsnull : Bool) :
    SOut α :=
  match arr?, tgt?, cmp? with
  | some a, some t, some cmp =>
    if ts = 0 || fsnull then
      ⟨arr?, tgt?, none, if fsnull then none else some SENTINEL, some EINVAL⟩
    else if size > SIZE_MAX / ts then
      ⟨arr?, tgt?, none, some SENTINEL, some EOVERFLOW⟩
    else
      let r := linLoop cmp size t a 0 []
      ⟨some r.1, tgt?, if r.2.length = 0 then none else some r.2,
        some r.2.length, none⟩
  | _, _, _ =>
    ⟨arr?, tgt?, none, if fsnull then none else some SENTINEL, some EINVAL⟩

/-- The scan loop of predicate_search: the bound argument list is copied
for every call in the C code; with a pure predicate the copy is the
identity, so the model applies the predicate directly. -/
def predLoop {α : Type u} [Inhabited α] (p : α → Bool) (size : Nat)
    (arr : List α) (i : Nat) (found : List α) : List α × List α :=
  if _h : i < size then
    let c := gi arr i
    if p c then predLoop p size arr (i + 1) (found ++ [c])
    else predLoop p size arr (i + 1) found
  else (arr, found)
termination_by size - i

/-- predicate_search from algorithms.c, pure-predicate model with all
allocations succeeding.  It takes no target element. -/
def predicate_search {α : Type u} [Inhabited α] (arr? : Option (List α))
    (size : Nat) (ts : Nat) (fsnull : Bool) (p? : Option (α → Bool)) : SOut α :=
  match arr?, p? with
  | some a, some p =>
    if ts = 0 || fsnull then
      ⟨arr?, none, none, if fsnull then none else some SENTINEL, some EINVAL⟩
    else if size > SIZE_MAX / ts then
      ⟨arr?, none, none, some SENTINEL, some EOVERFLOW⟩
    else
      let r := predLoop p size a 0 []
      ⟨some r.1, none, if r.2.length = 0 then none else some r.2,
        some r.2.length, none⟩
  | _, _ =>
    ⟨arr?, none, none, if fsnull then none else some SENTINEL, some EINVAL⟩

/-- The main loop of binary_search: narrow [left, right] to some index
whose element compares equal to the target; none mirrors the C sentinel
found_idx == (size_t)-1.  The middle == 0 test guards the size_t
decrement right = middle - 1 exactly as in the source. -/
def bsMain {α : Type u} [Inhabited α] (cmp : α → α → Int) (arr : List α) (t : α)
    (left right : Nat) : Option Nat :=
  if _h : left ≤ right then
    let middle := left + (right - left) / 2
    let c := cmp (gi arr middle) t
    if c < 0 then bsMain cmp arr t (middle + 1) right
    else if c > 0 then
      if middle = 0 then none
      else bsMain cmp arr t left (middle - 1)
    else some middle
  else none
termination_by right + 1 - left

/-- The leftmost-duplicate loop of binary_search: narrow [low, high]
(initially [0, found_idx]) to the smallest index equal to the target. -/
def bsLeft {α : Type u} [Inhabited α] (cmp : α → α → Int) (arr : List α) (t : α)
    (low high : Nat) : Nat :=
  if _h : low < high then
    let mid := low + (high - low) / 2
    if cmp (gi arr mid) t < 0 then bsLeft cmp arr t (mid + 1) high
    else bsLeft cmp arr t low mid
  else low
termination_by high - low

/-- The rightmost-duplicate loop of binary_search: narrow [low, high]
(initially [found_idx, size-1]) to the largest index equal to the target,
using the upper middle low + (high - low + 1) / 2. -/
def bsRight {α : Type u} [Inhabited α] (cmp : α → α → Int) (arr : List α) (t : α)
    (low high : Nat) : Nat :=
  if _h : low < high then
    let mid := low + (high - low + 1) / 2
    if cmp (gi arr mid) t > 0 then bsRight cmp arr t low (mid - 1)
    else bsRight cmp arr t mid high
  else low
termination_by high - low

/-- binary_search from algorithms.c, pure-comparator model with the
result-buffer allocation succeeding.  The memcpy of the duplicate run
[leftmost, rightmost] is the corresponding drop/take of the list. -/
def binary_search {α : Type u} [Inhabited α] (arr? : Option (List α)) (size : Nat)
    (tgt? : Option α) (ts : Nat) (cmp? : Option (α → α → Int)) (fsnull : Bool) :
    SOut α :=
  match arr?, tgt?, cmp? with
  | some a, some t, some cmp =>
    if ts = 0 || fsnull then
      ⟨arr?, tgt?, none, if fsnull then none else some SENTINEL, some EINVAL⟩
    else if size > SIZE_MAX / ts then
      ⟨arr?, tgt?, none, some SENTINEL, some EOVERFLOW⟩
    else if size = 0 then
      ⟨arr?, tgt?, none, some 0, none⟩
    else
      match bsMain cmp a t 0 (size - 1) with
      | none => ⟨arr?, tgt?, none, some 0, none⟩
      | some found_idx =>
        let leftmost := bsLeft cmp a t 0 found_idx
        let rightmost := bsRight cmp a t found_idx (size - 1)
        let run := (a.drop leftmost).take (rightmost - leftmost + 1)
        ⟨arr?, tgt?, some run, some (rightmost - leftmost + 1), none⟩
  | _, _, _ =>
    ⟨arr?, tgt?, none, if fsnull then none else some SENTINEL, some EINVAL⟩

/-! ## Facts about linear_search and predicate_search -/

section LinearSearch

variable {α : Type u} [Inhabited α]

theorem linLoop_arr (cmp : α → α → Int) (size : Nat) (t : α) (a : List α) :
    ∀ i acc, (linLoop cmp size t a i acc).1 = a := by
  have key : ∀ n i acc, size - i ≤ n → (linLoop cmp size t a i acc).1 = a := by
    intro n
    induction n with
    | zero =>
      intro i acc hn
      rw [linLoop]
      have : ¬ i < size := by omega
      simp [this]
    | succ n ih =>
      intro i acc hn
      rw [linLoop]
      by_cases hi : i < size
      · simp only [hi, dif_pos]
        split
        · exact ih (i + 1) _ (by omega)
        · exact ih (i + 1) _ (by omega)
      · simp [hi]
  intro i acc
  exact key (size - i) i acc le_rfl

theorem predLoop_arr (p : α → Bool) (size : Nat) (a : List α) :
    ∀ i acc, (predLoop p size a i acc).1 = a := by
  have key : ∀ n i acc, size - i ≤ n → (predLoop p size a i acc).1 = a := by
    intro n
    induction n with
    | zero =>
      intro i acc hn
      rw [predLoop]
      have : ¬ i < size := by omega
      simp [this]
    | succ n ih =>
      intro i acc hn
      rw [predLoop]
      by_cases hi : i < size
      · simp only [hi, dif_pos]
        split
        · exact ih (i + 1) _ (by omega)
        · exact ih (i + 1) _ (by omega)
      · simp [hi]
  intro i acc
  exact key (size - i) i acc le_rfl

theorem linLoop_found (cmp : α → α → Int) (t : α) (a : List α) :
    ∀ i acc, (linLoop cmp a.length t a i acc).2
      = acc ++ (a.drop i).filter (fun x => cmp x t == 0) := by
  have key : ∀ n i acc, a.length - i ≤ n → (linLoop cmp a.length t a i acc).2
      = acc ++ (a.drop i).filter (fun x => cmp x t == 0) := by
    intro n
    induction n with
    | zero =>
      intro i acc hn
      rw [linLoop]
      have h1 : ¬ i < a.length := by omega
      rw [List.drop_eq_nil_of_le (by omega)]
      simp [h1]
    | succ n ih =>
      intro i acc hn
      rw [linLoop]
      by_cases hi : i < a.length
      · rw [List.drop_eq_getElem_cons hi, List.filter_cons]
        simp only [hi, dif_pos]
        rw [← gi_eq_getElem hi]
        by_cases hc : cmp (gi a i) t = 0
        · rw [if_pos hc, ih (i + 1) _ (by omega), if_pos (by simpa using hc)]
          simp
        · rw [if_neg hc, ih (i + 1) _ (by omega), if_neg (by simpa using hc)]
      · rw [List.drop_eq_nil_of_le (by omega)]
        simp [hi]
  intro i acc
  exact key (a.length - i) i acc le_rfl

theorem predLoop_found (p : α → Bool) (a : List α) :
    ∀ i acc, (predLoop p a.length a i acc).2 = acc ++ (a.drop i).filter p := by
  have key : ∀ n i acc, a.length - i ≤ n → (predLoop p a.length a i acc).2
      = acc ++ (a.drop i).filter p := by
    intro n
    induction n with
    | zero =>
      intro i acc hn
      rw [predLoop]
      have h1 : ¬ i < a.length := by omega
      rw [List.drop_eq_nil_of_le (by omega)]
      simp [h1]
    | succ n ih =>
      intro i acc hn
      rw [predLoop]
      by_cases hi : i < a.length
      · rw [List.drop_eq_getElem_cons hi, List.filter_cons]
        simp only [hi, dif_pos]
        rw [← gi_eq_getElem hi]
        by_cases hc : p (gi a i)
        · rw [if_pos hc, ih (i + 1) _ (by omega), if_pos hc]
          simp
        · rw [if_neg hc, ih (i + 1) _ (by omega), if_neg hc]
      · rw [List.drop_eq_nil_of_le (by omega)]
        simp [hi]
  intro i acc
  exact key (a.length - i) i acc le_rfl

theorem no_overflow_guard {size ts : Nat} (hts : 0 < ts)
    (hov : size * ts ≤ SIZE_MAX) : ¬ size > SIZE_MAX / ts := by
  have := (Nat.le_div_iff_mul_le hts).mpr hov
  omega

end LinearSearch

/-- The usual three-way integer comparator, used to instantiate witnesses. -/
def intCmp (a b : Int) : Int := if a < b then -1 else if b < a then 1 else 0

theorem intCmp_total : TotalCmp intCmp := by
  refine ⟨fun a b => ?_, fun a b c hab hbc => ?_, fun a b => ?_⟩
  · simp only [intCmp]
    split_ifs <;> omega
  · simp only [intCmp] at hab hbc ⊢
    split_ifs at hab hbc ⊢ <;> omega
  · simp only [intCmp]
    split_ifs <;> omega

/-- A comparator on pairs that inspects only the first component; the
second component tags otherwise comparator-equal elements apart. -/
def fstCmp (a b : Int × Int) : Int := intCmp a.1 b.1

theorem fstCmp_total : TotalCmp fstCmp := by
  refine ⟨fun a b => ?_, fun a b c hab hbc => ?_, fun a b => ?_⟩
  · simp only [fstCmp, intCmp]
    split_ifs <;> omega
  · simp only [fstCmp, intCmp] at hab hbc ⊢
    split_ifs at hab hbc ⊢ <;> omega
  · simp only [fstCmp, intCmp]
    split_ifs <;> omega

/-- Claim C3: with valid non-null arguments, positive stride, no overflow,
a pure comparator and no allocation failure, linear_search returns exactly
the elements comparing equal to the target in original array order, and
stores their number as the match count. -/
theorem claim_C3_linear_search_filter {α : Type u} [Inhabited α] (a : List α) (t : α)
    (ts : Nat) (cmp : α → α → Int) (hts : 0 < ts) (hov : a.length * ts ≤ SIZE_MAX) :
    (linear_search (some a) a.length (some t) ts (some cmp) false).buf
        = (if (a.filter (fun x => cmp x t == 0)).length = 0 then none
           else some (a.filter (fun x => cmp x t == 0))) ∧
    (linear_search (some a) a.length (some t) ts (some cmp) false).cnt
        = some (a.filter (fun x => cmp x t == 0)).length ∧
    (linear_search (some a) a.length (some t) ts (some cmp) false).err = none := by
  have hfound := linLoop_found cmp t a 0 []
  simp only [List.drop_zero, List.nil_append] at hfound
  simp only [linear_search, if_neg (by simp; omega : ¬ (ts = 0 || false) = true),
    if_neg (no_overflow_guard hts hov)]
  simp [hfound]

/-- Witness for claim C3 at a concrete input. -/
theorem claim_C3_witness :
    0 < 4 ∧ ([(1 : Int), 2, 1].length * 4 ≤ SIZE_MAX) ∧
    ((linear_search (some [(1 : Int), 2, 1]) [(1 : Int), 2, 1].length (some 1) 4
        (some intCmp) false).buf = some [1, 1] ∧
     (linear_search (some [(1 : Int), 2, 1]) [(1 : Int), 2, 1].length (some 1) 4
        (some intCmp) false).cnt = some 2) := by
  have h1 : (0 : Nat) < 4 := by decide
  have h2 : [(1 : Int), 2, 1].length * 4 ≤ SIZE_MAX := by decide
  refine ⟨h1, h2, ?_⟩
  have h := claim_C3_linear_search_filter [(1 : Int), 2, 1] 1 4 intCmp h1 h2
  have hf : [(1 : Int), 2, 1].filter (fun x => intCmp x 1 == 0) = [1, 1] := by decide
  rw [hf] at h
  exact ⟨by rw [h.1]; decide, by rw [h.2.1]; decide⟩

/-- Claim C9: none of the three search routines modifies the borrowed
array view or the target element, on any path (valid or invalid
arguments, any size and stride): the array and target components of the
result always equal the inputs. -/
theorem claim_C9_frame {α : Type u} [Inhabited α] (arr? : Option (List α))
    (size : Nat) (tgt? : Option α) (ts : Nat) (cmp? : Option (α → α → Int))
    (p? : Option (α → Bool)) (fsnull : Bool) :
    (linear_search arr? size tgt? ts cmp? fsnull).arr = arr? ∧
    (linear_search arr? size tgt? ts cmp? fsnull).tgt = tgt? ∧
    (binary_search arr? size tgt? ts cmp? fsnull).arr = arr? ∧
    (binary_search arr? size tgt? ts cmp? fsnull).tgt = tgt? ∧
    (predicate_search arr? size ts fsnull p?).arr = arr? := by
  refine ⟨?_, ?_, ?_, ?_, ?_⟩
  · match arr?, tgt?, cmp? with
    | some a, some t, some cmp =>
      simp only [linear_search]
      split_ifs <;> simp [linLoop_arr]
    | none, _, _ => rfl
    | some _, none, _ => rfl
    | some _, some _, none => rfl
  · match arr?, tgt?, cmp? with
    | some a, some t, some cmp =>
      simp only [linear_search]
      split_ifs <;> rfl
    | none, _, _ => rfl
    | some _, none, _ => rfl
    | some _, some _, none => rfl
  · match arr?, tgt?, cmp? with
    | some a, some t, some cmp =>
      simp only [binary_search]
      split_ifs <;> try rfl
      split <;> rfl
    | none, _, _ => rfl
    | some _, none, _ => rfl
    | some _, some _, none => rfl
  · match arr?, tgt?, cmp? with
    | some a, some t, some cmp =>
      simp only [binary_search]
      split_ifs <;> try rfl
      split <;> rfl
    | none, _, _ => rfl
    | some _, none, _ => rfl
    | some _, some _, none => rfl
  · match arr?, p? with
    | some a, some p =>
      simp only [predicate_search]
      split_ifs <;> simp [predLoop_arr]
    | none, _ => rfl
    | some _, none => rfl

/-! ## Facts about binary_search -/

/-- The array is non-decreasing under the comparator. -/
def NonDecr {α : Type u} (cmp : α → α → Int) (l : List α) : Prop :=
  List.Pairwise (fun x y => cmp x y ≤ 0) l

section BinarySearch

variable {α : Type u} [Inhabited α] {cmp : α → α → Int} {a : List α} {t : α}

theorem NonDecr.le (hc : TotalCmp cmp) (hs : NonDecr cmp a) {i j : Nat}
    (hij : i ≤ j) (hj : j < a.length) : cmp (gi a i) (gi a j) ≤ 0 := by
  rcases Nat.eq_or_lt_of_le hij with rfl | hlt
  · rw [hc.self]
  · have hi : i < a.length := by omega
    rw [gi_eq_getElem hi, gi_eq_getElem hj]
    exact List.pairwise_iff_getElem.mp hs i j hi hj hlt

theorem bsMain_some {m : Nat} : ∀ left right,
    bsMain cmp a t left right = some m →
    cmp (gi a m) t = 0 ∧ left ≤ m ∧ m ≤ right := by
  have key : ∀ n left right, right + 1 - left ≤ n →
      bsMain cmp a t left right = some m →
      cmp (gi a m) t = 0 ∧ left ≤ m ∧ m ≤ right := by
    intro n
    induction n with
    | zero =>
      intro left right hn h
      rw [bsMain] at h
      have : ¬ left ≤ right := by omega
      simp [this] at h
    | succ n ih =>
      intro left right hn h
      rw [bsMain] at h
      by_cases hlr : left ≤ right
      · simp only [hlr, dif_pos] at h
        set mid := left + (right - left) / 2 with hmid
        have hm1 : left ≤ mid := by omega
        have hm2 : mid ≤ right := by omega
        have hdiv : (right - left) / 2 ≤ right - left := Nat.div_le_self _ _
        by_cases h1 : cmp (gi a mid) t < 0
        · rw [if_pos h1] at h
          have := ih (mid + 1) right (by omega) h
          exact ⟨this.1, by omega, this.2.2⟩
        · rw [if_neg h1] at h
          by_cases h2 : cmp (gi a mid) t > 0
          · rw [if_pos h2] at h
            by_cases h3 : mid = 0
            · rw [if_pos h3] at h
              exact absurd h (by simp)
            · rw [if_neg h3] at h
              have := ih left (mid - 1) (by omega) h
              exact ⟨this.1, this.2.1, by omega⟩
          · rw [if_neg h2, Option.some_inj] at h
            subst h
            exact ⟨by omega, hm1, hm2⟩
      · simp [hlr] at h
  intro left right
  exact key (right + 1 - left) left right le_rfl

theorem bsMain_none (hc : TotalCmp cmp) (hs : NonDecr cmp a) :
    ∀ left right, right < a.length →
    bsMain cmp a t left right = none →
    ∀ i, left ≤ i → i ≤ right → cmp (gi a i) t ≠ 0 := by
  have key : ∀ n left right, right + 1 - left ≤ n → right < a.length →
      bsMain cmp a t left right = none →
      ∀ i, left ≤ i → i ≤ right → cmp (gi a i) t ≠ 0 := by
    intro n
    induction n with
    | zero =>
      intro left right hn _ _ i h1 h2
      omega
    | succ n ih =>
      intro left right hn hlen h i hi1 hi2
      rw [bsMain] at h
      have hlr : left ≤ right := by omega
      simp only [hlr, dif_pos] at h
      set mid := left + (right - left) / 2 with hmid
      have hm1 : left ≤ mid := by omega
      have hdiv : (right - left) / 2 ≤ right - left := Nat.div_le_self _ _
      have hm2 : mid ≤ right := by omega
      by_cases h1 : cmp (gi a mid) t < 0
      · rw [if_pos h1] at h
        by_cases hi : i ≤ mid
        · have hle : cmp (gi a i) (gi a mid) ≤ 0 := hs.le hc hi (by omega)
          have := hc.le_of_le_of_lt hle h1
          omega
        · exact ih (mid + 1) right (by omega) hlen h i (by omega) hi2
      · rw [if_neg h1] at h
        by_cases h2 : cmp (gi a mid) t > 0
        · rw [if_pos h2] at h
          by_cases hi : mid ≤ i
          · have hle : cmp (gi a mid) (gi a i) ≤ 0 := hs.le hc hi (by omega)
            have hlt : cmp t (gi a mid) < 0 := (hc.1 t (gi a mid)).mpr h2
            have := hc.lt_of_lt_of_le hlt hle
            have := (hc.1 t (gi a i)).mp this
            omega
          · by_cases h3 : mid = 0
            · omega
            · rw [if_neg h3] at h
              exact ih left (mid - 1) (by omega) (by omega) h i hi1 (by omega)
        · rw [if_neg h2] at h
          simp at h
  intro left right hlen h
  exact key (right + 1 - left) left right le_rfl hlen h

theorem bsLeft_spec (hc : TotalCmp cmp) (hs : NonDecr cmp a) :
    ∀ lo hi, lo ≤ hi → hi < a.length → cmp (gi a hi) t = 0 →
    lo ≤ bsLeft cmp a t lo hi ∧ bsLeft cmp a t lo hi ≤ hi ∧
    cmp (gi a (bsLeft cmp a t lo hi)) t = 0 ∧
    (∀ i, lo ≤ i → i < bsLeft cmp a t lo hi → cmp (gi a i) t < 0) := by
  have key : ∀ n lo hi, hi - lo ≤ n → lo ≤ hi → hi < a.length →
      cmp (gi a hi) t = 0 →
      lo ≤ bsLeft cmp a t lo hi ∧ bsLeft cmp a t lo hi ≤ hi ∧
      cmp (gi a (bsLeft cmp a t lo hi)) t = 0 ∧
      (∀ i, lo ≤ i → i < bsLeft cmp a t lo hi → cmp (gi a i) t < 0) := by
    intro n
    induction n with
    | zero =>
      intro lo hi hn hlh hlen h0
      have : lo = hi := by omega
      subst this
      rw [bsLeft]
      simp only [lt_irrefl, dif_neg, not_false_iff]
      exact ⟨le_rfl, le_rfl, h0, fun i h1 h2 => by omega⟩
    | succ n ih =>
      intro lo hi hn hlh hlen h0
      rw [bsLeft]
      by_cases hlt : lo < hi
      · simp only [hlt, dif_pos]
        set mid := lo + (hi - lo) / 2 with hmid
        have hd1 : (hi - lo) / 2 < hi - lo := Nat.div_lt_self (by omega) (by omega)
        have hm1 : lo ≤ mid := by omega
        have hm2 : mid < hi := by omega
        by_cases h1 : cmp (gi a mid) t < 0
        · rw [if_pos h1]
          have hrec := ih (mid + 1) hi (by omega) (by omega) hlen h0
          refine ⟨by omega, hrec.2.1, hrec.2.2.1, fun i hi1 hi2 => ?_⟩
          by_cases him : i ≤ mid
          · exact hc.le_of_le_of_lt (hs.le hc him (by omega)) h1
          · exact hrec.2.2.2 i (by omega) hi2
        · rw [if_neg h1]
          have hmid0 : cmp (gi a mid) t = 0 := by
            have hle : cmp (gi a mid) (gi a hi) ≤ 0 := hs.le hc (by omega) hlen
            have h2 : cmp (gi a mid) t ≤ 0 := hc.2.1 _ _ _ hle (le_of_eq h0)
            have h3 := hc.le_of_not_lt h1
            have h4 := hc.1 (gi a mid) t
            omega
          have hrec := ih lo mid (by omega) (by omega) (by omega) hmid0
          exact ⟨hrec.1, by omega, hrec.2.2.1, hrec.2.2.2⟩
      · simp only [hlt, dif_neg, not_false_iff]
        have : lo = hi := by omega
        subst this
        exact ⟨le_rfl, le_rfl, h0, fun i h1 h2 => by omega⟩
  intro lo hi hlh hlen h0
  exact key (hi - lo) lo hi le_rfl hlh hlen h0

theorem bsRight_spec (hc : TotalCmp cmp) (hs : NonDecr cmp a) :
    ∀ lo hi, lo ≤ hi → hi < a.length → cmp (gi a lo) t = 0 →
    lo ≤ bsRight cmp a t lo hi ∧ bsRight cmp a t lo hi ≤ hi ∧
    cmp (gi a (bsRight cmp a t lo hi)) t = 0 ∧
    (∀ i, bsRight cmp a t lo hi < i → i ≤ hi → cmp (gi a i) t > 0) := by
  have key : ∀ n lo hi, hi - lo ≤ n → lo ≤ hi → hi < a.length →
      cmp (gi a lo) t = 0 →
      lo ≤ bsRight cmp a t lo hi ∧ bsRight cmp a t lo hi ≤ hi ∧
      cmp (gi a (bsRight cmp a t lo hi)) t = 0 ∧
      (∀ i, bsRight cmp a t lo hi < i → i ≤ hi → cmp (gi a i) t > 0) := by
    intro n
    induction n with
    | zero =>
      intro lo hi hn hlh hlen h0
      have : lo = hi := by omega
      subst this
      rw [bsRight]
      simp only [lt_irrefl, dif_neg, not_false_iff]
      exact ⟨le_rfl, le_rfl, h0, fun i h1 h2 => by omega⟩
    | succ n ih =>
      intro lo hi hn hlh hlen h0
      rw [bsRight]
      by_cases hlt : lo < hi
      · simp only [hlt, dif_pos]
        set mid := lo + (hi - lo + 1) / 2 with hmid
        have hd1 : (hi - lo + 1) / 2 ≤ hi - lo := by omega
        have hd2 : 1 ≤ (hi - lo + 1) / 2 := by
          have : 2 ≤ hi - lo + 1 := by omega
          omega
        have hm1 : lo + 1 ≤ mid := by omega
        have hm2 : mid ≤ hi := by omega
        by_cases h1 : cmp (gi a mid) t > 0
        · rw [if_pos h1]
          have hrec := ih lo (mid - 1) (by omega) (by omega) (by omega) h0
          refine ⟨hrec.1, by omega, hrec.2.2.1, fun i hi1 hi2 => ?_⟩
          by_cases him : mid ≤ i
          · have hle : cmp (gi a mid) (gi a i) ≤ 0 := hs.le hc him (by omega)
            have hlt2 : cmp t (gi a mid) < 0 := (hc.1 t (gi a mid)).mpr h1
            have := hc.lt_of_lt_of_le hlt2 hle
            exact (hc.1 t (gi a i)).mp this
          · exact hrec.2.2.2 i hi1 (by omega)
        · rw [if_neg h1]
          have hmid0 : cmp (gi a mid) t = 0 := by
            have hle : cmp (gi a lo) (gi a mid) ≤ 0 := hs.le hc (by omega) (by omega)
            have ht0 : cmp t (gi a lo) = 0 := hc.zero_symm h0
            have h2 : cmp t (gi a mid) ≤ 0 := hc.2.1 _ _ _ (le_of_eq ht0) hle
            have h4 := hc.1 (gi a mid) t
            omega
          have hrec := ih mid hi (by omega) (by omega) hlen hmid0
          exact ⟨by omega, hrec.2.1, hrec.2.2.1, hrec.2.2.2⟩
      · simp only [hlt, dif_neg, not_false_iff]
        have : lo = hi := by omega
        subst this
        exact ⟨le_rfl, le_rfl, h0, fun i h1 h2 => by omega⟩
  intro lo hi hlh hlen h0
  exact key (hi - lo) lo hi le_rfl hlh hlen h0

end BinarySearch

/-- A predicate that holds exactly on an index window [L, R] filters to
that window's segment. -/
theorem filter_eq_window {α : Type u} (p : α → Bool) :
    ∀ (l : List α) (L R : Nat), R < l.length → L ≤ R →
    (∀ i, (h : i < l.length) → (p l[i] = true ↔ (L ≤ i ∧ i ≤ R))) →
    l.filter p = (l.drop L).take (R - L + 1) := by
  intro l
  induction l with
  | nil =>
    intro L R hR
    simp at hR
  | cons x xs ih =>
    intro L R hR hLR hin
    match L with
    | 0 =>
      have hx : p x = true := (hin 0 (by simp)).mpr (by omega)
      rw [List.filter_cons, if_pos hx]
      simp only [List.drop_zero, Nat.sub_zero, List.take_succ_cons]
      match R with
      | 0 =>
        have hnil : xs.filter p = [] := by
          rw [List.filter_eq_nil_iff]
          intro y hy
          rcases List.mem_iff_getElem.mp hy with ⟨i, hilt, rfl⟩
          intro hp
          have := (hin (i + 1) (by simpa using Nat.succ_lt_succ hilt)).mp
            (by simpa using hp)
          omega
        rw [hnil]
        simp
      | R + 1 =>
        have := ih 0 R (by simpa using hR) (by omega)
          (fun i h => by
            have := hin (i + 1) (by simpa using Nat.succ_lt_succ h)
            simpa using this)
        simpa using this
    | L + 1 =>
      have hx : ¬ p x = true := fun hp => by
        have := (hin 0 (by simp)).mp hp
        omega
      rw [List.filter_cons, if_neg hx]
      match R with
      | 0 => omega
      | R + 1 =>
        have := ih L R (by simpa using hR) (by omega)
          (fun i h => by
            have := hin (i + 1) (by simpa using Nat.succ_lt_succ h)
            simpa using this)
        rw [this]
        simp only [List.drop_succ_cons]
        congr 1
        omega

/-- Claim C2: on an array sorted ascending under a pure total-preorder
comparator, with valid non-null arguments, positive stride and no
overflow or allocation failure, binary_search returns exactly the maximal
contiguous run of elements comparator-equal to the target together with
its length as match count; with no equal element (size 0 included) it
returns a null buffer, count 0, and signals no error. -/
theorem claim_C2_binary_search_run {α : Type u} [Inhabited α] (a : List α) (t : α)
    (ts : Nat) (cmp : α → α → Int) (hts : 0 < ts) (hov : a.length * ts ≤ SIZE_MAX)
    (hc : TotalCmp cmp) (hs : NonDecr cmp a) :
    (binary_search (some a) a.length (some t) ts (some cmp) false).buf
        = (if (a.filter (fun x => cmp x t == 0)).length = 0 then none
           else some (a.filter (fun x => cmp x t == 0))) ∧
    (binary_search (some a) a.length (some t) ts (some cmp) false).cnt
        = some (a.filter (fun x => cmp x t == 0)).length ∧
    (binary_search (some a) a.length (some t) ts (some cmp) false).err = none := by
  simp only [binary_search, if_neg (by simp; omega : ¬ (ts = 0 || false) = true),
    if_neg (no_overflow_guard hts hov)]
  by_cases hsz : a.length = 0
  · rw [if_pos hsz]
    rw [List.eq_nil_of_length_eq_zero hsz]
    simp
  · rw [if_neg hsz]
    rcases hmain : bsMain cmp a t 0 (a.length - 1) with _ | f
    · have hnone := bsMain_none hc hs 0 (a.length - 1) (by omega) hmain
      have hnil : a.filter (fun x => cmp x t == 0) = [] := by
        rw [List.filter_eq_nil_iff]
        intro y hy
        rcases List.mem_iff_getElem.mp hy with ⟨i, hilt, rfl⟩
        have := hnone i (by omega) (by omega)
        rw [gi_eq_getElem hilt] at this
        simpa using this
      rw [hnil]
      simp
    · have hfound := bsMain_some 0 (a.length - 1) hmain
      have hflen : f < a.length := by omega
      have hL := bsLeft_spec hc hs 0 f (by omega) hflen hfound.1
      have hR := bsRight_spec hc hs f (a.length - 1) (by omega) (by omega) hfound.1
      set L := bsLeft cmp a t 0 f with hLdef
      set R := bsRight cmp a t f (a.length - 1) with hRdef
      have hLR : L ≤ R := by omega
      have hRlen : R < a.length := by omega
      have hwin : ∀ i, (h : i < a.length) →
          ((cmp a[i] t == 0) = true ↔ (L ≤ i ∧ i ≤ R)) := by
        intro i h
        simp only [beq_iff_eq]
        constructor
        · intro h0
          constructor
          · by_contra hiL
            have := hL.2.2.2 i (by omega) (by omega)
            rw [gi_eq_getElem h] at this
            omega
          · by_contra hiR
            have := hR.2.2.2 i (by omega) (by omega)
            rw [gi_eq_getElem h] at this
            omega
        · intro ⟨h1, h2⟩
          have hge : cmp a[i] t ≥ 0 := by
            have ht0 : cmp t (gi a L) = 0 := hc.zero_symm hL.2.2.1
            have hle : cmp (gi a L) (gi a i) ≤ 0 := hs.le hc h1 h
            have h3 : cmp t (gi a i) ≤ 0 := hc.2.1 _ _ _ (le_of_eq ht0) hle
            have h4 := hc.1 (gi a i) t
            rw [gi_eq_getElem h] at h3 h4
            omega
          have hle2 : cmp a[i] t ≤ 0 := by
            have hle : cmp (gi a i) (gi a R) ≤ 0 := hs.le hc h2 hRlen
            have h3 : cmp (gi a i) t ≤ 0 := hc.2.1 _ _ _ hle (le_of_eq hR.2.2.1)
            rw [gi_eq_getElem h] at h3
            exact h3
          omega
      have hfilter := filter_eq_window (fun x => cmp x t == 0) a L R hRlen hLR hwin
      have hlen : ((a.drop L).take (R - L + 1)).length = R - L + 1 := by
        rw [List.length_take, List.length_drop]
        omega
      rw [hfilter]
      refine ⟨?_, ?_, rfl⟩
      · rw [if_neg (by omega : ¬ ((a.drop L).take (R - L + 1)).length = 0)]
      · rw [hlen]

/-- Witness for claim C2: the spec scenario, sorted array [1,3,3,3,5],
target 3 gives the run [3,3,3] with count 3. -/
theorem claim_C2_witness :
    0 < 4 ∧ ([(1 : Int), 3, 3, 3, 5].length * 4 ≤ SIZE_MAX) ∧ TotalCmp intCmp ∧
    NonDecr intCmp [(1 : Int), 3, 3, 3, 5] ∧
    ((binary_search (some [(1 : Int), 3, 3, 3, 5]) [(1 : Int), 3, 3, 3, 5].length
        (some 3) 4 (some intCmp) false).buf = some [3, 3, 3] ∧
     (binary_search (some [(1 : Int), 3, 3, 3, 5]) [(1 : Int), 3, 3, 3, 5].length
        (some 3) 4 (some intCmp) false).cnt = some 3) := by
  have h1 : (0 : Nat) < 4 := by decide
  have h2 : [(1 : Int), 3, 3, 3, 5].length * 4 ≤ SIZE_MAX := by decide
  have h4 : NonDecr intCmp [(1 : Int), 3, 3, 3, 5] := by
    unfold NonDecr
    simp only [List.pairwise_cons, List.mem_cons]
    refine ⟨?_, ?_, ?_, ?_, by simp⟩ <;> intro b hb <;>
      rcases hb with rfl | rfl | rfl | rfl | h <;> first | decide | simp at h
  refine ⟨h1, h2, intCmp_total, h4, ?_⟩
  have h := claim_C2_binary_search_run [(1 : Int), 3, 3, 3, 5] 3 4 intCmp h1 h2
    intCmp_total h4
  have hf : [(1 : Int), 3, 3, 3, 5].filter (fun x => intCmp x 3 == 0) = [3, 3, 3] := by
    decide
  rw [hf] at h
  exact ⟨by rw [h.1]; decide, by rw [h.2.1]; decide⟩

/-! ## The three sorts: pure models

The pure models fix a total comparator and let every allocation (the
temporary buffer of swap, quicksort's range stack) succeed, which is the
setting of the functional-correctness claims; the fallible models follow
further below. -/

/-- Result of one sort call: C return value, final array, errno set. -/
structure QOut (α : Type u) where
  ret : Int
  arr : Option (List α)
  err : Option Nat
  deriving DecidableEq

/-- The inner loop of insertion_sort at outer index i: j runs downward
from i; compare the elements at j-1 and j, stop on a strictly negative
result, otherwise swap them and continue. -/
def insInner {α : Type u} [Inhabited α] (cmp : α → α → Int) (l : List α) :
    Nat → List α
  | 0 => l
  | jm + 1 =>
    if cmp (gi l jm) (gi l (jm + 1)) < 0 then l
    else insInner cmp (swapL l (jm + 1) jm) jm

/-- The outer loop of insertion_sort: i from 1 to size-1. -/
def insOuter {α : Type u} [Inhabited α] (cmp : α → α → Int) (l : List α)
    (size i : Nat) : List α :=
  if _h : i < size then insOuter cmp (insInner cmp l i) size (i + 1) else l
termination_by size - i

/-- insertion_sort from algorithms.c, pure model. -/
def insertion_sort {α : Type u} [Inhabited α] (arr? : Option (List α))
    (size ts : Nat) (cmp? : Option (α → α → Int)) : QOut α :=
  match arr?, cmp? with
  | some a, some cmp =>
    if ts = 0 then ⟨-1, arr?, some EINVAL⟩
    else if size > SIZE_MAX / ts then ⟨-1, arr?, some EOVERFLOW⟩
    else ⟨0, some (insOuter cmp a size 1), none⟩
  | _, _ => ⟨-1, arr?, some EINVAL⟩

/-- The scan of selection_sort for the index of a minimal element of
[j, size): m is the index of the best element seen so far. -/
def selMin {α : Type u} [Inhabited α] (cmp : α → α → Int) (l : List α)
    (size m j : Nat) : Nat :=
  if _h : j < size then
    if cmp (gi l j) (gi l m) < 0 then selMin cmp l size j (j + 1)
    else selMin cmp l size m (j + 1)
  else m
termination_by size - j

/-- The outer loop of selection_sort: for i from 0 to size-2, swap a
minimal element of [i, size) into position i. -/
def selOuter {α : Type u} [Inhabited α] (cmp : α → α → Int) (l : List α)
    (size i : Nat) : List α :=
  if _h : i < size - 1 then
    selOuter cmp (swapL l i (selMin cmp l size i (i + 1))) size (i + 1)
  else l
termination_by size - 1 - i

/-- selection_sort from algorithms.c, pure model. -/
def selection_sort {α : Type u} [Inhabited α] (arr? : Option (List α))
    (size ts : Nat) (cmp? : Option (α → α → Int)) : QOut α :=
  match arr?, cmp? with
  | some a, some cmp =>
    if ts = 0 then ⟨-1, arr?, some EINVAL⟩
    else if size > SIZE_MAX / ts then ⟨-1, arr?, some EOVERFLOW⟩
    else if 0 < size then ⟨0, some (selOuter cmp a size 0), none⟩
    else ⟨0, some a, none⟩
  | _, _ => ⟨-1, arr?, some EINVAL⟩

/-! ## Quicksort: pure model -/

/-- The first inner scan of quicksort's two-pointer loop: advance left
while the element is strictly below the pivot (read at its index pIdx),
breaking once left passes right. -/
def scanL {α : Type u} [Inhabited α] (cmp : α → α → Int) (arr : List α)
    (pIdx : Nat) (l r : Nat) : Nat :=
  if cmp (gi arr l) (gi arr pIdx) < 0 then
    if l + 1 > r then l + 1 else scanL cmp arr pIdx (l + 1) r
  else l
termination_by r - l
decreasing_by omega

/-- The second inner scan: retreat right while it is at or above the low
bound and the element is strictly above the pivot; right may end at
low - 1, hence the Int. -/
def scanR {α : Type u} [Inhabited α] (cmp : α → α → Int) (arr : List α)
    (pIdx : Nat) (low : Nat) (r : Int) : Int :=
  if r ≥ (low : Int) ∧ cmp (gi arr r.toNat) (gi arr pIdx) > 0 then
    if r - 1 < (low : Int) then r - 1 else scanR cmp arr pIdx low (r - 1)
  else r
termination_by (r - low + 1).toNat
decreasing_by omega

theorem scanL_ge {α : Type u} [Inhabited α] (cmp : α → α → Int) (arr : List α)
    (pIdx : Nat) : ∀ l r, l ≤ scanL cmp arr pIdx l r := by
  have key : ∀ n l r, r - l ≤ n → l ≤ scanL cmp arr pIdx l r := by
    intro n
    induction n with
    | zero =>
      intro l r hn
      rw [scanL]
      split
      · split
        · omega
        · exfalso
          omega
      · omega
    | succ n ih =>
      intro l r hn
      rw [scanL]
      split
      · split
        · omega
        · have := ih (l + 1) r (by omega)
          omega
      · omega
  intro l r
  exact key (r - l) l r le_rfl

theorem scanL_le {α : Type u} [Inhabited α] (cmp : α → α → Int) (arr : List α)
    (pIdx : Nat) : ∀ l r, l ≤ r → scanL cmp arr pIdx l r ≤ r + 1 := by
  have key : ∀ n l r, r - l ≤ n → l ≤ r → scanL cmp arr pIdx l r ≤ r + 1 := by
    intro n
    induction n with
    | zero =>
      intro l r hn hlr
      rw [scanL]
      split
      · split
        · omega
        · exfalso
          omega
      · omega
    | succ n ih =>
      intro l r hn hlr
      rw [scanL]
      split
      · split
        · omega
        · exact ih (l + 1) r (by omega) (by omega)
      · omega
  intro l r
  exact key (r - l) l r le_rfl

theorem scanR_le {α : Type u} [Inhabited α] (cmp : α → α → Int) (arr : List α)
    (pIdx : Nat) (low : Nat) : ∀ r, scanR cmp arr pIdx low r ≤ r := by
  have key : ∀ n (r : Int), (r - low + 1).toNat ≤ n → scanR cmp arr pIdx low r ≤ r := by
    intro n
    induction n with
    | zero =>
      intro r hn
      rw [scanR]
      split
      · split
        · omega
        · exfalso
          omega
      · omega
    | succ n ih =>
      intro r hn
      rw [scanR]
      split
      · split
        · omega
        · have := ih (r - 1) (by omega)
          omega
      · omega
  intro r
  exact key (r - low + 1).toNat r le_rfl

theorem scanR_ge {α : Type u} [Inhabited α] (cmp : α → α → Int) (arr : List α)
    (pIdx : Nat) (low : Nat) : ∀ r, (low : Int) - 1 ≤ r →
    (low : Int) - 1 ≤ scanR cmp arr pIdx low r := by
  have key : ∀ n (r : Int), (r - low + 1).toNat ≤ n → (low : Int) - 1 ≤ r →
      (low : Int) - 1 ≤ scanR cmp arr pIdx low r := by
    intro n
    induction n with
    | zero =>
      intro r hn hr
      rw [scanR]
      split
      · split
        · omega
        · exfalso
          omega
      · omega
    | succ n ih =>
      intro r hn hr
      rw [scanR]
      split
      · split
        · omega
        · exact ih (r - 1) (by omega) (by omega)
      · omega
  intro r
  exact key (r - low + 1).toNat r le_rfl

/-- The outer two-pointer loop of quicksort's partitioning: scan, then
swap the out-of-place pair and continue with the gap narrowed, until the
pointers cross; returns the array and the final left index. -/
def ploop {α : Type u} [Inhabited α] (cmp : α → α → Int) (arr : List α)
    (low pIdx : Nat) (l : Nat) (r : Int) : List α × Nat :=
  if (l : Int) ≤ r then
    let lp := scanL cmp arr pIdx l r.toNat
    let rp := scanR cmp arr pIdx low r
    if (lp : Int) ≤ rp then
      ploop cmp (swapL arr lp rp.toNat) low pIdx (lp + 1) (rp - 1)
    else (arr, lp)
  else (arr, l)
termination_by (r - l + 1).toNat
decreasing_by
  have h1 := scanL_ge cmp arr pIdx l r.toNat
  have h2 := scanR_le cmp arr pIdx low r
  omega

/-- The median-of-three selection of quicksort: the index among low, mid
and high whose element is the pairwise median, computed from the three
comparison results exactly as in the source (high is the default). -/
def medianIdx {α : Type u} [Inhabited α] (cmp : α → α → Int) (arr : List α)
    (low mid high : Nat) : Nat :=
  let clm := cmp (gi arr low) (gi arr mid)
  let clh := cmp (gi arr low) (gi arr high)
  let cmh := cmp (gi arr mid) (gi arr high)
  if clm < 0 then
    if cmh < 0 then mid
    else if clh ≥ 0 then low
    else high
  else
    if cmh > 0 then mid
    else if clh ≤ 0 then low
    else high

/-- One partitioning round of quicksort on [low, high]: swap the
median-of-three into the high slot as pivot, run the two-pointer loop
with right starting just before the pivot, then swap the pivot into the
final left position; returns the array and the pivot position. -/
def partitionStep {α : Type u} [Inhabited α] (cmp : α → α → Int) (arr : List α)
    (low high : Nat) : List α × Nat :=
  let mid := low + (high - low) / 2
  let arr1 := swapL arr (medianIdx cmp arr low mid high) high
  let pr := ploop cmp arr1 low high low ((high : Int) - 1)
  (swapL pr.1 pr.2 high, pr.2)

/-- The ranges quicksort pushes after a partitioning round that produced
pivot position p for popped range [low, high] (the stack grows to the
left: the head is the next range popped).  Nothing is pushed when the
pivot landed at either end of the WHOLE array; otherwise both sub-ranges
are pushed, the one pushed last (popped next) being the shorter. -/
def qnext (size low high p : Nat) (rest : List (Nat × Nat)) : List (Nat × Nat) :=
  if p ≠ 0 ∧ p ≠ size - 1 then
    if p - low > high - p then (p + 1, high) :: (low, p - 1) :: rest
    else (low, p - 1) :: (p + 1, high) :: rest
  else rest

/-- One iteration of quicksort's explicit-stack loop: pop a range, and if
it has at least two elements partition it and push the sub-ranges. -/
def qstep {α : Type u} [Inhabited α] (cmp : α → α → Int) (size : Nat) :
    List α × List (Nat × Nat) → List α × List (Nat × Nat)
  | (arr, []) => (arr, [])
  | (arr, (low, high) :: rest) =>
    if low < high then
      let pr := partitionStep cmp arr low high
      (pr.1, qnext size low high pr.2 rest)
    else (arr, rest)

/-- Termination measure of the stack loop: the sum of 2 ^ (number of
elements of the range) over the pending ranges. -/
def qmeasure : List (Nat × Nat) → Nat
  | [] => 0
  | (low, high) :: rest => 2 ^ (high + 1 - low) + qmeasure rest

theorem ploop_bounds {α : Type u} [Inhabited α] (cmp : α → α → Int)
    (low pIdx high : Nat) :
    ∀ (arr : List α) (l : Nat) (r : Int), low ≤ l → l ≤ high →
    r ≤ (high : Int) - 1 →
    low ≤ (ploop cmp arr low pIdx l r).2 ∧ (ploop cmp arr low pIdx l r).2 ≤ high := by
  have key : ∀ n (arr : List α) (l : Nat) (r : Int), (r - l + 1).toNat ≤ n →
      low ≤ l → l ≤ high → r ≤ (high : Int) - 1 →
      low ≤ (ploop cmp arr low pIdx l r).2 ∧
      (ploop cmp arr low pIdx l r).2 ≤ high := by
    intro n
    induction n with
    | zero =>
      intro arr l r hn h1 h2 h3
      rw [ploop]
      split
      · exfalso
        omega
      · exact ⟨h1, h2⟩
    | succ n ih =>
      intro arr l r hn h1 h2 h3
      rw [ploop]
      split
      · have hge := scanL_ge cmp arr pIdx l r.toNat
        have hle := scanL_le cmp arr pIdx l r.toNat (by omega)
        have hr2 := scanR_le cmp arr pIdx low r
        dsimp only
        split
        · exact ih _ _ _ (by omega) (by omega) (by omega) (by omega)
        · constructor
          · omega
          · omega
      · exact ⟨h1, h2⟩
  intro arr l r
  exact key ((r - l + 1).toNat) arr l r le_rfl

theorem partitionStep_bounds {α : Type u} [Inhabited α] (cmp : α → α → Int)
    (arr : List α) (low high : Nat) (h : low < high) :
    low ≤ (partitionStep cmp arr low high).2 ∧
    (partitionStep cmp arr low high).2 ≤ high := by
  unfold partitionStep
  exact ploop_bounds cmp low high high _ low ((high : Int) - 1)
    le_rfl (by omega) (by omega)

theorem pow_two_split {a b L : Nat} (hab : a + b = L) (hL : 1 ≤ L) :
    2 ^ a + 2 ^ b < 2 ^ (L + 1) := by
  have hdouble : ∀ k : Nat, 2 ^ (k + 1) = 2 ^ k + 2 ^ k := by
    intro k
    rw [Nat.pow_succ]
    omega
  by_cases ha : a = 0
  · subst ha
    have hb : L = b := by omega
    subst hb
    have h1 : (1 : Nat) < 2 ^ L := Nat.one_lt_two_pow (by omega)
    have h2 := hdouble L
    omega
  · by_cases hb : b = 0
    · subst hb
      have haL : L = a := by omega
      subst haL
      have h1 : (1 : Nat) < 2 ^ L := Nat.one_lt_two_pow (by omega)
      have h2 := hdouble L
      omega
    · have h1 : 2 ^ a ≤ 2 ^ (L - 1) := Nat.pow_le_pow_right (by omega) (by omega)
      have h2 : 2 ^ b ≤ 2 ^ (L - 1) := Nat.pow_le_pow_right (by omega) (by omega)
      have h3 : 2 ^ (L - 1 + 1) = 2 ^ (L - 1) + 2 ^ (L - 1) := hdouble (L - 1)
      have h4 : 2 ^ (L + 1) = 2 ^ L + 2 ^ L := hdouble L
      have h5 : L - 1 + 1 = L := by omega
      rw [h5] at h3
      have h6 : (1 : Nat) ≤ 2 ^ L := Nat.one_le_two_pow
      omega

theorem qstep_measure_lt {α : Type u} [Inhabited α] (cmp : α → α → Int)
    (size : Nat) (arr : List α) (low high : Nat) (rest : List (Nat × Nat)) :
    qmeasure (qstep cmp size (arr, (low, high) :: rest)).2
      < qmeasure ((low, high) :: rest) := by
  rw [qstep]
  split
  · rename_i hlh
    have hb := partitionStep_bounds cmp arr low high hlh
    set p := (partitionStep cmp arr low high).2 with hp
    dsimp only
    simp only [qnext, qmeasure]
    split
    · rename_i hpin
      have hp1 : 1 ≤ p := by omega
      have la : (p - 1) + 1 - low = p - low := by omega
      have lb : high + 1 - (p + 1) = high - p := by omega
      have lc : high + 1 - low = (high - low) + 1 := by omega
      have hsplit : (p - low) + (high - p) = high - low := by omega
      have hpow := pow_two_split hsplit (by omega)
      split
      · simp only [qmeasure]
        rw [la, lb, lc]
        omega
      · simp only [qmeasure]
        rw [la, lb, lc]
        omega
    · have : 1 ≤ 2 ^ (high + 1 - low) := Nat.one_le_two_pow
      omega
  · simp only [qmeasure]
    have : 1 ≤ 2 ^ (high + 1 - low) := Nat.one_le_two_pow
    omega

/-- The explicit-stack loop of quicksort, iterating qstep until the range
stack is empty. -/
def qloop {α : Type u} [Inhabited α] (cmp : α → α → Int) (size : Nat)
    (arr : List α) (stack : List (Nat × Nat)) : List α :=
  match stack with
  | [] => arr
  | (low, high) :: rest =>
    qloop cmp size (qstep cmp size (arr, (low, high) :: rest)).1
      (qstep cmp size (arr, (low, high) :: rest)).2
termination_by qmeasure stack
decreasing_by exact qstep_measure_lt cmp size arr low high rest

/-- quicksort from algorithms.c, pure model: argument validation,
overflow guard, the size ≤ 1 early return, then the stack loop seeded
with the whole array. -/
def quicksort {α : Type u} [Inhabited α] (arr? : Option (List α))
    (size ts : Nat) (cmp? : Option (α → α → Int)) : QOut α :=
  match arr?, cmp? with
  | some a, some cmp =>
    if ts = 0 then ⟨-1, arr?, some EINVAL⟩
    else if size > SIZE_MAX / ts then ⟨-1, arr?, some EOVERFLOW⟩
    else if size ≤ 1 then ⟨0, some a, none⟩
    else ⟨0, some (qloop cmp size a [(0, size - 1)]), none⟩
  | _, _ => ⟨-1, arr?, some EINVAL⟩

/-! ## Correctness of insertion_sort -/

section InsertionSort

variable {α : Type u} [Inhabited α] {cmp : α → α → Int}

/-- Adjacent pairs (k, k+1) with k+1 up to n are in order. -/
def AdjUpTo (cmp : α → α → Int) (l : List α) (n : Nat) : Prop :=
  ∀ k, k + 1 ≤ n → cmp (gi l k) (gi l (k + 1)) ≤ 0

theorem adj_to_pairwise (hc : TotalCmp cmp) (l : List α)
    (h : AdjUpTo cmp l (l.length - 1)) :
    List.Pairwise (fun x y => cmp x y ≤ 0) l := by
  rw [List.pairwise_iff_getElem]
  have main : ∀ j, j < l.length → ∀ i, i < j → cmp (gi l i) (gi l j) ≤ 0 := by
    intro j
    induction j with
    | zero => intro _ i hi; omega
    | succ j ih =>
      intro hj i hi
      have hadj : cmp (gi l j) (gi l (j + 1)) ≤ 0 := h j (by omega)
      by_cases hij : i = j
      · subst hij; exact hadj
      · exact hc.2.1 _ _ _ (ih (by omega) i (by omega)) hadj
  intro i j hi hj hij
  rw [← gi_eq_getElem hi, ← gi_eq_getElem hj]
  exact main j hj i hij

/-- The inner-loop invariant of insertion_sort at outer index i, inner
index j: every adjacent pair up to i is in order except possibly
(j-1, j), and the element at j-1 bridges over j to j+1. -/
def InnerInv (cmp : α → α → Int) (l : List α) (i j : Nat) : Prop :=
  (∀ k, k + 1 ≤ i → k + 1 ≠ j → cmp (gi l k) (gi l (k + 1)) ≤ 0) ∧
  (j + 1 ≤ i → 1 ≤ j → cmp (gi l (j - 1)) (gi l (j + 1)) ≤ 0)

theorem insInner_spec (hc : TotalCmp cmp) :
    ∀ (j : Nat) (l : List α) (i : Nat), j ≤ i → i < l.length →
    InnerInv cmp l i j →
    AdjUpTo cmp (insInner cmp l j) i ∧ (insInner cmp l j).Perm l ∧
    (insInner cmp l j).length = l.length := by
  intro j
  induction j with
  | zero =>
    intro l i hji hi hinv
    rw [insInner]
    exact ⟨fun k hk => hinv.1 k hk (by omega), List.Perm.refl l, rfl⟩
  | succ jm ih =>
    intro l i hji hi hinv
    rw [insInner]
    by_cases hcmp : cmp (gi l jm) (gi l (jm + 1)) < 0
    · rw [if_pos hcmp]
      refine ⟨fun k hk => ?_, List.Perm.refl l, rfl⟩
      by_cases hkj : k + 1 = jm + 1
      · have : k = jm := by omega
        subst this
        omega
      · exact hinv.1 k hk hkj
    · rw [if_neg hcmp]
      have hj1 : jm + 1 < l.length := by omega
      have hjm : jm < l.length := by omega
      have hlen2 : (swapL l (jm + 1) jm).length = l.length := length_swapL l _ _
      set l2 := swapL l (jm + 1) jm with hl2
      have hv_jm : gi l2 jm = gi l (jm + 1) := gi_swapL_left hj1 hjm
      have hv_jm1 : gi l2 (jm + 1) = gi l jm :=
        gi_swapL_right hj1 hjm (by omega)
      have hv_other : ∀ k, k ≠ jm → k ≠ jm + 1 → gi l2 k = gi l k :=
        fun k h1 h2 => gi_swapL_other h2 h1
      have hinv2 : InnerInv cmp l2 i jm := by
        constructor
        · intro k hk hkj
          by_cases hk1 : k + 1 = jm + 1
          · have : k = jm := by omega
            subst this
            rw [hv_jm, hv_jm1]
            exact hc.ge_symm (by omega)
          · by_cases hk2 : k + 1 = jm + 2
            · have : k = jm + 1 := by omega
              subst this
              rw [hv_jm1, hv_other (jm + 2) (by omega) (by omega)]
              exact hinv.2 (by omega) (by omega)
            · rw [hv_other k (by omega) (by omega),
                hv_other (k + 1) (by omega) (by omega)]
              exact hinv.1 k hk (by omega)
        · intro h1 h2
          rw [hv_other (jm - 1) (by omega) (by omega), hv_jm1]
          have := hinv.1 (jm - 1) (by omega) (by omega)
          have heq : jm - 1 + 1 = jm := by omega
          rw [heq] at this
          exact this
      have hrec := ih l2 i (by omega) (by omega) hinv2
      refine ⟨hrec.1, hrec.2.1.trans (swapL_perm l (jm + 1) jm hj1 hjm), ?_⟩
      rw [hrec.2.2, hlen2]

theorem insOuter_spec (hc : TotalCmp cmp) (size : Nat) :
    ∀ (i : Nat) (l : List α), 1 ≤ i → size = l.length →
    AdjUpTo cmp l (i - 1) →
    AdjUpTo cmp (insOuter cmp l size i) (size - 1) ∧
    (insOuter cmp l size i).Perm l ∧
    (insOuter cmp l size i).length = l.length := by
  have key : ∀ n i (l : List α), size - i ≤ n → 1 ≤ i → size = l.length →
      AdjUpTo cmp l (i - 1) →
      AdjUpTo cmp (insOuter cmp l size i) (size - 1) ∧
      (insOuter cmp l size i).Perm l ∧
      (insOuter cmp l size i).length = l.length := by
    intro n
    induction n with
    | zero =>
      intro i l hn h1 hsz hadj
      rw [insOuter]
      have : ¬ i < size := by omega
      rw [dif_neg this]
      exact ⟨fun k hk => hadj k (by omega), List.Perm.refl l, rfl⟩
    | succ n ih =>
      intro i l hn h1 hsz hadj
      rw [insOuter]
      by_cases hi : i < size
      · rw [dif_pos hi]
        have hinner := insInner_spec hc i l i le_rfl (by omega)
          ⟨fun k hk hkj => hadj k (by omega), fun h2 h3 => by omega⟩
        have hrec := ih (i + 1) (insInner cmp l i) (by omega) (by omega)
          (by rw [hinner.2.2]; exact hsz)
          (by simpa using hinner.1)
        exact ⟨hrec.1, hrec.2.1.trans hinner.2.1, by rw [hrec.2.2, hinner.2.2]⟩
      · rw [dif_neg hi]
        exact ⟨fun k hk => hadj k (by omega), List.Perm.refl l, rfl⟩
  intro i l
  exact key (size - i) i l le_rfl

/-- Combined correctness of the pure insertion_sort model on a valid
view: status 0, errno untouched, and the final array is a permutation of
the input that is pairwise non-decreasing under the comparator. -/
theorem insertion_sort_correct (hc : TotalCmp cmp) (a : List α) (ts : Nat)
    (hts : 0 < ts) (hov : a.length * ts ≤ SIZE_MAX) :
    (insertion_sort (some a) a.length ts (some cmp)).ret = 0 ∧
    (insertion_sort (some a) a.length ts (some cmp)).err = none ∧
    ∃ b, (insertion_sort (some a) a.length ts (some cmp)).arr = some b ∧
      b.Perm a ∧ List.Pairwise (fun x y => cmp x y ≤ 0) b := by
  have hred : insertion_sort (some a) a.length ts (some cmp)
      = ⟨0, some (insOuter cmp a a.length 1), none⟩ := by
    simp only [insertion_sort, if_neg (by omega : ¬ ts = 0),
      if_neg (no_overflow_guard hts hov)]
  rw [hred]
  refine ⟨rfl, rfl, insOuter cmp a a.length 1, rfl, ?_, ?_⟩
  · exact (insOuter_spec hc a.length 1 a (by omega) rfl (fun k hk => by omega)).2.1
  · have h := insOuter_spec hc a.length 1 a (by omega) rfl (fun k hk => by omega)
    apply adj_to_pairwise hc
    rw [h.2.2]
    exact h.1

end InsertionSort

/-! ## Correctness of selection_sort -/

section SelectionSort

variable {α : Type u} [Inhabited α] {cmp : α → α → Int}

theorem selMin_spec (hc : TotalCmp cmp) (l : List α) (size : Nat) :
    ∀ (j m : Nat), m < size →
    (selMin cmp l size m j < size ∧
     (selMin cmp l size m j = m ∨ (j ≤ selMin cmp l size m j ∧
        selMin cmp l size m j < size)) ∧
     cmp (gi l (selMin cmp l size m j)) (gi l m) ≤ 0 ∧
     (∀ k, j ≤ k → k < size → cmp (gi l (selMin cmp l size m j)) (gi l k) ≤ 0)) := by
  have key : ∀ n j m, size - j ≤ n → m < size →
      (selMin cmp l size m j < size ∧
       (selMin cmp l size m j = m ∨ (j ≤ selMin cmp l size m j ∧
          selMin cmp l size m j < size)) ∧
       cmp (gi l (selMin cmp l size m j)) (gi l m) ≤ 0 ∧
       (∀ k, j ≤ k → k < size → cmp (gi l (selMin cmp l size m j)) (gi l k) ≤ 0)) := by
    intro n
    induction n with
    | zero =>
      intro j m hn hm
      rw [selMin]
      have : ¬ j < size := by omega
      rw [dif_neg this]
      refine ⟨hm, Or.inl rfl, le_of_eq (hc.self _), fun k hk1 hk2 => by omega⟩
    | succ n ih =>
      intro j m hn hm
      rw [selMin]
      by_cases hj : j < size
      · rw [dif_pos hj]
        by_cases hcmp : cmp (gi l j) (gi l m) < 0
        · rw [if_pos hcmp]
          have hrec := ih (j + 1) j (by omega) hj
          refine ⟨hrec.1, Or.inr ⟨by omega, hrec.1⟩, ?_, ?_⟩
          · exact le_of_lt (hc.le_of_le_of_lt hrec.2.2.1 hcmp)
          · intro k hk1 hk2
            by_cases hkj : k = j
            · subst hkj
              exact hrec.2.2.1
            · exact hrec.2.2.2 k (by omega) hk2
        · rw [if_neg hcmp]
          have hrec := ih (j + 1) m (by omega) hm
          refine ⟨hrec.1, ?_, hrec.2.2.1, ?_⟩
          · rcases hrec.2.1 with h | h
            · exact Or.inl h
            · exact Or.inr ⟨by omega, h.2⟩
          · intro k hk1 hk2
            by_cases hkj : k = j
            · subst hkj
              exact hc.2.1 _ _ _ hrec.2.2.1 (hc.ge_symm (by omega))
            · exact hrec.2.2.2 k (by omega) hk2
      · rw [dif_neg hj]
        refine ⟨hm, Or.inl rfl, le_of_eq (hc.self _), fun k hk1 hk2 => by omega⟩
  intro j m
  exact key (size - j) j m le_rfl

/-- The outer-loop invariant of selection_sort: the first i positions are
sorted among themselves and below every later position. -/
def SelInv (cmp : α → α → Int) (l : List α) (size i : Nat) : Prop :=
  (∀ p q, p < q → q < i → cmp (gi l p) (gi l q) ≤ 0) ∧
  (∀ p q, p < i → i ≤ q → q < size → cmp (gi l p) (gi l q) ≤ 0)

theorem selOuter_spec (hc : TotalCmp cmp) (size : Nat) :
    ∀ (i : Nat) (l : List α), size = l.length → SelInv cmp l size i →
    (∀ p q, p < q → q < size →
        cmp (gi (selOuter cmp l size i) p) (gi (selOuter cmp l size i) q) ≤ 0) ∧
    (selOuter cmp l size i).Perm l ∧
    (selOuter cmp l size i).length = l.length := by
  have key : ∀ n i (l : List α), size - 1 - i ≤ n → size = l.length →
      SelInv cmp l size i →
      (∀ p q, p < q → q < size →
          cmp (gi (selOuter cmp l size i) p) (gi (selOuter cmp l size i) q) ≤ 0) ∧
      (selOuter cmp l size i).Perm l ∧
      (selOuter cmp l size i).length = l.length := by
    intro n
    induction n with
    | zero =>
      intro i l hn hsz hinv
      rw [selOuter]
      have hni : ¬ i < size - 1 := by omega
      rw [dif_neg hni]
      refine ⟨fun p q hpq hq => ?_, List.Perm.refl l, rfl⟩
      by_cases hqi : q < i
      · exact hinv.1 p q hpq hqi
      · exact hinv.2 p q (by omega) (by omega) hq
    | succ n ih =>
      intro i l hn hsz hinv
      rw [selOuter]
      by_cases hi : i < size - 1
      · rw [dif_pos hi]
        have hm := selMin_spec hc l size (i + 1) i (by omega)
        set mm := selMin cmp l size i (i + 1) with hmm
        have hmm_ge : i ≤ mm := by rcases hm.2.1 with h | h <;> omega
        have hmm_lt : mm < size := hm.1
        have hmin : ∀ k, i ≤ k → k < size → cmp (gi l mm) (gi l k) ≤ 0 := by
          intro k hk1 hk2
          by_cases hki : k = i
          · subst hki
            exact hm.2.2.1
          · exact hm.2.2.2 k (by omega) hk2
        have hilen : i < l.length := by omega
        have hmlen : mm < l.length := by omega
        set l2 := swapL l i mm with hl2
        have hv_i : gi l2 mm = gi l i := gi_swapL_left hilen hmlen
        have hv_m : mm ≠ i → gi l2 i = gi l mm :=
          fun hne => gi_swapL_right hilen hmlen hne
        have hv_i2 : gi l2 i = gi l mm := by
          by_cases hne : mm = i
          · rw [hne] at hv_i ⊢
            exact hv_i
          · exact hv_m hne
        have hv_other : ∀ k, k ≠ i → k ≠ mm → gi l2 k = gi l k :=
          fun k h1 h2 => gi_swapL_other h1 h2
        have hgi2 : ∀ k, k < size → i ≤ k →
            (gi l2 k = gi l k ∨ gi l2 k = gi l i ∨ gi l2 k = gi l mm) := by
          intro k _ _
          by_cases h1 : k = i
          · subst h1
            exact Or.inr (Or.inr hv_i2)
          · by_cases h2 : k = mm
            · subst h2
              exact Or.inr (Or.inl hv_i)
            · exact Or.inl (hv_other k h1 h2)
        have hinv2 : SelInv cmp l2 size (i + 1) := by
          constructor
          · intro p q hpq hq
            have hp_lt : p < i := by omega
            have hvp : gi l2 p = gi l p := hv_other p (by omega) (by omega)
            by_cases hqi : q = i
            · subst hqi
              rw [hvp, hv_i2]
              exact hinv.2 p mm (by omega) (by omega) (by omega)
            · have hq_lt : q < i := by omega
              rw [hvp, hv_other q (by omega) (by omega)]
              exact hinv.1 p q hpq hq_lt
          · intro p q hp hq1 hq2
            have hvq : gi l2 q = gi l q ∨ gi l2 q = gi l i := by
              by_cases h2 : q = mm
              · subst h2
                exact Or.inr hv_i
              · exact Or.inl (hv_other q (by omega) h2)
            by_cases hpi : p = i
            · subst hpi
              rw [hv_i2]
              rcases hvq with h | h
              · rw [h]
                exact hmin q (by omega) hq2
              · rw [h]
                exact hm.2.2.1
            · have hvp : gi l2 p = gi l p := hv_other p hpi (by omega)
              rw [hvp]
              rcases hvq with h | h
              · rw [h]
                exact hinv.2 p q (by omega) (by omega) hq2
              · rw [h]
                exact hinv.2 p i (by omega) (by omega) (by omega)
        have hrec := ih (i + 1) l2 (by omega)
          (by rw [hl2, length_swapL]; exact hsz) hinv2
        refine ⟨hrec.1, hrec.2.1.trans (swapL_perm l i mm hilen hmlen), ?_⟩
        rw [hrec.2.2, hl2, length_swapL]
      · rw [dif_neg hi]
        refine ⟨fun p q hpq hq => ?_, List.Perm.refl l, rfl⟩
        by_cases hqi : q < i
        · exact hinv.1 p q hpq hqi
        · exact hinv.2 p q (by omega) (by omega) hq
  intro i l
  exact key (size - 1 - i) i l le_rfl

/-- Combined correctness of the pure selection_sort model on a valid
view. -/
theorem selection_sort_correct (hc : TotalCmp cmp) (a : List α) (ts : Nat)
    (hts : 0 < ts) (hov : a.length * ts ≤ SIZE_MAX) :
    (selection_sort (some a) a.length ts (some cmp)).ret = 0 ∧
    (selection_sort (some a) a.length ts (some cmp)).err = none ∧
    ∃ b, (selection_sort (some a) a.length ts (some cmp)).arr = some b ∧
      b.Perm a ∧ List.Pairwise (fun x y => cmp x y ≤ 0) b := by
  by_cases hpos : 0 < a.length
  · have hred : selection_sort (some a) a.length ts (some cmp)
        = ⟨0, some (selOuter cmp a a.length 0), none⟩ := by
      simp only [selection_sort, if_neg (by omega : ¬ ts = 0),
        if_neg (no_overflow_guard hts hov), if_pos hpos]
    rw [hred]
    have h := selOuter_spec hc a.length 0 a rfl
      ⟨fun p q h1 h2 => by omega, fun p q h1 h2 h3 => by omega⟩
    refine ⟨rfl, rfl, selOuter cmp a a.length 0, rfl, h.2.1, ?_⟩
    rw [List.pairwise_iff_getElem]
    intro p q hp hq hpq
    rw [← gi_eq_getElem hp, ← gi_eq_getElem hq]
    exact h.1 p q hpq (by omega)
  · have ha : a = [] := by
      rcases a with _ | ⟨x, t⟩
      · rfl
      · simp at hpos
    subst ha
    have hred : selection_sort (α := α) (some []) 0 ts (some cmp)
        = ⟨0, some [], none⟩ := by
      simp only [selection_sort, if_neg (by omega : ¬ ts = 0)]
      rw [if_neg (no_overflow_guard hts (by simpa using hov))]
      simp
    simp only [List.length_nil] at hred ⊢
    rw [hred]
    exact ⟨rfl, rfl, [], rfl, List.Perm.refl [], List.Pairwise.nil⟩

end SelectionSort

/-! ## Quicksort: scan characterizations -/

section QuickScan

variable {α : Type u} [Inhabited α] {cmp : α → α → Int}

theorem scanL_pass (cmp : α → α → Int) (arr : List α) (pIdx : Nat) :
    ∀ l r k, l ≤ k → k < scanL cmp arr pIdx l r →
    cmp (gi arr k) (gi arr pIdx) < 0 := by
  have key : ∀ n l r k, r - l ≤ n → l ≤ k → k < scanL cmp arr pIdx l r →
      cmp (gi arr k) (gi arr pIdx) < 0 := by
    intro n
    induction n with
    | zero =>
      intro l r k hn hk1 hk2
      rw [scanL] at hk2
      split at hk2
      · split at hk2
        · rename_i hcl _
          have : k = l := by omega
          subst this
          exact hcl
        · exfalso
          omega
      · omega
    | succ n ih =>
      intro l r k hn hk1 hk2
      rw [scanL] at hk2
      split at hk2
      · split at hk2
        · rename_i hcl _
          have : k = l := by omega
          subst this
          exact hcl
        · rename_i hcl _
          by_cases hkl : k = l
          · subst hkl
            exact hcl
          · exact ih (l + 1) r k (by omega) (by omega) hk2
      · omega
  intro l r
  exact fun k => key (r - l) l r k le_rfl

theorem scanL_stop (cmp : α → α → Int) (arr : List α) (pIdx : Nat) :
    ∀ l r, scanL cmp arr pIdx l r ≤ r →
    ¬ cmp (gi arr (scanL cmp arr pIdx l r)) (gi arr pIdx) < 0 := by
  have key : ∀ n l r, r - l ≤ n → scanL cmp arr pIdx l r ≤ r →
      ¬ cmp (gi arr (scanL cmp arr pIdx l r)) (gi arr pIdx) < 0 := by
    intro n
    induction n with
    | zero =>
      intro l r hn hle
      by_cases hcl : cmp (gi arr l) (gi arr pIdx) < 0
      · by_cases hbr : l + 1 > r
        · rw [scanL, if_pos hcl, if_pos hbr] at hle
          exfalso
          omega
        · exfalso
          omega
      · rw [scanL, if_neg hcl]
        exact hcl
    | succ n ih =>
      intro l r hn hle
      by_cases hcl : cmp (gi arr l) (gi arr pIdx) < 0
      · by_cases hbr : l + 1 > r
        · rw [scanL, if_pos hcl, if_pos hbr] at hle
          exfalso
          omega
        · rw [scanL, if_pos hcl, if_neg hbr] at hle ⊢
          exact ih (l + 1) r (by omega) hle
      · rw [scanL, if_neg hcl]
        exact hcl
  intro l r
  exact key (r - l) l r le_rfl

theorem scanR_pass (cmp : α → α → Int) (arr : List α) (pIdx low : Nat) :
    ∀ (r : Int) (k : Nat), scanR cmp arr pIdx low r < (k : Int) → (k : Int) ≤ r →
    cmp (gi arr k) (gi arr pIdx) > 0 := by
  have key : ∀ n (r : Int) (k : Nat), (r - low + 1).toNat ≤ n →
      scanR cmp arr pIdx low r < (k : Int) → (k : Int) ≤ r →
      cmp (gi arr k) (gi arr pIdx) > 0 := by
    intro n
    induction n with
    | zero =>
      intro r k hn hk1 hk2
      rw [scanR] at hk1
      split at hk1
      · split at hk1
        · exfalso
          omega
        · exfalso
          omega
      · omega
    | succ n ih =>
      intro r k hn hk1 hk2
      rw [scanR] at hk1
      split at hk1
      · rename_i hcond
        by_cases hkr : (k : Int) = r
        · have : k = r.toNat := by omega
          subst this
          exact hcond.2
        · split at hk1
          · exfalso
            omega
          · exact ih (r - 1) k (by omega) hk1 (by omega)
      · omega
  intro r k
  exact key ((r - low + 1).toNat) r k le_rfl

theorem scanR_stop (cmp : α → α → Int) (arr : List α) (pIdx low : Nat) :
    ∀ (r : Int), (low : Int) ≤ scanR cmp arr pIdx low r →
    ¬ cmp (gi arr (scanR cmp arr pIdx low r).toNat) (gi arr pIdx) > 0 := by
  have key : ∀ n (r : Int), (r - low + 1).toNat ≤ n →
      (low : Int) ≤ scanR cmp arr pIdx low r →
      ¬ cmp (gi arr (scanR cmp arr pIdx low r).toNat) (gi arr pIdx) > 0 := by
    intro n
    induction n with
    | zero =>
      intro r hn hge
      by_cases hcond : r ≥ (low : Int) ∧ cmp (gi arr r.toNat) (gi arr pIdx) > 0
      · by_cases hbr : r - 1 < (low : Int)
        · rw [scanR, if_pos hcond, if_pos hbr] at hge
          exfalso
          omega
        · exfalso
          omega
      · rw [scanR, if_neg hcond] at hge ⊢
        intro hgt
        rcases not_and_or.mp hcond with h | h
        · exfalso
          omega
        · exact h hgt
    | succ n ih =>
      intro r hn hge
      by_cases hcond : r ≥ (low : Int) ∧ cmp (gi arr r.toNat) (gi arr pIdx) > 0
      · by_cases hbr : r - 1 < (low : Int)
        · rw [scanR, if_pos hcond, if_pos hbr] at hge
          exfalso
          omega
        · rw [scanR, if_pos hcond, if_neg hbr] at hge ⊢
          exact ih (r - 1) (by omega) hge
      · rw [scanR, if_neg hcond] at hge ⊢
        intro hgt
        rcases not_and_or.mp hcond with h | h
        · exfalso
          omega
        · exact h hgt
  intro r
  exact key ((r - low + 1).toNat) r le_rfl

theorem ploop_ge (cmp : α → α → Int) (low pIdx : Nat) :
    ∀ (arr : List α) (l : Nat) (r : Int), l ≤ (ploop cmp arr low pIdx l r).2 := by
  have key : ∀ n (arr : List α) (l : Nat) (r : Int), (r - l + 1).toNat ≤ n →
      l ≤ (ploop cmp arr low pIdx l r).2 := by
    intro n
    induction n with
    | zero =>
      intro arr l r hn
      rw [ploop]
      split
      · exfalso
        omega
      · omega
    | succ n ih =>
      intro arr l r hn
      rw [ploop]
      split
      · rename_i hlr
        have h1 := scanL_ge cmp arr pIdx l r.toNat
        have h2 := scanR_le cmp arr pIdx low r
        dsimp only
        split
        · rename_i hswap
          have := ih (swapL arr (scanL cmp arr pIdx l r.toNat)
              (scanR cmp arr pIdx low r).toNat) (scanL cmp arr pIdx l r.toNat + 1)
              (scanR cmp arr pIdx low r - 1) (by omega)
          omega
        · omega
      · omega
  intro arr l r
  exact key ((r - l + 1).toNat) arr l r le_rfl

end QuickScan

/-! ## Quicksort: frame facts of the partitioning step -/

section QuickFrame

variable {α : Type u} [Inhabited α] {cmp : α → α → Int}

theorem ploop_frame (cmp : α → α → Int) (low pIdx high : Nat) :
    ∀ (arr : List α) (l : Nat) (r : Int), low ≤ l → r ≤ (high : Int) - 1 →
    high < arr.length →
    (ploop cmp arr low pIdx l r).1.length = arr.length ∧
    (ploop cmp arr low pIdx l r).1.Perm arr ∧
    (∀ k, k < low ∨ high ≤ k → gi (ploop cmp arr low pIdx l r).1 k = gi arr k) ∧
    (∀ (P : α → Prop), (∀ k, low ≤ k → k ≤ high → P (gi arr k)) →
      ∀ k, low ≤ k → k ≤ high → P (gi (ploop cmp arr low pIdx l r).1 k)) := by
  have key : ∀ n (arr : List α) (l : Nat) (r : Int), (r - l + 1).toNat ≤ n →
      low ≤ l → r ≤ (high : Int) - 1 → high < arr.length →
      (ploop cmp arr low pIdx l r).1.length = arr.length ∧
      (ploop cmp arr low pIdx l r).1.Perm arr ∧
      (∀ k, k < low ∨ high ≤ k → gi (ploop cmp arr low pIdx l r).1 k = gi arr k) ∧
      (∀ (P : α → Prop), (∀ k, low ≤ k → k ≤ high → P (gi arr k)) →
        ∀ k, low ≤ k → k ≤ high → P (gi (ploop cmp arr low pIdx l r).1 k)) := by
    intro n
    induction n with
    | zero =>
      intro arr l r hn hl hr hlen
      rw [ploop]
      split
      · exfalso
        omega
      · exact ⟨rfl, List.Perm.refl arr, fun k _ => rfl, fun P hP k h1 h2 => hP k h1 h2⟩
    | succ n ih =>
      intro arr l r hn hl hr hlen
      rw [ploop]
      split
      · rename_i hlr
        have hge := scanL_ge cmp arr pIdx l r.toNat
        have hr2 := scanR_le cmp arr pIdx low r
        dsimp only
        split
        · rename_i hswap
          set lp := scanL cmp arr pIdx l r.toNat with hlp
          set rp := scanR cmp arr pIdx low r with hrp
          have hlp_lt : lp < arr.length := by omega
          have hrp_lt : rp.toNat < arr.length := by omega
          have hlplow : low ≤ lp := by omega
          have hrplow : low ≤ rp.toNat := by omega
          have hlphigh : lp ≤ high - 1 := by omega
          have hrphigh : rp.toNat ≤ high - 1 := by omega
          set arr2 := swapL arr lp rp.toNat with harr2
          have hlen2 : arr2.length = arr.length := length_swapL arr lp rp.toNat
          have hrec := ih arr2 (lp + 1) (rp - 1) (by omega) (by omega)
            (by omega) (by omega)
          refine ⟨by rw [hrec.1, hlen2], hrec.2.1.trans
            (swapL_perm arr lp rp.toNat hlp_lt hrp_lt), ?_, ?_⟩
          · intro k hk
            rw [hrec.2.2.1 k hk]
            exact gi_swapL_other (by omega) (by omega)
          · intro P hP k h1 h2
            refine hrec.2.2.2 P ?_ k h1 h2
            intro k2 hk1 hk2
            by_cases hk2a : k2 = rp.toNat
            · subst hk2a
              rw [gi_swapL_left hlp_lt hrp_lt]
              exact hP lp hlplow (by omega)
            · by_cases hk2b : k2 = lp
              · subst hk2b
                by_cases heq : rp.toNat = lp
                · rw [← heq] at hk2a
                  exact absurd rfl hk2a
                · rw [gi_swapL_right hlp_lt hrp_lt heq]
                  exact hP rp.toNat hrplow (by omega)
              · rw [gi_swapL_other hk2b hk2a]
                exact hP k2 hk1 hk2
        · exact ⟨rfl, List.Perm.refl arr, fun k _ => rfl,
            fun P hP k h1 h2 => hP k h1 h2⟩
      · exact ⟨rfl, List.Perm.refl arr, fun k _ => rfl,
          fun P hP k h1 h2 => hP k h1 h2⟩
  intro arr l r
  exact key ((r - l + 1).toNat) arr l r le_rfl

theorem medianIdx_mem (cmp : α → α → Int) (arr : List α) (low mid high : Nat)
    (h1 : low ≤ mid) (h2 : mid ≤ high) :
    low ≤ medianIdx cmp arr low mid high ∧ medianIdx cmp arr low mid high ≤ high := by
  unfold medianIdx
  dsimp only
  split <;> split <;> try omega
  all_goals split <;> omega

theorem partitionStep_frame (cmp : α → α → Int) (arr : List α) (low high : Nat)
    (hlh : low < high) (hlen : high < arr.length) :
    (partitionStep cmp arr low high).1.length = arr.length ∧
    (partitionStep cmp arr low high).1.Perm arr ∧
    (∀ k, k < low ∨ high < k → gi (partitionStep cmp arr low high).1 k = gi arr k) ∧
    (∀ (P : α → Prop), (∀ k, low ≤ k → k ≤ high → P (gi arr k)) →
      ∀ k, low ≤ k → k ≤ high → P (gi (partitionStep cmp arr low high).1 k)) := by
  have hmid : low ≤ low + (high - low) / 2 ∧ low + (high - low) / 2 ≤ high := by
    have := Nat.div_le_self (high - low) 2
    omega
  have hq := medianIdx_mem cmp arr low (low + (high - low) / 2) high hmid.1 hmid.2
  unfold partitionStep
  dsimp only
  set q := medianIdx cmp arr low (low + (high - low) / 2) high with hqdef
  set arr1 := swapL arr q high with harr1
  have hq_lt : q < arr.length := by omega
  have hhigh_lt : high < arr.length := hlen
  have hlen1 : arr1.length = arr.length := length_swapL arr q high
  have hpl := ploop_frame cmp low high high arr1 low ((high : Int) - 1)
    le_rfl (by omega) (by omega)
  have hpb := ploop_bounds cmp low high high arr1 low ((high : Int) - 1)
    le_rfl (by omega) (by omega)
  set pr := ploop cmp arr1 low high low ((high : Int) - 1) with hpr
  have hp_lt : pr.2 < arr.length := by omega
  have hp_lt2 : pr.2 < pr.1.length := by rw [hpl.1, hlen1]; omega
  have hh_lt2 : high < pr.1.length := by rw [hpl.1, hlen1]; omega
  refine ⟨?_, ?_, ?_, ?_⟩
  · rw [length_swapL, hpl.1, hlen1]
  · exact ((swapL_perm pr.1 pr.2 high hp_lt2 hh_lt2).trans hpl.2.1).trans
      (swapL_perm arr q high hq_lt hhigh_lt)
  · intro k hk
    rw [gi_swapL_other (by omega) (by omega), hpl.2.2.1 k (by omega),
      gi_swapL_other (by omega) (by omega)]
  · intro P hP k h1 h2
    have hP1 : ∀ k2, low ≤ k2 → k2 ≤ high → P (gi arr1 k2) := by
      intro k2 hk1 hk2
      by_cases ha : k2 = high
      · subst ha
        rw [gi_swapL_left hq_lt hhigh_lt]
        exact hP q hq.1 hq.2
      · by_cases hb : k2 = q
        · subst hb
          rw [gi_swapL_right hq_lt hhigh_lt (Ne.symm ha)]
          exact hP high (by omega) le_rfl
        · rw [gi_swapL_other hb ha]
          exact hP k2 hk1 hk2
    have hP2 : ∀ k2, low ≤ k2 → k2 ≤ high → P (gi pr.1 k2) :=
      hpl.2.2.2 P hP1
    by_cases ha : k = high
    · subst ha
      rw [gi_swapL_left hp_lt2 hh_lt2]
      exact hP2 pr.2 (by omega) (by omega)
    · by_cases hb : k = pr.2
      · subst hb
        rw [gi_swapL_right hp_lt2 hh_lt2 (Ne.symm ha)]
        exact hP2 high (by omega) le_rfl
      · rw [gi_swapL_other hb ha]
        exact hP2 k h1 h2

end QuickFrame

/-! ## Quicksort: the partition fence -/

section QuickFence

variable {α : Type u} [Inhabited α] {cmp : α → α → Int}

theorem gi_swapL_fst {l : List α} {i j : Nat} (hi : i < l.length)
    (hj : j < l.length) : gi (swapL l i j) i = gi l j := by
  by_cases heq : j = i
  · subst heq
    rw [swapL_self]
  · exact gi_swapL_right hi hj heq

theorem ploop_fence (hc : TotalCmp cmp) (low high : Nat) :
    ∀ (arr : List α) (l : Nat) (r : Int),
    low ≤ l → l ≤ high → (low : Int) - 1 ≤ r → r ≤ (high : Int) - 1 →
    high < arr.length →
    (∀ k, low ≤ k → k < l → cmp (gi arr k) (gi arr high) ≤ 0) →
    (∀ k : Nat, r < (k : Int) → k ≤ high → cmp (gi arr high) (gi arr k) ≤ 0) →
    (∀ k, low ≤ k → k < (ploop cmp arr low high l r).2 →
        cmp (gi (ploop cmp arr low high l r).1 k)
          (gi (ploop cmp arr low high l r).1 high) ≤ 0) ∧
    (∀ k, (ploop cmp arr low high l r).2 ≤ k → k ≤ high →
        cmp (gi (ploop cmp arr low high l r).1 high)
          (gi (ploop cmp arr low high l r).1 k) ≤ 0) := by
  have key : ∀ n (arr : List α) (l : Nat) (r : Int), (r - l + 1).toNat ≤ n →
      low ≤ l → l ≤ high → (low : Int) - 1 ≤ r → r ≤ (high : Int) - 1 →
      high < arr.length →
      (∀ k, low ≤ k → k < l → cmp (gi arr k) (gi arr high) ≤ 0) →
      (∀ k : Nat, r < (k : Int) → k ≤ high → cmp (gi arr high) (gi arr k) ≤ 0) →
      (∀ k, low ≤ k → k < (ploop cmp arr low high l r).2 →
          cmp (gi (ploop cmp arr low high l r).1 k)
            (gi (ploop cmp arr low high l r).1 high) ≤ 0) ∧
      (∀ k, (ploop cmp arr low high l r).2 ≤ k → k ≤ high →
          cmp (gi (ploop cmp arr low high l r).1 high)
            (gi (ploop cmp arr low high l r).1 k) ≤ 0) := by
    intro n
    induction n with
    | zero =>
      intro arr l r hn h1 h2 h3 h4 hlen H3 H4
      rw [ploop]
      split
      · exfalso
        omega
      · exact ⟨fun k hk1 hk2 => H3 k hk1 hk2,
          fun k hk1 hk2 => H4 k (by omega) hk2⟩
    | succ n ih =>
      intro arr l r hn h1 h2 h3 h4 hlen H3 H4
      rw [ploop]
      split
      · rename_i hlr
        have hge := scanL_ge cmp arr high l r.toNat
        have hle := scanL_le cmp arr high l r.toNat (by omega)
        have hr2 := scanR_le cmp arr high low r
        have hr3 := scanR_ge cmp arr high low r (by omega)
        have hS1 := scanL_pass cmp arr high l r.toNat
        have hT1 := scanR_pass cmp arr high low r
        dsimp only
        have newI2 : ∀ k, low ≤ k → k < scanL cmp arr high l r.toNat →
            cmp (gi arr k) (gi arr high) ≤ 0 := by
          intro k hk1 hk2
          by_cases hkl : k < l
          · exact H3 k hk1 hkl
          · exact le_of_lt (hS1 k (by omega) hk2)
        have newI3 : ∀ k : Nat, scanR cmp arr high low r < (k : Int) → k ≤ high →
            cmp (gi arr high) (gi arr k) ≤ 0 := by
          intro k hk1 hk2
          by_cases hkr : r < (k : Int)
          · exact H4 k hkr hk2
          · exact hc.ge_symm (le_of_lt (hT1 k hk1 (by omega)))
        split
        · rename_i hswap
          have hT2 := scanR_stop cmp arr high low r (by omega)
          have hS2 := scanL_stop cmp arr high l r.toNat (by omega)
          have hlp_lt : scanL cmp arr high l r.toNat < arr.length := by omega
          have hrp_lt : (scanR cmp arr high low r).toNat < arr.length := by omega
          have hpiv : gi (swapL arr (scanL cmp arr high l r.toNat)
              (scanR cmp arr high low r).toNat) high = gi arr high :=
            gi_swapL_other (by omega) (by omega)
          have hv_lp : gi (swapL arr (scanL cmp arr high l r.toNat)
                (scanR cmp arr high low r).toNat) (scanL cmp arr high l r.toNat)
              = gi arr (scanR cmp arr high low r).toNat := gi_swapL_fst hlp_lt hrp_lt
          have hv_rp : gi (swapL arr (scanL cmp arr high l r.toNat)
                (scanR cmp arr high low r).toNat) (scanR cmp arr high low r).toNat
              = gi arr (scanL cmp arr high l r.toNat) := gi_swapL_left hlp_lt hrp_lt
          have hrec := ih (swapL arr (scanL cmp arr high l r.toNat)
              (scanR cmp arr high low r).toNat) (scanL cmp arr high l r.toNat + 1)
            (scanR cmp arr high low r - 1) (by omega) (by omega) (by omega)
            (by omega) (by omega) (by rw [length_swapL]; omega)
            (by
              intro k hk1 hk2
              rw [hpiv]
              by_cases hklp : k = scanL cmp arr high l r.toNat
              · subst hklp
                rw [hv_lp]
                omega
              · rw [gi_swapL_other hklp (by omega)]
                exact newI2 k hk1 (by omega))
            (by
              intro k hk1 hk2
              rw [hpiv]
              by_cases hkrp : k = (scanR cmp arr high low r).toNat
              · subst hkrp
                rw [hv_rp]
                exact hc.le_of_not_lt hS2
              · rw [gi_swapL_other (by omega) hkrp]
                exact newI3 k (by omega) hk2)
          exact hrec
        · rename_i hnoswap
          refine ⟨fun k hk1 hk2 => newI2 k hk1 hk2,
            fun k hk1 hk2 => newI3 k (by omega) hk2⟩
      · rename_i hgt
        exact ⟨fun k hk1 hk2 => H3 k hk1 hk2,
          fun k hk1 hk2 => H4 k (by omega) hk2⟩
  intro arr l r
  exact key ((r - l + 1).toNat) arr l r le_rfl

theorem partitionStep_fence (hc : TotalCmp cmp) (arr : List α) (low high : Nat)
    (hlh : low < high) (hlen : high < arr.length) :
    (∀ k, low ≤ k → k < (partitionStep cmp arr low high).2 →
        cmp (gi (partitionStep cmp arr low high).1 k)
          (gi (partitionStep cmp arr low high).1 (partitionStep cmp arr low high).2) ≤ 0) ∧
    (∀ k, (partitionStep cmp arr low high).2 < k → k ≤ high →
        cmp (gi (partitionStep cmp arr low high).1 (partitionStep cmp arr low high).2)
          (gi (partitionStep cmp arr low high).1 k) ≤ 0) := by
  have hmid : low ≤ low + (high - low) / 2 ∧ low + (high - low) / 2 ≤ high := by
    have := Nat.div_le_self (high - low) 2
    omega
  have hq := medianIdx_mem cmp arr low (low + (high - low) / 2) high hmid.1 hmid.2
  unfold partitionStep
  dsimp only
  set q := medianIdx cmp arr low (low + (high - low) / 2) high with hqdef
  set arr1 := swapL arr q high with harr1
  have hlen1 : arr1.length = arr.length := length_swapL arr q high
  have hfence := ploop_fence hc low high arr1 low ((high : Int) - 1)
    le_rfl (by omega) (by omega) (by omega) (by omega)
    (fun k hk1 hk2 => by omega)
    (fun k hk1 hk2 => by
      have : k = high := by omega
      subst this
      rw [hc.self])
  have hpb := ploop_bounds cmp low high high arr1 low ((high : Int) - 1)
    le_rfl (by omega) (by omega)
  set pr := ploop cmp arr1 low high low ((high : Int) - 1) with hpr
  have hfl := ploop_frame cmp low high high arr1 low ((high : Int) - 1)
    le_rfl (by omega) (by omega)
  rw [← hpr] at hfl
  have hp_lt2 : pr.2 < pr.1.length := by rw [hfl.1, hlen1]; omega
  have hh_lt2 : high < pr.1.length := by rw [hfl.1, hlen1]; omega
  have hvp : gi (swapL pr.1 pr.2 high) pr.2 = gi pr.1 high :=
    gi_swapL_fst hp_lt2 hh_lt2
  have hvh : gi (swapL pr.1 pr.2 high) high = gi pr.1 pr.2 :=
    gi_swapL_left hp_lt2 hh_lt2
  constructor
  · intro k hk1 hk2
    rw [hvp, gi_swapL_other (by omega) (by omega)]
    exact hfence.1 k hk1 hk2
  · intro k hk1 hk2
    rw [hvp]
    by_cases hkh : k = high
    · subst hkh
      rw [hvh]
      exact hfence.2 pr.2 le_rfl (by omega)
    · rw [gi_swapL_other (by omega) hkh]
      exact hfence.2 k (by omega) hk2

end QuickFence

/-! ## Quicksort: median-of-three facts and the edge cases

When the pivot position returned by the partitioning round is an end of
the popped range, the quicksort loop pushes nothing for that side; these
lemmas show the range is then already sorted, which is what makes the
push guard of the source harmless. -/

section QuickEdge

variable {α : Type u} [Inhabited α] {cmp : α → α → Int}

theorem median_facts (hc : TotalCmp cmp) (arr : List α) (low mid high : Nat)
    (h1 : low < mid) (h2 : mid < high) (hlen : high < arr.length) :
    (cmp (gi (swapL arr (medianIdx cmp arr low mid high) high) high)
        (gi (swapL arr (medianIdx cmp arr low mid high) high) low) ≤ 0 ∨
     cmp (gi (swapL arr (medianIdx cmp arr low mid high) high) high)
        (gi (swapL arr (medianIdx cmp arr low mid high) high) mid) ≤ 0) ∧
    (cmp (gi (swapL arr (medianIdx cmp arr low mid high) high) low)
        (gi (swapL arr (medianIdx cmp arr low mid high) high) high) ≤ 0 ∨
     cmp (gi (swapL arr (medianIdx cmp arr low mid high) high) mid)
        (gi (swapL arr (medianIdx cmp arr low mid high) high) high) ≤ 0) := by
  have hlow_lt : low < arr.length := by omega
  have hmid_lt : mid < arr.length := by omega
  unfold medianIdx
  dsimp only
  by_cases hclm : cmp (gi arr low) (gi arr mid) < 0
  · rw [if_pos hclm]
    by_cases hcmh : cmp (gi arr mid) (gi arr high) < 0
    · rw [if_pos hcmh]
      rw [gi_swapL_left hmid_lt hlen, gi_swapL_fst hmid_lt hlen,
        gi_swapL_other (by omega) (by omega)]
      exact ⟨Or.inr (le_of_lt hcmh), Or.inl (le_of_lt hclm)⟩
    · rw [if_neg hcmh]
      by_cases hclh : cmp (gi arr low) (gi arr high) ≥ 0
      · rw [if_pos hclh]
        rw [gi_swapL_left hlow_lt hlen, gi_swapL_fst hlow_lt hlen,
          gi_swapL_other (by omega) (by omega)]
        exact ⟨Or.inr (le_of_lt hclm), Or.inl (hc.ge_symm hclh)⟩
      · rw [if_neg hclh]
        rw [swapL_self]
        exact ⟨Or.inr (hc.ge_symm (by omega)), Or.inl (by omega)⟩
  · rw [if_neg hclm]
    by_cases hcmh : cmp (gi arr mid) (gi arr high) > 0
    · rw [if_pos hcmh]
      rw [gi_swapL_left hmid_lt hlen, gi_swapL_fst hmid_lt hlen,
        gi_swapL_other (by omega) (by omega)]
      exact ⟨Or.inl (hc.ge_symm (by omega)), Or.inr (hc.ge_symm (le_of_lt hcmh))⟩
    · rw [if_neg hcmh]
      by_cases hclh : cmp (gi arr low) (gi arr high) ≤ 0
      · rw [if_pos hclh]
        rw [gi_swapL_left hlow_lt hlen, gi_swapL_fst hlow_lt hlen,
          gi_swapL_other (by omega) (by omega)]
        exact ⟨Or.inl hclh, Or.inr (hc.ge_symm (by omega))⟩
      · rw [if_neg hclh]
        rw [swapL_self]
        exact ⟨Or.inl (hc.ge_symm (le_of_lt (by omega))), Or.inr (by omega)⟩

end QuickEdge

section QuickEdge2

variable {α : Type u} [Inhabited α] {cmp : α → α → Int}

theorem ploop_edge (hc : TotalCmp cmp) (arr1 : List α) (low high : Nat)
    (hlh : low < high) (hlen : high < arr1.length)
    (hM1 : low + 2 ≤ high →
      (cmp (gi arr1 high) (gi arr1 low) ≤ 0 ∨
       cmp (gi arr1 high) (gi arr1 (low + (high - low) / 2)) ≤ 0))
    (hM2 : low + 2 ≤ high →
      (cmp (gi arr1 low) (gi arr1 high) ≤ 0 ∨
       cmp (gi arr1 (low + (high - low) / 2)) (gi arr1 high) ≤ 0)) :
    ((ploop cmp arr1 low high low ((high : Int) - 1)).2 = low ∨
     (ploop cmp arr1 low high low ((high : Int) - 1)).2 = high) →
    ∀ i j, low ≤ i → i ≤ j → j ≤ high →
    cmp (gi (swapL (ploop cmp arr1 low high low ((high : Int) - 1)).1
          (ploop cmp arr1 low high low ((high : Int) - 1)).2 high) i)
      (gi (swapL (ploop cmp arr1 low high low ((high : Int) - 1)).1
          (ploop cmp arr1 low high low ((high : Int) - 1)).2 high) j) ≤ 0 := by
  have htn : ((high : Int) - 1).toNat = high - 1 := by omega
  have hcond : (low : Int) ≤ (high : Int) - 1 := by omega
  have hmid1 : low ≤ low + (high - low) / 2 := by omega
  have hmid2 : low + (high - low) / 2 ≤ high - 1 := by omega
  have hstep : ploop cmp arr1 low high low ((high : Int) - 1)
      = if (scanL cmp arr1 high low (high - 1) : Int)
            ≤ scanR cmp arr1 high low ((high : Int) - 1)
        then ploop cmp (swapL arr1 (scanL cmp arr1 high low (high - 1))
              (scanR cmp arr1 high low ((high : Int) - 1)).toNat) low high
              (scanL cmp arr1 high low (high - 1) + 1)
              (scanR cmp arr1 high low ((high : Int) - 1) - 1)
        else (arr1, scanL cmp arr1 high low (high - 1)) := by
    rw [ploop, if_pos hcond]
    dsimp only
    rw [htn]
  have hS1 := scanL_pass cmp arr1 high low (high - 1)
  have hLe := scanL_le cmp arr1 high low (high - 1) (by omega)
  have hLge := scanL_ge cmp arr1 high low (high - 1)
  have hRge := scanR_ge cmp arr1 high low ((high : Int) - 1) (by omega)
  have hRle := scanR_le cmp arr1 high low ((high : Int) - 1)
  intro hedge i j hi hij hj
  rw [hstep] at hedge ⊢
  by_cases hBC : (scanL cmp arr1 high low (high - 1) : Int)
      ≤ scanR cmp arr1 high low ((high : Int) - 1)
  · rw [if_pos hBC] at hedge ⊢
    have hPge := ploop_ge cmp low high
      (swapL arr1 (scanL cmp arr1 high low (high - 1))
        (scanR cmp arr1 high low ((high : Int) - 1)).toNat)
      (scanL cmp arr1 high low (high - 1) + 1)
      (scanR cmp arr1 high low ((high : Int) - 1) - 1)
    rcases hedge with hlo | hhi
    · exfalso
      omega
    · by_cases hrp2 : scanR cmp arr1 high low ((high : Int) - 1) ≤ (high : Int) - 2
      · exfalso
        have hb := ploop_bounds cmp low high (high - 1)
          (swapL arr1 (scanL cmp arr1 high low (high - 1))
            (scanR cmp arr1 high low ((high : Int) - 1)).toNat)
          (scanL cmp arr1 high low (high - 1) + 1)
          (scanR cmp arr1 high low ((high : Int) - 1) - 1)
          (by omega) (by omega) (by omega)
        omega
      · have hrpeq : scanR cmp arr1 high low ((high : Int) - 1) = (high : Int) - 1 := by
          omega
        by_cases hlp2 : scanL cmp arr1 high low (high - 1) < high - 1
        · exfalso
          have hb := ploop_bounds cmp low high (high - 1)
            (swapL arr1 (scanL cmp arr1 high low (high - 1))
              (scanR cmp arr1 high low ((high : Int) - 1)).toNat)
            (scanL cmp arr1 high low (high - 1) + 1)
            (scanR cmp arr1 high low ((high : Int) - 1) - 1)
            (by omega) (by omega) (by omega)
          omega
        · have hlpeq : scanL cmp arr1 high low (high - 1) = high - 1 := by omega
          have hS2 := scanL_stop cmp arr1 high low (high - 1) (by omega)
          have hT2 := scanR_stop cmp arr1 high low ((high : Int) - 1) (by omega)
          rw [hlpeq] at hS2
          have hrtn : (scanR cmp arr1 high low ((high : Int) - 1)).toNat = high - 1 := by
            omega
          rw [hrtn] at hT2
          have hzero : cmp (gi arr1 (high - 1)) (gi arr1 high) = 0 := by omega
          have harr2 : swapL arr1 (scanL cmp arr1 high low (high - 1))
              (scanR cmp arr1 high low ((high : Int) - 1)).toNat = arr1 := by
            rw [hlpeq, hrtn]
            exact swapL_self arr1 (high - 1)
          rw [harr2, hlpeq, hrpeq]
          have hstep2 : ploop cmp arr1 low high (high - 1 + 1)
              ((high : Int) - 1 - 1) = (arr1, high - 1 + 1) := by
            rw [ploop, if_neg (by omega)]
          rw [hstep2]
          dsimp only
          have hh1 : high - 1 + 1 = high := by omega
          rw [hh1, swapL_self]
          by_cases hL3 : low + 3 ≤ high
          · exfalso
            have hmid3 : low + (high - low) / 2 ≤ high - 2 := by omega
            rcases hM1 (by omega) with h | h
            · have hu := hS1 low le_rfl (by omega)
              have := (hc.1 (gi arr1 low) (gi arr1 high)).mp hu
              omega
            · have hv := hS1 (low + (high - low) / 2) hmid1 (by omega)
              have := (hc.1 (gi arr1 (low + (high - low) / 2)) (gi arr1 high)).mp hv
              omega
          · by_cases hii : i = j
            · subst hii
              rw [hc.self]
            · rw [hlpeq] at hS1
              have hjcase : j = high ∨ j = high - 1 := by omega
              rcases hjcase with hj2 | hj2
              · rw [hj2]
                by_cases hi2 : i = high - 1
                · rw [hi2]
                  omega
                · exact le_of_lt (hS1 i hi (by omega))
              · rw [hj2]
                have hilt : i < high - 1 := by omega
                have hiu := hS1 i hi hilt
                have hmy : cmp (gi arr1 high) (gi arr1 (high - 1)) = 0 :=
                  hc.zero_symm hzero
                exact le_of_lt (hc.lt_of_lt_of_le hiu (le_of_eq hmy))
  · rw [if_neg hBC] at hedge ⊢
    dsimp only at hedge ⊢
    have hT1 := scanR_pass cmp arr1 high low ((high : Int) - 1)
    rcases hedge with hlo | hhi
    · have hrplt : scanR cmp arr1 high low ((high : Int) - 1) = (low : Int) - 1 := by
        omega
      have hall : ∀ k, low ≤ k → k ≤ high - 1 →
          cmp (gi arr1 k) (gi arr1 high) > 0 := by
        intro k hk1 hk2
        exact hT1 k (by omega) (by omega)
      by_cases hL2 : low + 2 ≤ high
      · exfalso
        rcases hM2 hL2 with h | h
        · have := hall low le_rfl (by omega)
          omega
        · have := hall (low + (high - low) / 2) hmid1 hmid2
          omega
      · rw [hlo]
        have hgl : gi (swapL arr1 low high) low = gi arr1 high :=
          gi_swapL_fst (by omega) hlen
        have hgh : gi (swapL arr1 low high) high = gi arr1 low :=
          gi_swapL_left (by omega) hlen
        have hlm : cmp (gi arr1 high) (gi arr1 low) < 0 := by
          have := hall low le_rfl (by omega)
          have := (hc.1 (gi arr1 high) (gi arr1 low)).mpr this
          omega
        by_cases hii : i = j
        · subst hii
          rw [hc.self]
        · have hieq : i = low := by omega
          have hjeq : j = high := by omega
          rw [hieq, hjeq, hgl, hgh]
          exact le_of_lt hlm
    · by_cases hL2 : low + 2 ≤ high
      · exfalso
        rcases hM1 hL2 with h | h
        · have hu := hS1 low le_rfl (by omega)
          have := (hc.1 (gi arr1 low) (gi arr1 high)).mp hu
          omega
        · have hv := hS1 (low + (high - low) / 2) hmid1 (by omega)
          have := (hc.1 (gi arr1 (low + (high - low) / 2)) (gi arr1 high)).mp hv
          omega
      · rw [hhi, swapL_self]
        by_cases hii : i = j
        · subst hii
          rw [hc.self]
        · have hieq : i = low := by omega
          have hjeq : j = high := by omega
          rw [hieq, hjeq]
          exact le_of_lt (hS1 low le_rfl (by omega))
  
end QuickEdge2

theorem partitionStep_edge {α : Type u} [Inhabited α] {cmp : α → α → Int}
    (hc : TotalCmp cmp) (arr : List α) (low high : Nat)
    (hlh : low < high) (hlen : high < arr.length) :
    ((partitionStep cmp arr low high).2 = low ∨
     (partitionStep cmp arr low high).2 = high) →
    ∀ i j, low ≤ i → i ≤ j → j ≤ high →
    cmp (gi (partitionStep cmp arr low high).1 i)
      (gi (partitionStep cmp arr low high).1 j) ≤ 0 := by
  unfold partitionStep
  dsimp only
  have hlen1 : high < (swapL arr
      (medianIdx cmp arr low (low + (high - low) / 2) high) high).length := by
    rw [length_swapL]; exact hlen
  refine ploop_edge hc _ low high hlh hlen1 ?_ ?_
  · intro hL3
    exact (median_facts hc arr low (low + (high - low) / 2) high
      (by omega) (by omega) hlen).1
  · intro hL3
    exact (median_facts hc arr low (low + (high - low) / 2) high
      (by omega) (by omega) hlen).2

/-! ## Quicksort: the stack invariant and correctness -/

section QuickInv

variable {α : Type u} [Inhabited α] {cmp : α → α → Int}

/-- A pair of positions is covered when some pending range contains both. -/
def Covered (stack : List (Nat × Nat)) (i j : Nat) : Prop :=
  ∃ r ∈ stack, r.1 ≤ i ∧ j ≤ r.2

/-- The pending ranges end inside the array and are pairwise disjoint. -/
def RangesOK (size : Nat) (stack : List (Nat × Nat)) : Prop :=
  (∀ r ∈ stack, r.2 < size) ∧
  List.Pairwise (fun r s => ∀ k, ¬(r.1 ≤ k ∧ k ≤ r.2 ∧ s.1 ≤ k ∧ k ≤ s.2)) stack

/-- Invariant of quicksort's stack loop: pending ranges are in bounds and
pairwise disjoint, and every pair of positions not covered by a pending
range is already ordered. -/
def StackInv (cmp : α → α → Int) (size : Nat) (arr : List α)
    (stack : List (Nat × Nat)) : Prop :=
  arr.length = size ∧ RangesOK size stack ∧
  ∀ i j, i < j → j < size → ¬ Covered stack i j →
    cmp (gi arr i) (gi arr j) ≤ 0

theorem notCovered_left {low high : Nat} {rest : List (Nat × Nat)}
    (hd : ∀ s ∈ rest, ∀ k, ¬(low ≤ k ∧ k ≤ high ∧ s.1 ≤ k ∧ k ≤ s.2))
    {i k : Nat} (hil : i < low) (hk1 : low ≤ k) (hk2 : k ≤ high) :
    ¬ Covered ((low, high) :: rest) i k := by
  rintro ⟨s, hs, h1, h2⟩
  rcases List.mem_cons.mp hs with rfl | hs'
  · have ha : low ≤ i := h1
    omega
  · exact hd s hs' k ⟨hk1, hk2, by omega, h2⟩

theorem notCovered_right {low high : Nat} {rest : List (Nat × Nat)}
    (hd : ∀ s ∈ rest, ∀ k, ¬(low ≤ k ∧ k ≤ high ∧ s.1 ≤ k ∧ k ≤ s.2))
    {k j : Nat} (hjh : high < j) (hk1 : low ≤ k) (hk2 : k ≤ high) :
    ¬ Covered ((low, high) :: rest) k j := by
  rintro ⟨s, hs, h1, h2⟩
  rcases List.mem_cons.mp hs with rfl | hs'
  · have ha : j ≤ high := h2
    omega
  · exact hd s hs' k ⟨hk1, hk2, h1, by omega⟩

theorem rangesOK_push (size low high p : Nat) (rest : List (Nat × Nat))
    (hbnd : ∀ r ∈ (low, high) :: rest, r.2 < size)
    (hdisj : List.Pairwise
      (fun r s => ∀ k, ¬(r.1 ≤ k ∧ k ≤ r.2 ∧ s.1 ≤ k ∧ k ≤ s.2))
      ((low, high) :: rest))
    (hb1 : low ≤ p) (hb2 : p ≤ high) :
    RangesOK size (qnext size low high p rest) := by
  have hhs : high < size := hbnd (low, high) (List.mem_cons_self _ _)
  have hd1 : ∀ s ∈ rest, ∀ k, ¬(low ≤ k ∧ k ≤ high ∧ s.1 ≤ k ∧ k ≤ s.2) :=
    fun s hs k => (List.pairwise_cons.mp hdisj).1 s hs k
  have hdrest := (List.pairwise_cons.mp hdisj).2
  have hbrest : ∀ r ∈ rest, r.2 < size :=
    fun r hr => hbnd r (List.mem_cons_of_mem _ hr)
  unfold qnext
  split
  · split
    · refine ⟨?_, ?_⟩
      · intro r hr
        rcases List.mem_cons.mp hr with rfl | hr'
        · exact hhs
        · rcases List.mem_cons.mp hr' with rfl | hr''
          · dsimp only
            omega
          · exact hbrest r hr''
      · refine List.Pairwise.cons ?_ (List.Pairwise.cons ?_ hdrest)
        · intro s hs k
          rcases List.mem_cons.mp hs with rfl | hs'
          · dsimp only
            omega
          · intro hk
            exact hd1 s hs' k ⟨by omega, by omega, hk.2.2.1, hk.2.2.2⟩
        · intro s hs k hk
          exact hd1 s hs k ⟨by omega, by omega, hk.2.2.1, hk.2.2.2⟩
    · refine ⟨?_, ?_⟩
      · intro r hr
        rcases List.mem_cons.mp hr with rfl | hr'
        · dsimp only
          omega
        · rcases List.mem_cons.mp hr' with rfl | hr''
          · exact hhs
          · exact hbrest r hr''
      · refine List.Pairwise.cons ?_ (List.Pairwise.cons ?_ hdrest)
        · intro s hs k
          rcases List.mem_cons.mp hs with rfl | hs'
          · dsimp only
            omega
          · intro hk
            exact hd1 s hs' k ⟨by omega, by omega, hk.2.2.1, hk.2.2.2⟩
        · intro s hs k hk
          exact hd1 s hs k ⟨by omega, by omega, hk.2.2.1, hk.2.2.2⟩
  · exact ⟨hbrest, hdrest⟩

end QuickInv

section QuickInv2

variable {α : Type u} [Inhabited α] {cmp : α → α → Int}

theorem qstep_inv (hc : TotalCmp cmp) (size : Nat) (arr : List α)
    (low high : Nat) (rest : List (Nat × Nat))
    (hinv : StackInv cmp size arr ((low, high) :: rest)) :
    StackInv cmp size (qstep cmp size (arr, (low, high) :: rest)).1
      (qstep cmp size (arr, (low, high) :: rest)).2 ∧
    (qstep cmp size (arr, (low, high) :: rest)).1.Perm arr := by
  obtain ⟨hlen, ⟨hbnd, hdisj⟩, hord⟩ := hinv
  have hd1 : ∀ s ∈ rest, ∀ k, ¬(low ≤ k ∧ k ≤ high ∧ s.1 ≤ k ∧ k ≤ s.2) :=
    fun s hs k => (List.pairwise_cons.mp hdisj).1 s hs k
  have hdrest := (List.pairwise_cons.mp hdisj).2
  have hbrest : ∀ r ∈ rest, r.2 < size :=
    fun r hr => hbnd r (List.mem_cons_of_mem _ hr)
  rw [qstep]
  by_cases hlh : low < high
  · rw [if_pos hlh]
    dsimp only
    have hhs : high < size := hbnd (low, high) (List.mem_cons_self _ _)
    have hlena : high < arr.length := by omega
    have hfr := partitionStep_frame cmp arr low high hlh hlena
    have hb := partitionStep_bounds cmp arr low high hlh
    have hfe := partitionStep_fence hc arr low high hlh hlena
    have hout : ∀ i j, i < j → j < size → ¬ Covered rest i j →
        ¬(low ≤ i ∧ j ≤ high) →
        cmp (gi (partitionStep cmp arr low high).1 i)
          (gi (partitionStep cmp arr low high).1 j) ≤ 0 := by
      intro i j hij hjs hnc hnin
      by_cases hi_in : low ≤ i ∧ i ≤ high
      · have hjh : high < j := by omega
        have hkey : ∀ k, low ≤ k → k ≤ high →
            cmp (gi arr k) (gi arr j) ≤ 0 := by
          intro k hk1 hk2
          exact hord k j (by omega) hjs (notCovered_right hd1 hjh hk1 hk2)
        have hj2 : gi (partitionStep cmp arr low high).1 j = gi arr j :=
          hfr.2.2.1 j (Or.inr hjh)
        rw [hj2]
        exact hfr.2.2.2 (fun x => cmp x (gi arr j) ≤ 0) hkey i hi_in.1 hi_in.2
      · by_cases hj_in : low ≤ j ∧ j ≤ high
        · have hil : i < low := by omega
          have hkey : ∀ k, low ≤ k → k ≤ high →
              cmp (gi arr i) (gi arr k) ≤ 0 := by
            intro k hk1 hk2
            exact hord i k (by omega) (by omega)
              (notCovered_left hd1 hil hk1 hk2)
          have hi2 : gi (partitionStep cmp arr low high).1 i = gi arr i :=
            hfr.2.2.1 i (Or.inl hil)
          rw [hi2]
          exact hfr.2.2.2 (fun x => cmp (gi arr i) x ≤ 0) hkey j hj_in.1 hj_in.2
        · have hi2 : gi (partitionStep cmp arr low high).1 i = gi arr i :=
            hfr.2.2.1 i (by omega)
          have hj2 : gi (partitionStep cmp arr low high).1 j = gi arr j :=
            hfr.2.2.1 j (by omega)
          rw [hi2, hj2]
          apply hord i j hij hjs
          rintro ⟨s, hs, h1, h2⟩
          rcases List.mem_cons.mp hs with rfl | hs'
          · have ha : low ≤ i := h1
            have hb2 : j ≤ high := h2
            omega
          · exact hnc ⟨s, hs', h1, h2⟩
    refine ⟨⟨?_, ?_, ?_⟩, hfr.2.1⟩
    · rw [hfr.1]
      exact hlen
    · exact rangesOK_push size low high (partitionStep cmp arr low high).2 rest
        hbnd hdisj hb.1 hb.2
    · intro i j hij hjs hnc
      have hncr : ¬ Covered rest i j := by
        intro hcov
        apply hnc
        obtain ⟨s, hs, h1, h2⟩ := hcov
        unfold qnext
        split
        · split
          · exact ⟨s, List.mem_cons_of_mem _ (List.mem_cons_of_mem _ hs), h1, h2⟩
          · exact ⟨s, List.mem_cons_of_mem _ (List.mem_cons_of_mem _ hs), h1, h2⟩
        · exact ⟨s, hs, h1, h2⟩
      by_cases hin : low ≤ i ∧ j ≤ high
      · by_cases hpin : (partitionStep cmp arr low high).2 ≠ 0 ∧
            (partitionStep cmp arr low high).2 ≠ size - 1
        · have hnc2 : ¬ Covered (qnext size low high
              (partitionStep cmp arr low high).2 rest) i j := hnc
          unfold qnext at hnc2
          rw [if_pos hpin] at hnc2
          have hsplit : i ≤ (partitionStep cmp arr low high).2 ∧
              (partitionStep cmp arr low high).2 ≤ j := by
            by_cases hcase : (partitionStep cmp arr low high).2 - low
                > high - (partitionStep cmp arr low high).2
            · rw [if_pos hcase] at hnc2
              constructor
              · by_contra hgt
                exact hnc2 ⟨((partitionStep cmp arr low high).2 + 1, high),
                  List.mem_cons_self _ _, by omega, by exact hin.2⟩
              · by_contra hgt
                exact hnc2 ⟨(low, (partitionStep cmp arr low high).2 - 1),
                  List.mem_cons_of_mem _ (List.mem_cons_self _ _),
                  by exact hin.1, by omega⟩
            · rw [if_neg hcase] at hnc2
              constructor
              · by_contra hgt
                exact hnc2 ⟨((partitionStep cmp arr low high).2 + 1, high),
                  List.mem_cons_of_mem _ (List.mem_cons_self _ _),
                  by omega, by exact hin.2⟩
              · by_contra hgt
                exact hnc2 ⟨(low, (partitionStep cmp arr low high).2 - 1),
                  List.mem_cons_self _ _, by exact hin.1, by omega⟩
          have h1 : cmp (gi (partitionStep cmp arr low high).1 i)
              (gi (partitionStep cmp arr low high).1
                (partitionStep cmp arr low high).2) ≤ 0 := by
            rcases Nat.eq_or_lt_of_le hsplit.1 with heq | hlt
            · rw [heq, hc.self]
            · exact hfe.1 i hin.1 hlt
          have h2 : cmp (gi (partitionStep cmp arr low high).1
                (partitionStep cmp arr low high).2)
              (gi (partitionStep cmp arr low high).1 j) ≤ 0 := by
            rcases Nat.eq_or_lt_of_le hsplit.2 with heq | hlt
            · rw [← heq, hc.self]
            · exact hfe.2 j hlt hin.2
          exact hc.2.1 _ _ _ h1 h2
        · have hedge : (partitionStep cmp arr low high).2 = low ∨
              (partitionStep cmp arr low high).2 = high := by omega
          exact partitionStep_edge hc arr low high hlh hlena hedge i j
            hin.1 (by omega) hin.2
      · exact hout i j hij hjs hncr hin
  · rw [if_neg hlh]
    refine ⟨⟨hlen, ⟨hbrest, hdrest⟩, ?_⟩, List.Perm.refl arr⟩
    intro i j hij hjs hnc
    apply hord i j hij hjs
    rintro ⟨s, hs, h1, h2⟩
    rcases List.mem_cons.mp hs with rfl | hs'
    · have ha : low ≤ i := h1
      have hb : j ≤ high := h2
      omega
    · exact hnc ⟨s, hs', h1, h2⟩

end QuickInv2

section QuickCorrect

variable {α : Type u} [Inhabited α] {cmp : α → α → Int}

theorem qloop_sorted (hc : TotalCmp cmp) (size : Nat) :
    ∀ (stack : List (Nat × Nat)) (arr : List α),
    StackInv cmp size arr stack →
    (qloop cmp size arr stack).Perm arr ∧
    ∀ i j, i < j → j < size →
      cmp (gi (qloop cmp size arr stack) i)
        (gi (qloop cmp size arr stack) j) ≤ 0 := by
  have key : ∀ n (stack : List (Nat × Nat)) (arr : List α),
      qmeasure stack ≤ n → StackInv cmp size arr stack →
      (qloop cmp size arr stack).Perm arr ∧
      ∀ i j, i < j → j < size →
        cmp (gi (qloop cmp size arr stack) i)
          (gi (qloop cmp size arr stack) j) ≤ 0 := by
    intro n
    induction n with
    | zero =>
      intro stack arr hm hinv
      rcases stack with _ | ⟨⟨low, high⟩, rest⟩
      · rw [qloop]
        exact ⟨List.Perm.refl arr, fun i j hij hjs =>
          hinv.2.2 i j hij hjs (fun ⟨r, hr, _⟩ => (List.not_mem_nil r) hr)⟩
      · exfalso
        have h1 : 1 ≤ 2 ^ (high + 1 - low) := Nat.one_le_two_pow
        simp only [qmeasure] at hm
        omega
    | succ n ih =>
      intro stack arr hm hinv
      rcases stack with _ | ⟨⟨low, high⟩, rest⟩
      · rw [qloop]
        exact ⟨List.Perm.refl arr, fun i j hij hjs =>
          hinv.2.2 i j hij hjs (fun ⟨r, hr, _⟩ => (List.not_mem_nil r) hr)⟩
      · rw [qloop]
        have hstep := qstep_inv hc size arr low high rest hinv
        have hml := qstep_measure_lt cmp size arr low high rest
        have hrec := ih (qstep cmp size (arr, (low, high) :: rest)).2
          (qstep cmp size (arr, (low, high) :: rest)).1 (by omega) hstep.1
        exact ⟨hrec.1.trans hstep.2, hrec.2⟩
  intro stack arr hinv
  exact key (qmeasure stack) stack arr le_rfl hinv

theorem quicksort_correct (hc : TotalCmp cmp) (a : List α) (ts : Nat)
    (hts : 0 < ts) (hov : a.length * ts ≤ SIZE_MAX) :
    (quicksort (some a) a.length ts (some cmp)).ret = 0 ∧
    (quicksort (some a) a.length ts (some cmp)).err = none ∧
    ∃ b, (quicksort (some a) a.length ts (some cmp)).arr = some b ∧
      b.Perm a ∧ List.Pairwise (fun x y => cmp x y ≤ 0) b := by
  by_cases hsz : a.length ≤ 1
  · have hred : quicksort (some a) a.length ts (some cmp)
        = ⟨0, some a, none⟩ := by
      simp only [quicksort, if_neg (by omega : ¬ ts = 0),
        if_neg (no_overflow_guard hts hov), if_pos hsz]
    rw [hred]
    refine ⟨rfl, rfl, a, rfl, List.Perm.refl a, ?_⟩
    rcases a with _ | ⟨x, _ | ⟨y, t⟩⟩
    · exact List.Pairwise.nil
    · exact List.pairwise_singleton _ x
    · simp at hsz
  · have hred : quicksort (some a) a.length ts (some cmp)
        = ⟨0, some (qloop cmp a.length a [(0, a.length - 1)]), none⟩ := by
      simp only [quicksort, if_neg (by omega : ¬ ts = 0),
        if_neg (no_overflow_guard hts hov), if_neg hsz]
    rw [hred]
    have hinv : StackInv cmp a.length a [(0, a.length - 1)] := by
      refine ⟨rfl, ⟨?_, List.pairwise_singleton _ _⟩, ?_⟩
      · intro r hr
        rcases List.mem_cons.mp hr with rfl | hr'
        · dsimp only
          omega
        · exact absurd hr' (List.not_mem_nil r)
      · intro i j hij hjs hnc
        exact absurd ⟨(0, a.length - 1), List.mem_cons_self _ _,
          Nat.zero_le i, by omega⟩ hnc
    have h := qloop_sorted hc a.length [(0, a.length - 1)] a hinv
    refine ⟨rfl, rfl, qloop cmp a.length a [(0, a.length - 1)], rfl, h.1, ?_⟩
    have hql : (qloop cmp a.length a [(0, a.length - 1)]).length = a.length :=
      h.1.length_eq
    rw [List.pairwise_iff_getElem]
    intro p q hp hq hpq
    rw [← gi_eq_getElem hp, ← gi_eq_getElem hq]
    exact h.2 p q hpq (by omega)

end QuickCorrect

section ClaimC1

variable {α : Type u} [Inhabited α]

/-- C1: for every array view with a non-null array and comparator, positive
stride, count * stride within SIZE_MAX, and a comparator presenting a total
preorder, each of quicksort, selection_sort and insertion_sort returns 0
with no errno, and leaves the array a permutation of its input that is
non-decreasing under the comparator. -/
theorem claim_C1_sorts (cmp : α → α → Int) (hc : TotalCmp cmp) (a : List α)
    (ts : Nat) (hts : 0 < ts) (hov : a.length * ts ≤ SIZE_MAX) :
    ((quicksort (some a) a.length ts (some cmp)).ret = 0 ∧
     (quicksort (some a) a.length ts (some cmp)).err = none ∧
     ∃ b, (quicksort (some a) a.length ts (some cmp)).arr = some b ∧
       b.Perm a ∧ List.Pairwise (fun x y => cmp x y ≤ 0) b) ∧
    ((selection_sort (some a) a.length ts (some cmp)).ret = 0 ∧
     (selection_sort (some a) a.length ts (some cmp)).err = none ∧
     ∃ b, (selection_sort (some a) a.length ts (some cmp)).arr = some b ∧
       b.Perm a ∧ List.Pairwise (fun x y => cmp x y ≤ 0) b) ∧
    ((insertion_sort (some a) a.length ts (some cmp)).ret = 0 ∧
     (insertion_sort (some a) a.length ts (some cmp)).err = none ∧
     ∃ b, (insertion_sort (some a) a.length ts (some cmp)).arr = some b ∧
       b.Perm a ∧ List.Pairwise (fun x y => cmp x y ≤ 0) b) :=
  ⟨quicksort_correct hc a ts hts hov,
   selection_sort_correct hc a ts hts hov,
   insertion_sort_correct hc a ts hts hov⟩

end ClaimC1

/-- Witness for C1 at the array [5, 3, 3, 1, 4] with stride 4 and the
integer comparator. -/
theorem claim_C1_witness :
    TotalCmp intCmp ∧ 0 < 4 ∧
    ([5, 3, 3, 1, 4] : List Int).length * 4 ≤ SIZE_MAX ∧
    (((quicksort (some [5, 3, 3, 1, 4]) ([5, 3, 3, 1, 4] : List Int).length 4
        (some intCmp)).ret = 0 ∧
      (quicksort (some [5, 3, 3, 1, 4]) ([5, 3, 3, 1, 4] : List Int).length 4
        (some intCmp)).err = none ∧
      ∃ b, (quicksort (some [5, 3, 3, 1, 4])
          ([5, 3, 3, 1, 4] : List Int).length 4 (some intCmp)).arr = some b ∧
        b.Perm [5, 3, 3, 1, 4] ∧
        List.Pairwise (fun x y => intCmp x y ≤ 0) b) ∧
     ((selection_sort (some [5, 3, 3, 1, 4])
        ([5, 3, 3, 1, 4] : List Int).length 4 (some intCmp)).ret = 0 ∧
      (selection_sort (some [5, 3, 3, 1, 4])
        ([5, 3, 3, 1, 4] : List Int).length 4 (some intCmp)).err = none ∧
      ∃ b, (selection_sort (some [5, 3, 3, 1, 4])
          ([5, 3, 3, 1, 4] : List Int).length 4 (some intCmp)).arr = some b ∧
        b.Perm [5, 3, 3, 1, 4] ∧
        List.Pairwise (fun x y => intCmp x y ≤ 0) b) ∧
     ((insertion_sort (some [5, 3, 3, 1, 4])
        ([5, 3, 3, 1, 4] : List Int).length 4 (some intCmp)).ret = 0 ∧
      (insertion_sort (some [5, 3, 3, 1, 4])
        ([5, 3, 3, 1, 4] : List Int).length 4 (some intCmp)).err = none ∧
      ∃ b, (insertion_sort (some [5, 3, 3, 1, 4])
          ([5, 3, 3, 1, 4] : List Int).length 4 (some intCmp)).arr = some b ∧
        b.Perm [5, 3, 3, 1, 4] ∧
        List.Pairwise (fun x y => intCmp x y ≤ 0) b)) :=
  ⟨intCmp_total, by decide, by decide,
   claim_C1_sorts intCmp intCmp_total [5, 3, 3, 1, 4] 4 (by decide) (by decide)⟩

/-! ## Claims C6, C7, C10: the push rule, the inner loop of insertion
sort, and termination of the stack loop -/

/-- Iterating quicksort's stack-loop body a given number of times. -/
def iterQstep {α : Type u} [Inhabited α] (cmp : α → α → Int) (size : Nat) :
    Nat → List α × List (Nat × Nat) → List α × List (Nat × Nat)
  | 0, s => s
  | n + 1, s => iterQstep cmp size n (qstep cmp size s)

/-- The sum of the pending range lengths, the measure named by the claim
that the loop makes strictly decrease (an inverted range (lo, hi) with
hi < lo holds no index and has length 0). -/
def qlensum : List (Nat × Nat) → Nat
  | [] => 0
  | (low, high) :: rest => (high + 1 - low) + qlensum rest

/-- C6 (amended): after a range [low, high] with low < high is popped and
partitioned with pivot position p, both sub-ranges [low, p-1] and
[p+1, high] are pushed — the shorter-or-equal one last (head of the
stack) — provided p is neither 0 nor size-1, i.e. not an end of the WHOLE
array; when p is an end of the whole array nothing is pushed, even if a
sub-range of [low, high] is non-empty. -/
theorem claim_C6_push_rule {α : Type u} [Inhabited α] (cmp : α → α → Int)
    (size : Nat) (arr : List α) (low high : Nat) (rest : List (Nat × Nat))
    (hlh : low < high) (p : Nat)
    (hp : p = (partitionStep cmp arr low high).2) :
    (qstep cmp size (arr, (low, high) :: rest)).2 = qnext size low high p rest ∧
    (p ≠ 0 ∧ p ≠ size - 1 →
      (qnext size low high p rest
          = (low, p - 1) :: (p + 1, high) :: rest ∧ p - low ≤ high - p) ∨
      (qnext size low high p rest
          = (p + 1, high) :: (low, p - 1) :: rest ∧ high - p < p - low)) ∧
    ((p = 0 ∨ p = size - 1) → qnext size low high p rest = rest) := by
  refine ⟨?_, ?_, ?_⟩
  · rw [qstep, if_pos hlh, hp]
  · intro hpin
    unfold qnext
    rw [if_pos hpin]
    by_cases hcase : p - low > high - p
    · rw [if_pos hcase]
      exact Or.inr ⟨rfl, by omega⟩
    · rw [if_neg hcase]
      exact Or.inl ⟨rfl, by omega⟩
  · intro hpout
    unfold qnext
    rw [if_neg (by tauto)]

/-- Witness for C6's push rule: quicksort on [0, 1, 1] pops (0, 2) first;
the pivot position is 2 = size - 1, so nothing is pushed. -/
theorem claim_C6_witness :
    (0 : Nat) < 2 ∧
    (2 : Nat) = (partitionStep intCmp ([0, 1, 1] : List Int) 0 2).2 ∧
    (qstep intCmp 3 (([0, 1, 1] : List Int), [(0, 2)])).2 = qnext 3 0 2 2 [] ∧
    qnext 3 0 2 2 [] = [] := by
  have hp : (2 : Nat) = (partitionStep intCmp ([0, 1, 1] : List Int) 0 2).2 := by
    simp [partitionStep, medianIdx, ploop, scanL, scanR, swapL, gi, intCmp]
  have h := claim_C6_push_rule intCmp 3 ([0, 1, 1] : List Int) 0 2 []
    (by decide) 2 hp
  exact ⟨by decide, hp, h.1, h.2.2 (Or.inr (by decide))⟩

/-- C6 counterexample to the original claim: on the run of quicksort over
[0, 1, 1] (size 3), the first popped range is (0, 2) with 0 < 2, the pivot
lands at position 2, and NEITHER sub-range is pushed — in particular the
non-empty sub-range [0, 1] is dropped — because the push guard tests the
ends of the whole array, not of the popped range. -/
theorem claim_C6_counterexample :
    (0 : Nat) < 2 ∧
    (partitionStep intCmp ([0, 1, 1] : List Int) 0 2).2 = 2 ∧
    (qstep intCmp 3 (([0, 1, 1] : List Int), [(0, 2)])).2 = [] := by
  refine ⟨by decide, ?_, ?_⟩
  · simp [partitionStep, medianIdx, ploop, scanL, scanR, swapL, gi, intCmp]
  · simp [qstep, partitionStep, medianIdx, ploop, scanL, scanR, qnext, swapL,
      gi, intCmp]

/-- C7 (amended): insertion sort's inner loop at position j = jm + 1 stops
(leaving the list unchanged) exactly when the left neighbor compares
strictly less than the element; on a greater OR EQUAL comparison — zero
included — it swaps the two and continues leftward, so an equal left
neighbor IS swapped past. -/
theorem claim_C7_inner_loop {α : Type u} [Inhabited α] (cmp : α → α → Int)
    (l : List α) (jm : Nat) :
    (cmp (gi l jm) (gi l (jm + 1)) < 0 → insInner cmp l (jm + 1) = l) ∧
    (0 ≤ cmp (gi l jm) (gi l (jm + 1)) →
      insInner cmp l (jm + 1) = insInner cmp (swapL l (jm + 1) jm) jm) ∧
    insInner cmp l 0 = l := by
  refine ⟨?_, ?_, rfl⟩
  · intro h
    rw [insInner, if_pos h]
  · intro h
    rw [insInner, if_neg (by omega)]

/-- C7 counterexample to the original claim: the pair comparator on first
components deems (1, 0) and (1, 1) equal, yet insertion_sort on
[(1, 0), (1, 1)] swaps them: the inner loop keeps moving on an
equal-comparing left neighbor instead of stopping. -/
theorem claim_C7_counterexample :
    fstCmp ((1 : Int), (0 : Int)) ((1 : Int), (1 : Int)) = 0 ∧
    insInner fstCmp [((1 : Int), (0 : Int)), (1, 1)] 1
      = [((1 : Int), (1 : Int)), (1, 0)] ∧
    (insertion_sort (some [((1 : Int), (0 : Int)), (1, 1)]) 2 8
      (some fstCmp)).arr = some [((1 : Int), (1 : Int)), (1, 0)] := by
  refine ⟨by decide, by decide, ?_⟩
  simp [insertion_sort, insOuter, insInner, swapL, gi, fstCmp, intCmp, SIZE_MAX]

/-- C10 (amended): quicksort's explicit-stack loop terminates for EVERY
comparator, consistent or not: each iteration strictly decreases the sum
of 2 ^ (range length) over the pending ranges — the plain sum of range
lengths does not always decrease, since popping an inverted (length-0)
range leaves it unchanged — so from any state the stack empties within
qmeasure(stack) iterations. -/
theorem claim_C10_termination {α : Type u} [Inhabited α] (cmp : α → α → Int)
    (size : Nat) (arr : List α) (stack : List (Nat × Nat)) :
    (∀ (b : List α) (low high : Nat) (rest : List (Nat × Nat)),
      qmeasure (qstep cmp size (b, (low, high) :: rest)).2
        < qmeasure ((low, high) :: rest)) ∧
    ∃ n, n ≤ qmeasure stack ∧ (iterQstep cmp size n (arr, stack)).2 = [] := by
  refine ⟨fun b low high rest => qstep_measure_lt cmp size b low high rest, ?_⟩
  have key : ∀ m (s : List α × List (Nat × Nat)), qmeasure s.2 ≤ m →
      ∃ n, n ≤ qmeasure s.2 ∧ (iterQstep cmp size n s).2 = [] := by
    intro m
    induction m with
    | zero =>
      intro s hm
      rcases s with ⟨b, _ | ⟨⟨low, high⟩, rest⟩⟩
      · exact ⟨0, le_rfl, rfl⟩
      · exfalso
        have h1 : 1 ≤ 2 ^ (high + 1 - low) := Nat.one_le_two_pow
        simp only [qmeasure] at hm
        omega
    | succ m ih =>
      intro s hm
      rcases s with ⟨b, _ | ⟨⟨low, high⟩, rest⟩⟩
      · exact ⟨0, le_rfl, rfl⟩
      · dsimp only at hm ⊢
        have hlt := qstep_measure_lt cmp size b low high rest
        obtain ⟨n, hn1, hn2⟩ :=
          ih (qstep cmp size (b, (low, high) :: rest)) (by omega)
        refine ⟨n + 1, by omega, ?_⟩
        rw [iterQstep]
        exact hn2
  exact key (qmeasure stack) (arr, stack) le_rfl

/-- C10 counterexample to the justification of the original claim: running
quicksort on [2, 0, 1, 3], after three loop iterations the state is
([0, 1, 2, 3], [(2, 1), (0, 0)]); the fourth iteration pops the inverted
range (2, 1) and pushes nothing, and the sum of pending range lengths
stays at 1 instead of strictly decreasing. -/
theorem claim_C10_counterexample :
    qstep intCmp 4 (qstep intCmp 4 (qstep intCmp 4
        (([2, 0, 1, 3] : List Int), [(0, 3)])))
      = (([0, 1, 2, 3] : List Int), [(2, 1), (0, 0)]) ∧
    (qstep intCmp 4 (([0, 1, 2, 3] : List Int), [(2, 1), (0, 0)])).2
      = [(0, 0)] ∧
    qlensum [(2, 1), (0, 0)] = qlensum [(0, 0)] := by
  refine ⟨?_, ?_, by decide⟩
  · simp [qstep, partitionStep, medianIdx, ploop, scanL, scanR, qnext, swapL,
      gi, intCmp]
  · simp [qstep]

/-! ## Claim C4: the error sentinel of the searches

binary_search modelled with a fallible comparator and a fallible result
allocation.  A comparator error stands for compare setting errno, upon
which the saved-errno check after the call makes the function return; an
allocation failure is malloc returning NULL.  Both returns happen after
*found_size has been initialised to 0 and neither path stores the
(size_t)-1 sentinel, which is the divergence this section exhibits. -/

/-- EDOM, a comparator-chosen errno value used in examples. -/
def EDOM : Nat := 33

/-- The main loop of binary_search with a fallible comparator. -/
def bsMainE {α : Type u} [Inhabited α] (cmpE : α → α → Except Nat Int)
    (arr : List α) (t : α) (left right : Nat) : Except Nat (Option Nat) :=
  if _h : left ≤ right then
    let middle := left + (right - left) / 2
    match cmpE (gi arr middle) t with
    | Except.error e => Except.error e
    | Except.ok c =>
      if c < 0 then bsMainE cmpE arr t (middle + 1) right
      else if c > 0 then
        if middle = 0 then Except.ok none
        else bsMainE cmpE arr t left (middle - 1)
      else Except.ok (some middle)
  else Except.ok none
termination_by right + 1 - left

/-- The leftmost-duplicate loop with a fallible comparator. -/
def bsLeftE {α : Type u} [Inhabited α] (cmpE : α → α → Except Nat Int)
    (arr : List α) (t : α) (low high : Nat) : Except Nat Nat :=
  if _h : low < high then
    let mid := low + (high - low) / 2
    match cmpE (gi arr mid) t with
    | Except.error e => Except.error e
    | Except.ok c =>
      if c < 0 then bsLeftE cmpE arr t (mid + 1) high
      else bsLeftE cmpE arr t low mid
  else Except.ok low
termination_by high - low

/-- The rightmost-duplicate loop with a fallible comparator. -/
def bsRightE {α : Type u} [Inhabited α] (cmpE : α → α → Except Nat Int)
    (arr : List α) (t : α) (low high : Nat) : Except Nat Nat :=
  if _h : low < high then
    let mid := low + (high - low + 1) / 2
    match cmpE (gi arr mid) t with
    | Except.error e => Except.error e
    | Except.ok c =>
      if c > 0 then bsRightE cmpE arr t low (mid - 1)
      else bsRightE cmpE arr t mid high
  else Except.ok low
termination_by high - low

/-- binary_search from algorithms.c with a fallible comparator and a
fallible buffer allocation.  On every return after the argument and
overflow checks, the value of *found_size is whatever the error-free part
of the run left there: the source sets it to 0 right after those checks
and only a fully successful run ever overwrites it. -/
def binary_searchE {α : Type u} [Inhabited α] (arr? : Option (List α))
    (size : Nat) (tgt? : Option α) (ts : Nat)
    (cmpE? : Option (α → α → Except Nat Int)) (fsnull : Bool)
    (allocOk : Bool) : SOut α :=
  match arr?, tgt?, cmpE? with
  | some a, some t, some cmpE =>
    if ts = 0 || fsnull then
      ⟨arr?, tgt?, none, if fsnull then none else some SENTINEL, some EINVAL⟩
    else if size > SIZE_MAX / ts then
      ⟨arr?, tgt?, none, some SENTINEL, some EOVERFLOW⟩
    else if size = 0 then
      ⟨arr?, tgt?, none, some 0, none⟩
    else
      match bsMainE cmpE a t 0 (size - 1) with
      | Except.error e => ⟨arr?, tgt?, none, some 0, some e⟩
      | Except.ok none => ⟨arr?, tgt?, none, some 0, none⟩
      | Except.ok (some found_idx) =>
        match bsLeftE cmpE a t 0 found_idx with
        | Except.error e => ⟨arr?, tgt?, none, some 0, some e⟩
        | Except.ok leftmost =>
          match bsRightE cmpE a t found_idx (size - 1) with
          | Except.error e => ⟨arr?, tgt?, none, some 0, some e⟩
          | Except.ok rightmost =>
            if allocOk then
              ⟨arr?, tgt?, some ((a.drop leftmost).take (rightmost - leftmost + 1)),
                some (rightmost - leftmost + 1), none⟩
            else ⟨arr?, tgt?, none, some 0, some ENOMEM⟩
  | _, _, _ =>
    ⟨arr?, tgt?, none, if fsnull then none else some SENTINEL, some EINVAL⟩

/-- C4: the claim fails in binary_search — it is a bug in the code against
its own contract ("found_size is set to (size_t)-1 on errors, 0 if no
matches are found").  A comparator-signalled error and a result-buffer
allocation failure both return with *found_size still 0, the very value a
successful no-match call reports, so "call failed" and "no matches" are
NOT distinguishable from the count. -/
theorem claim_C4_sentinel_bug :
    (binary_searchE (some [(1 : Int), 2, 3]) 3 (some 2) 4
        (some fun _ _ => Except.error EDOM) false true).err = some EDOM ∧
    (binary_searchE (some [(1 : Int), 2, 3]) 3 (some 2) 4
        (some fun _ _ => Except.error EDOM) false true).cnt = some 0 ∧
    (binary_searchE (some [(1 : Int), 2, 3]) 3 (some 2) 4
        (some fun a b => Except.ok (intCmp a b)) false false).err
      = some ENOMEM ∧
    (binary_searchE (some [(1 : Int), 2, 3]) 3 (some 2) 4
        (some fun a b => Except.ok (intCmp a b)) false false).cnt = some 0 ∧
    (binary_search (some [(1 : Int), 2, 3]) 3 (some 5) 4
        (some intCmp) false).err = none ∧
    (binary_search (some [(1 : Int), 2, 3]) 3 (some 5) 4
        (some intCmp) false).cnt = some 0 ∧
    (0 : Nat) ≠ SENTINEL := by
  refine ⟨?_, ?_, ?_, ?_, ?_, ?_, by decide⟩ <;>
    simp [binary_searchE, binary_search, bsMainE, bsLeftE, bsRightE,
      bsMain, bsLeft, bsRight, gi, intCmp, SIZE_MAX, SENTINEL]

/-! ## Claim C5: the overflow guard of all six entry points -/

section ClaimC5

variable {α : Type u} [Inhabited α]

/-- C5: every entry point called with non-null pointers and positive
stride, with count > SIZE_MAX / stride, returns exactly its overflow
error record: errno EOVERFLOW, the sentinel count (searches) or -1
(sorts), no buffer, and the array view passed through unchanged.  The
comparator and the predicate are arbitrary binders that the result does
not mention, so they are never consulted. -/
theorem claim_C5_overflow (a : List α) (t : α) (size ts : Nat)
    (cmp : α → α → Int) (p : α → Bool) (hts : 0 < ts)
    (hov : size > SIZE_MAX / ts) :
    linear_search (some a) size (some t) ts (some cmp) false
      = ⟨some a, some t, none, some SENTINEL, some EOVERFLOW⟩ ∧
    binary_search (some a) size (some t) ts (some cmp) false
      = ⟨some a, some t, none, some SENTINEL, some EOVERFLOW⟩ ∧
    predicate_search (some a) size ts false (some p)
      = ⟨some a, none, none, some SENTINEL, some EOVERFLOW⟩ ∧
    quicksort (some a) size ts (some cmp) = ⟨-1, some a, some EOVERFLOW⟩ ∧
    selection_sort (some a) size ts (some cmp) = ⟨-1, some a, some EOVERFLOW⟩ ∧
    insertion_sort (some a) size ts (some cmp) = ⟨-1, some a, some EOVERFLOW⟩ := by
  have h0 : ¬ ts = 0 := by omega
  refine ⟨?_, ?_, ?_, ?_, ?_, ?_⟩ <;>
    simp [linear_search, binary_search, predicate_search, quicksort,
      selection_sort, insertion_sort, h0, hov]

end ClaimC5

/-- Witness for C5 at a one-element Int array with stride 1 and
count 2^64 > SIZE_MAX / 1. -/
theorem claim_C5_witness :
    0 < 1 ∧ 2 ^ 64 > SIZE_MAX / 1 ∧
    (linear_search (some [(7 : Int)]) (2 ^ 64) (some 0) 1 (some intCmp) false
      = ⟨some [(7 : Int)], some 0, none, some SENTINEL, some EOVERFLOW⟩ ∧
    binary_search (some [(7 : Int)]) (2 ^ 64) (some 0) 1 (some intCmp) false
      = ⟨some [(7 : Int)], some 0, none, some SENTINEL, some EOVERFLOW⟩ ∧
    predicate_search (some [(7 : Int)]) (2 ^ 64) 1 false (some fun _ => true)
      = ⟨some [(7 : Int)], none, none, some SENTINEL, some EOVERFLOW⟩ ∧
    quicksort (some [(7 : Int)]) (2 ^ 64) 1 (some intCmp)
      = ⟨-1, some [(7 : Int)], some EOVERFLOW⟩ ∧
    selection_sort (some [(7 : Int)]) (2 ^ 64) 1 (some intCmp)
      = ⟨-1, some [(7 : Int)], some EOVERFLOW⟩ ∧
    insertion_sort (some [(7 : Int)]) (2 ^ 64) 1 (some intCmp)
      = ⟨-1, some [(7 : Int)], some EOVERFLOW⟩) :=
  ⟨by decide, by decide,
   claim_C5_overflow [(7 : Int)] 0 (2 ^ 64) 1 intCmp (fun _ => true)
     (by decide) (by decide)⟩

/-! ## Claim C8: fallible models of the three sorts

The sorts mutate the array only through swap.  swap of two distinct
element slots mallocs a temporary buffer — modelled by an allocation
oracle consulted at the running count of allocation attempts — and
either exchanges both elements completely or fails with ENOMEM leaving
both untouched (malloc fails before any memmove runs); when the two
pointers coincide it succeeds without allocating.  The comparator may
set errno, after which the saved-errno check at the call site makes the
sort abort; this is modelled by an Except-valued comparator.  Each run
records the array state after every successful swap, so the multiset
claim can be stated about every intermediate state a run visits. -/

/-- Outcome of a fallible sort run: the array states after each
successful swap in order, the final array, the C return value, the errno
value set, and the allocation-attempt count after the run. -/
structure TOut (α : Type u) where
  trace : List (List α)
  arr : List α
  ret : Int
  err : Option Nat
  k : Nat

/-- Fallible inner loop of insertion_sort at outer index i, j running
down: compare (j-1, j), abort on a comparator error, stop on strictly
less, otherwise swap j and j-1 (distinct slots, so one allocation) and
continue; a failing swap aborts with ENOMEM. -/
def insInnerF {α : Type u} [Inhabited α] (cmpE : α → α → Except Nat Int)
    (swapOk : Nat → Bool) (l : List α) (k : Nat) : Nat → TOut α
  | 0 => ⟨[], l, 0, none, k⟩
  | jm + 1 =>
    match cmpE (gi l jm) (gi l (jm + 1)) with
    | Except.error e => ⟨[], l, -1, some e, k⟩
    | Except.ok c =>
      if c < 0 then ⟨[], l, 0, none, k⟩
      else if swapOk k then
        let l2 := swapL l (jm + 1) jm
        let r := insInnerF cmpE swapOk l2 (k + 1) jm
        ⟨l2 :: r.trace, r.arr, r.ret, r.err, r.k⟩
      else ⟨[], l, -1, some ENOMEM, k + 1⟩

/-- Fallible outer loop of insertion_sort: i from 1 to size-1,
propagating an abort of the inner loop. -/
def insOuterF {α : Type u} [Inhabited α] (cmpE : α → α → Except Nat Int)
    (swapOk : Nat → Bool) (size : Nat) (l : List α) (k i : Nat) : TOut α :=
  if _h : i < size then
    let r := insInnerF cmpE swapOk l k i
    if r.ret = 0 then
      let r2 := insOuterF cmpE swapOk size r.arr r.k (i + 1)
      ⟨r.trace ++ r2.trace, r2.arr, r2.ret, r2.err, r2.k⟩
    else r
  else ⟨[], l, 0, none, k⟩
termination_by size - i

/-- insertion_sort from algorithms.c with fallible comparator and
allocations, for non-null array and comparator. -/
def insertion_sortF {α : Type u} [Inhabited α] (a : List α) (size ts : Nat)
    (cmpE : α → α → Except Nat Int) (swapOk : Nat → Bool) : TOut α :=
  if ts = 0 then ⟨[], a, -1, some EINVAL, 0⟩
  else if size > SIZE_MAX / ts then ⟨[], a, -1, some EOVERFLOW, 0⟩
  else insOuterF cmpE swapOk size a 0 1

/-- Fallible minimum scan of selection_sort: m is the best index so far,
j runs over [j, size); a comparator error aborts. -/
def selMinF {α : Type u} [Inhabited α] (cmpE : α → α → Except Nat Int)
    (l : List α) (size m j : Nat) : Except Nat Nat :=
  if _h : j < size then
    match cmpE (gi l j) (gi l m) with
    | Except.error e => Except.error e
    | Except.ok c =>
      if c < 0 then selMinF cmpE l size j (j + 1)
      else selMinF cmpE l size m (j + 1)
  else Except.ok m
termination_by size - j

/-- Fallible outer loop of selection_sort: for i up to size-2 swap the
minimum of [i+1, size) into place; when the minimum is at i itself the
swap call gets equal pointers and succeeds without allocating. -/
def selOuterF {α : Type u} [Inhabited α] (cmpE : α → α → Except Nat Int)
    (swapOk : Nat → Bool) (size : Nat) (l : List α) (k i : Nat) : TOut α :=
  if _h : i < size - 1 then
    match selMinF cmpE l size i (i + 1) with
    | Except.error e => ⟨[], l, -1, some e, k⟩
    | Except.ok m =>
      if i = m then selOuterF cmpE swapOk size l k (i + 1)
      else if swapOk k then
        let l2 := swapL l i m
        let r := selOuterF cmpE swapOk size l2 (k + 1) (i + 1)
        ⟨l2 :: r.trace, r.arr, r.ret, r.err, r.k⟩
      else ⟨[], l, -1, some ENOMEM, k + 1⟩
  else ⟨[], l, 0, none, k⟩
termination_by size - 1 - i

/-- selection_sort from algorithms.c with fallible comparator and
allocations, for non-null array and comparator. -/
def selection_sortF {α : Type u} [Inhabited α] (a : List α) (size ts : Nat)
    (cmpE : α → α → Except Nat Int) (swapOk : Nat → Bool) : TOut α :=
  if ts = 0 then ⟨[], a, -1, some EINVAL, 0⟩
  else if size > SIZE_MAX / ts then ⟨[], a, -1, some EOVERFLOW, 0⟩
  else if 0 < size then selOuterF cmpE swapOk size a 0 0
  else ⟨[], a, 0, none, 0⟩

/-- Fallible left scan of quicksort's partition: advance while strictly
below the pivot element (at index pIdx), abort on a comparator error,
break once past r. -/
def scanLF {α : Type u} [Inhabited α] (cmpE : α → α → Except Nat Int)
    (arr : List α) (pIdx : Nat) (l r : Nat) : Except Nat Nat :=
  match cmpE (gi arr l) (gi arr pIdx) with
  | Except.error e => Except.error e
  | Except.ok c =>
    if c < 0 then
      if l + 1 > r then Except.ok (l + 1)
      else scanLF cmpE arr pIdx (l + 1) r
    else Except.ok l
termination_by r + 1 - l
decreasing_by omega

/-- Fallible right scan of quicksort's partition: retreat while strictly
above the pivot element, abort on a comparator error, break once below
low. -/
def scanRF {α : Type u} [Inhabited α] (cmpE : α → α → Except Nat Int)
    (arr : List α) (pIdx low : Nat) (r : Int) : Except Nat Int :=
  if r ≥ low then
    match cmpE (gi arr r.toNat) (gi arr pIdx) with
    | Except.error e => Except.error e
    | Except.ok c =>
      if c > 0 then
        if r - 1 < low then Except.ok (r - 1)
        else scanRF cmpE arr pIdx low (r - 1)
      else Except.ok r
  else Except.ok r
termination_by (r - low + 1).toNat
decreasing_by simp only [Int.lt_iff_add_one_le] at *; omega


theorem scanLF_ge {α : Type u} [Inhabited α] (cmpE : α → α → Except Nat Int)
    (arr : List α) (pIdx : Nat) :
    ∀ l r lp, scanLF cmpE arr pIdx l r = Except.ok lp → l ≤ lp := by
  have key : ∀ n l r lp, r + 1 - l ≤ n →
      scanLF cmpE arr pIdx l r = Except.ok lp → l ≤ lp := by
    intro n
    induction n with
    | zero =>
      intro l r lp hn h
      rw [scanLF] at h
      split at h
      · exact absurd h (by simp)
      · split at h
        · rw [if_pos (by omega)] at h
          injection h with h
          omega
        · injection h with h
          omega
    | succ n ih =>
      intro l r lp hn h
      rw [scanLF] at h
      split at h
      · exact absurd h (by simp)
      · split at h
        · split at h
          · injection h with h
            omega
          · have := ih (l + 1) r lp (by omega) h
            omega
        · injection h with h
          omega
  intro l r lp h
  exact key (r + 1 - l) l r lp le_rfl h

theorem scanLF_le {α : Type u} [Inhabited α] (cmpE : α → α → Except Nat Int)
    (arr : List α) (pIdx : Nat) :
    ∀ l r lp, l ≤ r → scanLF cmpE arr pIdx l r = Except.ok lp →
    lp ≤ r + 1 := by
  have key : ∀ n l r lp, r + 1 - l ≤ n → l ≤ r →
      scanLF cmpE arr pIdx l r = Except.ok lp → lp ≤ r + 1 := by
    intro n
    induction n with
    | zero =>
      intro l r lp hn hlr h
      exact absurd hn (by omega)
    | succ n ih =>
      intro l r lp hn hlr h
      rw [scanLF] at h
      split at h
      · exact absurd h (by simp)
      · split at h
        · split at h
          · rename_i hbr
            injection h with h
            omega
          · exact ih (l + 1) r lp (by omega) (by omega) h
        · injection h with h
          omega
  intro l r lp hlr h
  exact key (r + 1 - l) l r lp le_rfl hlr h

theorem scanRF_le {α : Type u} [Inhabited α] (cmpE : α → α → Except Nat Int)
    (arr : List α) (pIdx low : Nat) :
    ∀ (r : Int) rp, scanRF cmpE arr pIdx low r = Except.ok rp → rp ≤ r := by
  have key : ∀ n (r : Int) rp, (r - low + 1).toNat ≤ n →
      scanRF cmpE arr pIdx low r = Except.ok rp → rp ≤ r := by
    intro n
    induction n with
    | zero =>
      intro r rp hn h
      rw [scanRF] at h
      by_cases hr : r ≥ (low : Int)
      · exfalso
        omega
      · rw [if_neg hr] at h
        injection h with h
        omega
    | succ n ih =>
      intro r rp hn h
      rw [scanRF] at h
      by_cases hr : r ≥ (low : Int)
      · rw [if_pos hr] at h
        split at h
        · exact absurd h (by simp)
        · split at h
          · split at h
            · injection h with h
              omega
            · have := ih (r - 1) rp (by omega) h
              omega
          · injection h with h
            omega
      · rw [if_neg hr] at h
        injection h with h
        omega
  intro r rp h
  exact key (r - low + 1).toNat r rp le_rfl h

theorem scanRF_ge {α : Type u} [Inhabited α] (cmpE : α → α → Except Nat Int)
    (arr : List α) (pIdx low : Nat) :
    ∀ (r : Int) rp, (low : Int) - 1 ≤ r →
    scanRF cmpE arr pIdx low r = Except.ok rp → (low : Int) - 1 ≤ rp := by
  have key : ∀ n (r : Int) rp, (r - low + 1).toNat ≤ n → (low : Int) - 1 ≤ r →
      scanRF cmpE arr pIdx low r = Except.ok rp → (low : Int) - 1 ≤ rp := by
    intro n
    induction n with
    | zero =>
      intro r rp hn hlr h
      rw [scanRF] at h
      by_cases hr : r ≥ (low : Int)
      · exfalso
        omega
      · rw [if_neg hr] at h
        injection h with h
        omega
    | succ n ih =>
      intro r rp hn hlr h
      rw [scanRF] at h
      by_cases hr : r ≥ (low : Int)
      · rw [if_pos hr] at h
        split at h
        · exact absurd h (by simp)
        · split at h
          · split at h
            · injection h with h
              omega
            · exact ih (r - 1) rp (by omega) (by omega) h
          · injection h with h
            omega
      · rw [if_neg hr] at h
        injection h with h
        omega
  intro r rp hlr h
  exact key (r - low + 1).toNat r rp le_rfl hlr h

/-- Outcome of a fallible partitioning phase: post-swap states, final
array, pivot position or errno, allocation-attempt count. -/
structure PRes (α : Type u) where
  trace : List (List α)
  arr : List α
  res : Except Nat Nat
  k : Nat

/-- Fallible two-pointer loop of quicksort's partition: scan, then swap
left and right when they have not crossed; a swap of two distinct slots
consults the allocation oracle, a swap of one slot with itself succeeds
without allocating. -/
def ploopF {α : Type u} [Inhabited α] (cmpE : α → α → Except Nat Int)
    (swapOk : Nat → Bool) (arr : List α) (low pIdx : Nat) (l : Nat) (r : Int)
    (k : Nat) : PRes α :=
  if (l : Int) ≤ r then
    match hsl : scanLF cmpE arr pIdx l r.toNat with
    | Except.error e => ⟨[], arr, Except.error e, k⟩
    | Except.ok lp =>
      match hsr : scanRF cmpE arr pIdx low r with
      | Except.error e => ⟨[], arr, Except.error e, k⟩
      | Except.ok rp =>
        if hc : (lp : Int) ≤ rp then
          if lp = rp.toNat then
            ploopF cmpE swapOk arr low pIdx (lp + 1) (rp - 1) k
          else if swapOk k then
            let arr2 := swapL arr lp rp.toNat
            let res := ploopF cmpE swapOk arr2 low pIdx (lp + 1) (rp - 1) (k + 1)
            ⟨arr2 :: res.trace, res.arr, res.res, res.k⟩
          else ⟨[], arr, Except.error ENOMEM, k + 1⟩
        else ⟨[], arr, Except.ok lp, k⟩
  else ⟨[], arr, Except.ok l, k⟩
termination_by (r - l + 1).toNat
decreasing_by
  all_goals
    have h1 := scanLF_ge cmpE arr pIdx l r.toNat _ hsl
    have h2 := scanRF_le cmpE arr pIdx low r _ hsr
    omega

/-- The median-of-three index from the three comparison results, exactly
the conditional cascade of the source (high is the default). -/
def medianSel (clm clh cmh : Int) (low mid high : Nat) : Nat :=
  if clm < 0 then
    if cmh < 0 then mid
    else if clh ≥ 0 then low
    else high
  else
    if cmh > 0 then mid
    else if clh ≤ 0 then low
    else high

/-- The final swap of the partition, putting the pivot (at the high slot)
into the returned left position; equal slots succeed without allocating.
trace1 is the states accumulated before the two-pointer loop ran. -/
def pivotFinish {α : Type u} [Inhabited α] (swapOk : Nat → Bool) (high : Nat)
    (trace1 : List (List α)) (pr : PRes α) : PRes α :=
  match pr.res with
  | Except.error e => ⟨trace1 ++ pr.trace, pr.arr, Except.error e, pr.k⟩
  | Except.ok lp =>
    if lp = high then ⟨trace1 ++ pr.trace, pr.arr, Except.ok lp, pr.k⟩
    else if swapOk pr.k then
      ⟨trace1 ++ pr.trace ++ [swapL pr.arr lp high], swapL pr.arr lp high,
        Except.ok lp, pr.k + 1⟩
    else ⟨trace1 ++ pr.trace, pr.arr, Except.error ENOMEM, pr.k + 1⟩

/-- Fallible partitioning round: three median comparisons (each may
abort), the median swap into the high slot (no allocation when the
median already sits there), the two-pointer loop, the final pivot swap. -/
def partitionStepF {α : Type u} [Inhabited α] (cmpE : α → α → Except Nat Int)
    (swapOk : Nat → Bool) (arr : List α) (low high k : Nat) : PRes α :=
  let mid := low + (high - low) / 2
  match cmpE (gi arr low) (gi arr mid) with
  | Except.error e => ⟨[], arr, Except.error e, k⟩
  | Except.ok clm =>
    match cmpE (gi arr low) (gi arr high) with
    | Except.error e => ⟨[], arr, Except.error e, k⟩
    | Except.ok clh =>
      match cmpE (gi arr mid) (gi arr high) with
      | Except.error e => ⟨[], arr, Except.error e, k⟩
      | Except.ok cmh =>
        let q := medianSel clm clh cmh low mid high
        if q = high then
          pivotFinish swapOk high []
            (ploopF cmpE swapOk arr low high low ((high : Int) - 1) k)
        else if swapOk k then
          let arr1 := swapL arr q high
          pivotFinish swapOk high [arr1]
            (ploopF cmpE swapOk arr1 low high low ((high : Int) - 1) (k + 1))
        else ⟨[], arr, Except.error ENOMEM, k + 1⟩

theorem ploopF_bounds {α : Type u} [Inhabited α] (cmpE : α → α → Except Nat Int)
    (swapOk : Nat → Bool) (low pIdx high : Nat) :
    ∀ (arr : List α) (l : Nat) (r : Int) (k : Nat) (lp : Nat),
    low ≤ l → l ≤ high → r ≤ (high : Int) - 1 →
    (ploopF cmpE swapOk arr low pIdx l r k).res = Except.ok lp →
    low ≤ lp ∧ lp ≤ high := by
  have key : ∀ n (arr : List α) (l : Nat) (r : Int) (k : Nat) (lp : Nat),
      (r - l + 1).toNat ≤ n →
      low ≤ l → l ≤ high → r ≤ (high : Int) - 1 →
      (ploopF cmpE swapOk arr low pIdx l r k).res = Except.ok lp →
      low ≤ lp ∧ lp ≤ high := by
    intro n
    induction n with
    | zero =>
      intro arr l r k lp hn h1 h2 h3 h
      rw [ploopF] at h
      have hng : ¬ ((l : Int) ≤ r) := by omega
      rw [if_neg hng] at h
      injection h with h
      omega
    | succ n ih =>
      intro arr l r k lp hn h1 h2 h3 h
      rw [ploopF] at h
      by_cases hlr : (l : Int) ≤ r
      · rw [if_pos hlr] at h
        split at h
        · exact absurd h (by simp)
        · rename_i lpv hsl
          split at h
          · exact absurd h (by simp)
          · rename_i rpv hsr
            have hsl1 := scanLF_ge cmpE arr pIdx l r.toNat _ hsl
            have hsl2 := scanLF_le cmpE arr pIdx l r.toNat _ (by omega) hsl
            have hsr1 := scanRF_le cmpE arr pIdx low r _ hsr
            split at h
            · rename_i hcross
              split at h
              · exact ih arr (lpv + 1) (rpv - 1) k lp (by omega)
                  (by omega) (by omega) (by omega) h
              · split at h
                · exact ih _ (lpv + 1) (rpv - 1) (k + 1) lp (by omega)
                    (by omega) (by omega) (by omega) h
                · exact absurd h (by simp)
            · injection h with h
              omega
      · rw [if_neg hlr] at h
        injection h with h
        omega
  intro arr l r k lp h1 h2 h3 h
  exact key (r - l + 1).toNat arr l r k lp le_rfl h1 h2 h3 h

theorem pivotFinish_res {α : Type u} [Inhabited α] (swapOk : Nat → Bool)
    (high : Nat) (trace1 : List (List α)) (pr : PRes α) (lp : Nat) :
    (pivotFinish swapOk high trace1 pr).res = Except.ok lp →
    pr.res = Except.ok lp := by
  intro h
  rw [pivotFinish] at h
  split at h
  · exact absurd h (by simp)
  · rename_i lpv hres
    split at h
    · injection h with h
      rw [hres, h]
    · split at h
      · injection h with h
        rw [hres, h]
      · exact absurd h (by simp)

theorem partitionStepF_bounds {α : Type u} [Inhabited α]
    (cmpE : α → α → Except Nat Int) (swapOk : Nat → Bool) (arr : List α)
    (low high k : Nat) (hlh : low < high) (p : Nat) :
    (partitionStepF cmpE swapOk arr low high k).res = Except.ok p →
    low ≤ p ∧ p ≤ high := by
  intro h
  rw [partitionStepF] at h
  split at h
  · exact absurd h (by simp)
  · split at h
    · exact absurd h (by simp)
    · split at h
      · exact absurd h (by simp)
      · dsimp only at h
        split at h
        · exact ploopF_bounds cmpE swapOk low high high _ low _ k p
            le_rfl (by omega) (by omega) (pivotFinish_res _ _ _ _ _ h)
        · split at h
          · exact ploopF_bounds cmpE swapOk low high high _ low _ _ p
              le_rfl (by omega) (by omega) (pivotFinish_res _ _ _ _ _ h)
          · exact absurd h (by simp)

theorem qnext_measure_lt (size low high p : Nat) (rest : List (Nat × Nat))
    (hlh : low < high) (hb1 : low ≤ p) (hb2 : p ≤ high) :
    qmeasure (qnext size low high p rest) < qmeasure ((low, high) :: rest) := by
  simp only [qnext, qmeasure]
  split
  · rename_i hpin
    have la : (p - 1) + 1 - low = p - low := by omega
    have lb : high + 1 - (p + 1) = high - p := by omega
    have lc : high + 1 - low = (high - low) + 1 := by omega
    have hsplit : (p - low) + (high - p) = high - low := by omega
    have hpow := pow_two_split hsplit (by omega)
    split
    · simp only [qmeasure]
      rw [la, lb, lc]
      omega
    · simp only [qmeasure]
      rw [la, lb, lc]
      omega
  · have : 1 ≤ 2 ^ (high + 1 - low) := Nat.one_le_two_pow
    omega

/-- Outcome of a fallible quicksort run: post-swap states, final array,
C return value, errno set. -/
structure QRes (α : Type u) where
  trace : List (List α)
  arr : List α
  ret : Int
  err : Option Nat

/-- Fallible explicit-stack loop of quicksort.  Each popped non-trivial
range is partitioned (which may abort); then, when fewer than two free
range slots remain, the stack is reallocated at double capacity — one
allocation attempt that may fail with ENOMEM — and the sub-ranges are
pushed by the guarded rule. -/
def qloopF {α : Type u} [Inhabited α] (cmpE : α → α → Except Nat Int)
    (swapOk : Nat → Bool) (size : Nat) (arr : List α)
    (stack : List (Nat × Nat)) (cap k : Nat) : QRes α :=
  match stack with
  | [] => ⟨[], arr, 0, none⟩
  | (low, high) :: rest =>
    if hlh : low < high then
      let ps := partitionStepF cmpE swapOk arr low high k
      match hres : ps.res with
      | Except.error e => ⟨ps.trace, ps.arr, -1, some e⟩
      | Except.ok p =>
        if 2 * rest.length + 4 > cap * 2 then
          if swapOk ps.k then
            let res := qloopF cmpE swapOk size ps.arr
              (qnext size low high p rest) (cap * 2) (ps.k + 1)
            ⟨ps.trace ++ res.trace, res.arr, res.ret, res.err⟩
          else ⟨ps.trace, ps.arr, -1, some ENOMEM⟩
        else
          let res := qloopF cmpE swapOk size ps.arr
            (qnext size low high p rest) cap ps.k
          ⟨ps.trace ++ res.trace, res.arr, res.ret, res.err⟩
    else qloopF cmpE swapOk size arr rest cap k
termination_by qmeasure stack
decreasing_by
  · have hb := partitionStepF_bounds cmpE swapOk arr low high k hlh p hres
    exact qnext_measure_lt size low high p rest hlh hb.1 hb.2
  · have hb := partitionStepF_bounds cmpE swapOk arr low high k hlh p hres
    exact qnext_measure_lt size low high p rest hlh hb.1 hb.2
  · simp only [qmeasure]
    have : 1 ≤ 2 ^ (high + 1 - low) := Nat.one_le_two_pow
    omega

/-- quicksort from algorithms.c with fallible comparator and allocations,
for non-null array and comparator: argument and overflow guards, the
trivial-size early return, the initial 64-range stack allocation (one
attempt that may fail), then the stack loop. -/
def quicksortF {α : Type u} [Inhabited α] (a : List α) (size ts : Nat)
    (cmpE : α → α → Except Nat Int) (swapOk : Nat → Bool) : QRes α :=
  if ts = 0 then ⟨[], a, -1, some EINVAL⟩
  else if size > SIZE_MAX / ts then ⟨[], a, -1, some EOVERFLOW⟩
  else if size ≤ 1 then ⟨[], a, 0, none⟩
  else if swapOk 0 then qloopF cmpE swapOk size a [(0, size - 1)] 64 1
  else ⟨[], a, -1, some ENOMEM⟩

section FallPerm

variable {α : Type u} [Inhabited α]

theorem insInnerF_perm (cmpE : α → α → Except Nat Int) (swapOk : Nat → Bool) :
    ∀ (j : Nat) (l : List α) (k : Nat), j < l.length →
    (insInnerF cmpE swapOk l k j).arr.Perm l ∧
    ∀ s ∈ (insInnerF cmpE swapOk l k j).trace, s.Perm l := by
  intro j
  induction j with
  | zero =>
    intro l k hj
    rw [insInnerF]
    exact ⟨List.Perm.refl l, fun s hs => absurd hs (List.not_mem_nil s)⟩
  | succ jm ih =>
    intro l k hj
    rw [insInnerF]
    split
    · exact ⟨List.Perm.refl l, fun s hs => absurd hs (List.not_mem_nil s)⟩
    · split
      · exact ⟨List.Perm.refl l, fun s hs => absurd hs (List.not_mem_nil s)⟩
      · split
        · dsimp only
          have hperm : (swapL l (jm + 1) jm).Perm l :=
            swapL_perm l (jm + 1) jm hj (by omega)
          have hr := ih (swapL l (jm + 1) jm) (k + 1)
            (by rw [length_swapL]; omega)
          refine ⟨hr.1.trans hperm, ?_⟩
          intro s hs
          rcases List.mem_cons.mp hs with rfl | hs'
          · exact hperm
          · exact (hr.2 s hs').trans hperm
        · exact ⟨List.Perm.refl l, fun s hs => absurd hs (List.not_mem_nil s)⟩

theorem insOuterF_perm (cmpE : α → α → Except Nat Int) (swapOk : Nat → Bool)
    (size : Nat) :
    ∀ (m i : Nat) (l : List α) (k : Nat), size - i ≤ m → size ≤ l.length →
    (insOuterF cmpE swapOk size l k i).arr.Perm l ∧
    ∀ s ∈ (insOuterF cmpE swapOk size l k i).trace, s.Perm l := by
  intro m
  induction m with
  | zero =>
    intro i l k hm hsz
    rw [insOuterF, dif_neg (by omega)]
    exact ⟨List.Perm.refl l, fun s hs => absurd hs (List.not_mem_nil s)⟩
  | succ m ih =>
    intro i l k hm hsz
    rw [insOuterF]
    by_cases hi : i < size
    · rw [dif_pos hi]
      dsimp only
      have hin := insInnerF_perm cmpE swapOk i l k (by omega)
      split
      · have hlen := hin.1.length_eq
        have hrec := ih (i + 1) (insInnerF cmpE swapOk l k i).arr
          (insInnerF cmpE swapOk l k i).k (by omega) (by omega)
        refine ⟨hrec.1.trans hin.1, ?_⟩
        intro s hs
        rcases List.mem_append.mp hs with hs' | hs'
        · exact hin.2 s hs'
        · exact (hrec.2 s hs').trans hin.1
      · exact hin
    · rw [dif_neg hi]
      exact ⟨List.Perm.refl l, fun s hs => absurd hs (List.not_mem_nil s)⟩

theorem selMinF_lt (cmpE : α → α → Except Nat Int) (l : List α) (size : Nat) :
    ∀ (j m mr : Nat), m < size → selMinF cmpE l size m j = Except.ok mr →
    mr < size := by
  have key : ∀ n (j m mr : Nat), size - j ≤ n → m < size →
      selMinF cmpE l size m j = Except.ok mr → mr < size := by
    intro n
    induction n with
    | zero =>
      intro j m mr hn hm h
      rw [selMinF, dif_neg (by omega)] at h
      injection h with h
      omega
    | succ n ih =>
      intro j m mr hn hm h
      rw [selMinF] at h
      by_cases hj : j < size
      · rw [dif_pos hj] at h
        split at h
        · exact absurd h (by simp)
        · split at h
          · exact ih (j + 1) j mr (by omega) (by omega) h
          · exact ih (j + 1) m mr (by omega) hm h
      · rw [dif_neg hj] at h
        injection h with h
        omega
  intro j m mr hm h
  exact key (size - j) j m mr le_rfl hm h

theorem selOuterF_perm (cmpE : α → α → Except Nat Int) (swapOk : Nat → Bool)
    (size : Nat) :
    ∀ (m i : Nat) (l : List α) (k : Nat), size - 1 - i ≤ m → size ≤ l.length →
    (selOuterF cmpE swapOk size l k i).arr.Perm l ∧
    ∀ s ∈ (selOuterF cmpE swapOk size l k i).trace, s.Perm l := by
  intro m
  induction m with
  | zero =>
    intro i l k hm hsz
    rw [selOuterF, dif_neg (by omega)]
    exact ⟨List.Perm.refl l, fun s hs => absurd hs (List.not_mem_nil s)⟩
  | succ m ih =>
    intro i l k hm hsz
    rw [selOuterF]
    by_cases hi : i < size - 1
    · rw [dif_pos hi]
      split
      · exact ⟨List.Perm.refl l, fun s hs => absurd hs (List.not_mem_nil s)⟩
      · rename_i mv hmin
        have hmv : mv < size := selMinF_lt cmpE l size (i + 1) i mv (by omega) hmin
        split
        · exact ih (i + 1) l k (by omega) hsz
        · split
          · dsimp only
            have hperm : (swapL l i mv).Perm l :=
              swapL_perm l i mv (by omega) (by omega)
            have hrec := ih (i + 1) (swapL l i mv) (k + 1)
              (by omega) (by rw [length_swapL]; omega)
            refine ⟨hrec.1.trans hperm, ?_⟩
            intro s hs
            rcases List.mem_cons.mp hs with rfl | hs'
            · exact hperm
            · exact (hrec.2 s hs').trans hperm
          · exact ⟨List.Perm.refl l, fun s hs => absurd hs (List.not_mem_nil s)⟩
    · rw [dif_neg hi]
      exact ⟨List.Perm.refl l, fun s hs => absurd hs (List.not_mem_nil s)⟩

end FallPerm

section FallPermQ

variable {α : Type u} [Inhabited α]

theorem ploopF_perm (cmpE : α → α → Except Nat Int) (swapOk : Nat → Bool)
    (low pIdx high : Nat) :
    ∀ (arr : List α) (l : Nat) (r : Int) (k : Nat),
    high < arr.length → r ≤ (high : Int) - 1 →
    (ploopF cmpE swapOk arr low pIdx l r k).arr.Perm arr ∧
    ∀ s ∈ (ploopF cmpE swapOk arr low pIdx l r k).trace, s.Perm arr := by
  have key : ∀ n (arr : List α) (l : Nat) (r : Int) (k : Nat),
      (r - l + 1).toNat ≤ n → high < arr.length → r ≤ (high : Int) - 1 →
      (ploopF cmpE swapOk arr low pIdx l r k).arr.Perm arr ∧
      ∀ s ∈ (ploopF cmpE swapOk arr low pIdx l r k).trace, s.Perm arr := by
    intro n
    induction n with
    | zero =>
      intro arr l r k hn hlen hr
      rw [ploopF, if_neg (by omega)]
      exact ⟨List.Perm.refl arr, fun s hs => absurd hs (List.not_mem_nil s)⟩
    | succ n ih =>
      intro arr l r k hn hlen hr
      rw [ploopF]
      by_cases hlr : (l : Int) ≤ r
      · rw [if_pos hlr]
        split
        · exact ⟨List.Perm.refl arr, fun s hs => absurd hs (List.not_mem_nil s)⟩
        · rename_i lp hsl
          split
          · exact ⟨List.Perm.refl arr,
              fun s hs => absurd hs (List.not_mem_nil s)⟩
          · rename_i rp hsr
            have hsl1 := scanLF_ge cmpE arr pIdx l r.toNat _ hsl
            have hsr1 := scanRF_le cmpE arr pIdx low r _ hsr
            split
            · rename_i hcross
              split
              · exact ih arr (lp + 1) (rp - 1) k (by omega) hlen (by omega)
              · split
                · dsimp only
                  have hperm : (swapL arr lp rp.toNat).Perm arr :=
                    swapL_perm arr lp rp.toNat (by omega) (by omega)
                  have hrec := ih (swapL arr lp rp.toNat) (lp + 1) (rp - 1)
                    (k + 1) (by omega) (by rw [length_swapL]; omega) (by omega)
                  refine ⟨hrec.1.trans hperm, ?_⟩
                  intro s hs
                  rcases List.mem_cons.mp hs with rfl | hs'
                  · exact hperm
                  · exact (hrec.2 s hs').trans hperm
                · exact ⟨List.Perm.refl arr,
                    fun s hs => absurd hs (List.not_mem_nil s)⟩
            · exact ⟨List.Perm.refl arr,
                fun s hs => absurd hs (List.not_mem_nil s)⟩
      · rw [if_neg hlr]
        exact ⟨List.Perm.refl arr, fun s hs => absurd hs (List.not_mem_nil s)⟩
  intro arr l r k hlen hr
  exact key (r - l + 1).toNat arr l r k le_rfl hlen hr

theorem pivotFinish_perm (swapOk : Nat → Bool) (high : Nat) (base : List α)
    (trace1 : List (List α)) (pr : PRes α)
    (hbase : pr.arr.Perm base) (htr : ∀ s ∈ pr.trace, s.Perm base)
    (htr1 : ∀ s ∈ trace1, s.Perm base)
    (hhigh : high < pr.arr.length)
    (hlp : ∀ lp, pr.res = Except.ok lp → lp ≤ high) :
    (pivotFinish swapOk high trace1 pr).arr.Perm base ∧
    ∀ s ∈ (pivotFinish swapOk high trace1 pr).trace, s.Perm base := by
  have hcat : ∀ s ∈ trace1 ++ pr.trace, s.Perm base := by
    intro s hs
    rcases List.mem_append.mp hs with h | h
    · exact htr1 s h
    · exact htr s h
  rw [pivotFinish]
  split
  · exact ⟨hbase, hcat⟩
  · rename_i lp hres
    split
    · exact ⟨hbase, hcat⟩
    · split
      · have hlp' := hlp lp hres
        have hperm : (swapL pr.arr lp high).Perm pr.arr :=
          swapL_perm pr.arr lp high (by omega) hhigh
        refine ⟨hperm.trans hbase, ?_⟩
        intro s hs
        rcases List.mem_append.mp hs with h | h
        · exact hcat s h
        · rcases List.mem_cons.mp h with rfl | h'
          · exact hperm.trans hbase
          · exact absurd h' (List.not_mem_nil s)
      · exact ⟨hbase, hcat⟩

theorem medianSel_cases (clm clh cmh : Int) (low mid high : Nat) :
    medianSel clm clh cmh low mid high = low ∨
    medianSel clm clh cmh low mid high = mid ∨
    medianSel clm clh cmh low mid high = high := by
  unfold medianSel
  split_ifs <;> simp

theorem partitionStepF_perm (cmpE : α → α → Except Nat Int)
    (swapOk : Nat → Bool) (arr : List α) (low high k : Nat)
    (hlh : low < high) (hlen : high < arr.length) :
    (partitionStepF cmpE swapOk arr low high k).arr.Perm arr ∧
    ∀ s ∈ (partitionStepF cmpE swapOk arr low high k).trace, s.Perm arr := by
  have hmid : low ≤ low + (high - low) / 2 ∧ low + (high - low) / 2 ≤ high := by
    have := Nat.div_le_self (high - low) 2
    omega
  rw [partitionStepF]
  split
  · exact ⟨List.Perm.refl arr, fun s hs => absurd hs (List.not_mem_nil s)⟩
  · split
    · exact ⟨List.Perm.refl arr, fun s hs => absurd hs (List.not_mem_nil s)⟩
    · split
      · exact ⟨List.Perm.refl arr, fun s hs => absurd hs (List.not_mem_nil s)⟩
      · rename_i x1 clm hclm x2 clh hclh x3 cmh hcmh
        dsimp only
        split
        · have hpl := ploopF_perm cmpE swapOk low high high arr low
            ((high : Int) - 1) k hlen (by omega)
          refine pivotFinish_perm swapOk high arr [] _ hpl.1 hpl.2
            (fun s hs => absurd hs (List.not_mem_nil s))
            (by rw [hpl.1.length_eq]; exact hlen) ?_
          intro lp hres
          exact (ploopF_bounds cmpE swapOk low high high arr low
            ((high : Int) - 1) k lp le_rfl (by omega) (by omega) hres).2
        · split
          · rename_i hq hok
            have hqlt : medianSel clm clh cmh low (low + (high - low) / 2) high
                < arr.length := by
              rcases medianSel_cases clm clh cmh low (low + (high - low) / 2)
                high with h | h | h <;> rw [h] <;> omega
            have hperm1 : (swapL arr (medianSel clm clh cmh low
                (low + (high - low) / 2) high) high).Perm arr :=
              swapL_perm arr _ high hqlt hlen
            have hlen1 : high < (swapL arr (medianSel clm clh cmh low
                (low + (high - low) / 2) high) high).length := by
              rw [length_swapL]; exact hlen
            have hpl := ploopF_perm cmpE swapOk low high high _ low
              ((high : Int) - 1) (k + 1) hlen1 (by omega)
            refine pivotFinish_perm swapOk high arr [_] _
              (hpl.1.trans hperm1) (fun s hs => (hpl.2 s hs).trans hperm1)
              ?_ (by rw [hpl.1.length_eq]; exact hlen1) ?_
            · intro s hs
              rcases List.mem_cons.mp hs with rfl | h'
              · exact hperm1
              · exact absurd h' (List.not_mem_nil s)
            · intro lp hres
              exact (ploopF_bounds cmpE swapOk low high high _ low
                ((high : Int) - 1) (k + 1) lp le_rfl (by omega) (by omega)
                hres).2
          · exact ⟨List.Perm.refl arr,
              fun s hs => absurd hs (List.not_mem_nil s)⟩

end FallPermQ

section FallPermQ2

variable {α : Type u} [Inhabited α]

theorem qloopF_perm (cmpE : α → α → Except Nat Int) (swapOk : Nat → Bool)
    (size : Nat) :
    ∀ (stack : List (Nat × Nat)) (arr : List α) (cap k : Nat),
    (∀ r ∈ stack, r.2 < arr.length) →
    (qloopF cmpE swapOk size arr stack cap k).arr.Perm arr ∧
    ∀ s ∈ (qloopF cmpE swapOk size arr stack cap k).trace, s.Perm arr := by
  have key : ∀ n (stack : List (Nat × Nat)) (arr : List α) (cap k : Nat),
      qmeasure stack ≤ n → (∀ r ∈ stack, r.2 < arr.length) →
      (qloopF cmpE swapOk size arr stack cap k).arr.Perm arr ∧
      ∀ s ∈ (qloopF cmpE swapOk size arr stack cap k).trace, s.Perm arr := by
    intro n
    induction n with
    | zero =>
      intro stack arr cap k hn hb
      rcases stack with _ | ⟨⟨low, high⟩, rest⟩
      · rw [qloopF]
        exact ⟨List.Perm.refl arr, fun s hs => absurd hs (List.not_mem_nil s)⟩
      · exfalso
        have h1 : 1 ≤ 2 ^ (high + 1 - low) := Nat.one_le_two_pow
        simp only [qmeasure] at hn
        omega
    | succ n ih =>
      intro stack arr cap k hn hb
      rcases stack with _ | ⟨⟨low, high⟩, rest⟩
      · rw [qloopF]
        exact ⟨List.Perm.refl arr, fun s hs => absurd hs (List.not_mem_nil s)⟩
      · simp only [qmeasure] at hn
        have h1 : 1 ≤ 2 ^ (high + 1 - low) := Nat.one_le_two_pow
        have hbrest : ∀ r ∈ rest, r.2 < arr.length :=
          fun r hr => hb r (List.mem_cons_of_mem _ hr)
        rw [qloopF]
        by_cases hlh : low < high
        · rw [dif_pos hlh]
          have hhs : high < arr.length := hb (low, high) (List.mem_cons_self _ _)
          have hps := partitionStepF_perm cmpE swapOk arr low high k hlh hhs
          have hplen := hps.1.length_eq
          dsimp only
          split
          · exact hps
          · rename_i p hres
            have hpb := partitionStepF_bounds cmpE swapOk arr low high k
              hlh p hres
            have hqb : ∀ rr ∈ qnext size low high p rest,
                rr.2 < (partitionStepF cmpE swapOk arr low high k).arr.length := by
              intro rr hrr
              rw [hplen]
              unfold qnext at hrr
              split at hrr
              · split at hrr
                · rcases List.mem_cons.mp hrr with rfl | hrr'
                  · dsimp only
                    omega
                  · rcases List.mem_cons.mp hrr' with rfl | hrr''
                    · dsimp only
                      omega
                    · exact hbrest rr hrr''
                · rcases List.mem_cons.mp hrr with rfl | hrr'
                  · dsimp only
                    omega
                  · rcases List.mem_cons.mp hrr' with rfl | hrr''
                    · dsimp only
                      omega
                    · exact hbrest rr hrr''
              · exact hbrest rr hrr
            have hqm := qnext_measure_lt size low high p rest hlh hpb.1 hpb.2
            simp only [qmeasure] at hqm
            split
            · split
              · dsimp only
                have hrec := ih (qnext size low high p rest)
                  (partitionStepF cmpE swapOk arr low high k).arr
                  (cap * 2) ((partitionStepF cmpE swapOk arr low high k).k + 1)
                  (by omega) hqb
                refine ⟨hrec.1.trans hps.1, ?_⟩
                intro s hs
                rcases List.mem_append.mp hs with h | h
                · exact hps.2 s h
                · exact (hrec.2 s h).trans hps.1
              · exact hps
            · dsimp only
              have hrec := ih (qnext size low high p rest)
                (partitionStepF cmpE swapOk arr low high k).arr
                cap (partitionStepF cmpE swapOk arr low high k).k
                (by omega) hqb
              refine ⟨hrec.1.trans hps.1, ?_⟩
              intro s hs
              rcases List.mem_append.mp hs with h | h
              · exact hps.2 s h
              · exact (hrec.2 s h).trans hps.1
        · rw [dif_neg hlh]
          exact ih rest arr cap k (by omega) hbrest
  intro stack arr cap k hb
  exact key (qmeasure stack) stack arr cap k le_rfl hb

end FallPermQ2

/-- C8: for each of the three sorts run under ANY comparator behaviour
(including error-signalling ones) and ANY allocation behaviour, with the
array view covering at most the allocation, every intermediate array
state a run passes through — the state after each successful swap — and
the final array on return, success or abort, is a permutation of the
input: the only mutation primitive either exchanges two element slots
completely or fails leaving the array untouched. -/
theorem claim_C8_multiset {α : Type u} [Inhabited α] (a : List α)
    (size ts : Nat) (cmpE : α → α → Except Nat Int) (swapOk : Nat → Bool)
    (hsz : size ≤ a.length) :
    ((insertion_sortF a size ts cmpE swapOk).arr.Perm a ∧
     ∀ s ∈ (insertion_sortF a size ts cmpE swapOk).trace, s.Perm a) ∧
    ((selection_sortF a size ts cmpE swapOk).arr.Perm a ∧
     ∀ s ∈ (selection_sortF a size ts cmpE swapOk).trace, s.Perm a) ∧
    ((quicksortF a size ts cmpE swapOk).arr.Perm a ∧
     ∀ s ∈ (quicksortF a size ts cmpE swapOk).trace, s.Perm a) := by
  have htriv : ∀ (t : TOut α), t.trace = [] → t.arr = a →
      t.arr.Perm a ∧ ∀ s ∈ t.trace, s.Perm a := by
    intro t h1 h2
    rw [h1, h2]
    exact ⟨List.Perm.refl a, fun s hs => absurd hs (List.not_mem_nil s)⟩
  refine ⟨?_, ?_, ?_⟩
  · rw [insertion_sortF]
    split
    · exact htriv _ rfl rfl
    · split
      · exact htriv _ rfl rfl
      · exact insOuterF_perm cmpE swapOk size (size - 1) 1 a 0 (by omega) hsz
  · rw [selection_sortF]
    split
    · exact htriv _ rfl rfl
    · split
      · exact htriv _ rfl rfl
      · split
        · exact selOuterF_perm cmpE swapOk size (size - 1) 0 a 0 (by omega) hsz
        · exact htriv _ rfl rfl
  · rw [quicksortF]
    split
    · exact ⟨List.Perm.refl a, fun s hs => absurd hs (List.not_mem_nil s)⟩
    · split
      · exact ⟨List.Perm.refl a, fun s hs => absurd hs (List.not_mem_nil s)⟩
      · split
        · exact ⟨List.Perm.refl a, fun s hs => absurd hs (List.not_mem_nil s)⟩
        · split
          · refine qloopF_perm cmpE swapOk size [(0, size - 1)] a 64 1 ?_
            intro r hr
            rcases List.mem_cons.mp hr with rfl | hr'
            · dsimp only
              rename_i hts hov hsz1 hal
              omega
            · exact absurd hr' (List.not_mem_nil r)
          · exact ⟨List.Perm.refl a, fun s hs => absurd hs (List.not_mem_nil s)⟩

/-- Witness for C8 at the array [2, 1] with stride 4, an error-free
comparator and all allocations succeeding. -/
theorem claim_C8_witness :
    ([2, 1] : List Int).length ≤ ([2, 1] : List Int).length ∧
    (((insertion_sortF ([2, 1] : List Int) ([2, 1] : List Int).length 4
        (fun a b => Except.ok (intCmp a b)) (fun _ => true)).arr.Perm [2, 1] ∧
      ∀ s ∈ (insertion_sortF ([2, 1] : List Int) ([2, 1] : List Int).length 4
        (fun a b => Except.ok (intCmp a b)) (fun _ => true)).trace,
        s.Perm [2, 1]) ∧
     ((selection_sortF ([2, 1] : List Int) ([2, 1] : List Int).length 4
        (fun a b => Except.ok (intCmp a b)) (fun _ => true)).arr.Perm [2, 1] ∧
      ∀ s ∈ (selection_sortF ([2, 1] : List Int) ([2, 1] : List Int).length 4
        (fun a b => Except.ok (intCmp a b)) (fun _ => true)).trace,
        s.Perm [2, 1]) ∧
     ((quicksortF ([2, 1] : List Int) ([2, 1] : List Int).length 4
        (fun a b => Except.ok (intCmp a b)) (fun _ => true)).arr.Perm [2, 1] ∧
      ∀ s ∈ (quicksortF ([2, 1] : List Int) ([2, 1] : List Int).length 4
        (fun a b => Except.ok (intCmp a b)) (fun _ => true)).trace,
        s.Perm [2, 1])) :=
  ⟨le_rfl, claim_C8_multiset [2, 1] ([2, 1] : List Int).length 4
    (fun a b => Except.ok (intCmp a b)) (fun _ => true) le_rfl⟩
